import Mathlib

/-!
# ga-go: polynomial fitting by a generational evolutionary search

A verification development for `cmd/ga/main.go`.

## Modelling conventions

* `float64` is modelled by `ℚ`: all arithmetic is exact, `math.Pow(x, n)` is `x ^ n`,
  and there is no NaN, infinity or rounding.  The two comparisons of the program whose
  behaviour on NaN and infinities matters (the comparison of `bestOrganisms` and the
  condition of the loop) are modelled a second time on the type `Float64`, whose values
  are NaN, the two infinities and the finite numbers.
* The program is followed from the records returned by `reader.ReadAll()` on; a field of
  a record is represented by what `strconv.ParseFloat` makes of it.
* Organisms live behind pointers (`*organism`).  The heap is a list of cells, a pointer is
  the index of a cell, and a pointer that does not index a cell (such as `nil`) cannot be
  dereferenced: doing so is a run-time panic.
* A run-time panic (nil dereference, index or slice bound out of range, integer division
  by zero) is the result `none`.
* `rand.Float64()` is modelled by an explicit stream `draws : ℕ → ℚ` together with the
  number of draws consumed so far.
* Go `int` values are unbounded integers (no wrap-around); loop counters that are
  non-negative by construction are natural numbers.
* `sort.SliceStable` is modelled by the algorithm of the Go library (`stable_func` in
  `sort/zsortfunc.go`): insertion sort of blocks of 20 elements, then passes that merge
  neighbouring blocks in place (`symMerge_func`).  The loops carry a bound on the number
  of their iterations, chosen so that it is not reached.  For a comparison that orders the
  elements of the slice by a key, the result is that of the insertion sort over the whole
  slice (`SliceStable_eq_insertionSort`), and in this form the proofs use it; with a
  badness that is NaN the comparison is not of that kind, and the result depends on the
  steps of the algorithm.
* `float64` rounding is modelled apart (`roundFloat64`), for the one statement about
  `Mutate` that it decides.
* The goroutines of the evaluation step are run one after the other, in order of their
  worker number `c`, and `wg.Wait()` is the end of that sequence.
-/

namespace GA

/-! ## Data model -/

/-- The struct `organism`: six genes and the badness (lower is better). -/
structure organism where
  a : ℚ
  b : ℚ
  c : ℚ
  d : ℚ
  e : ℚ
  f : ℚ
  badness : ℚ
deriving DecidableEq, Repr

/-- A pointer `*organism`: the address of a heap cell. -/
abbrev Ptr := ℕ

/-- The heap of organisms; cell `p` is `h[p]`. -/
abbrev Heap := List organism

/-- The six genes of an organism, without the badness. -/
def organism.genes (o : organism) : List ℚ := [o.a, o.b, o.c, o.d, o.e, o.f]

/-! ## `Copy` -/

/-- The struct literal built by `Copy`: same genes, `badness: 0`. -/
def organism.copyFields (o : organism) : organism :=
  { a := o.a, b := o.b, c := o.c, d := o.d, e := o.e, f := o.f, badness := 0 }

/-- The method `func (o *organism) Copy() *organism`: allocates a new cell holding the struct literal
and returns its address.  Panics when `o` cannot be dereferenced. -/
def Copy (h : Heap) (o : Ptr) : Option (Heap × Ptr) :=
  match h[o]? with
  | none => none
  | some v => some (h ++ [v.copyFields], h.length)

/-! ## `Mutate` -/

/-- The six assignments of `Mutate`, with the six values returned by `rand.Float64()`. -/
def organism.mutateFields (o : organism) (lr : ℚ) (r1 r2 r3 r4 r5 r6 : ℚ) : organism :=
  { o with
    a := o.a + (r1 * 2 - 1) * lr
    b := o.b + (r2 * 2 - 1) * lr
    c := o.c + (r3 * 2 - 1) * lr
    d := o.d + (r4 * 2 - 1) * lr
    e := o.e + (r5 * 2 - 1) * lr
    f := o.f + (r6 * 2 - 1) * lr }

/-- The method `func (o *organism) Mutate(lr float64)`: updates the cell of `o` in place, consuming
the draws `pos`, ..., `pos + 5` of the random stream. -/
def Mutate (h : Heap) (o : Ptr) (lr : ℚ) (draws : ℕ → ℚ) (pos : ℕ) : Option Heap :=
  match h[o]? with
  | none => none
  | some v =>
    some (h.set o (v.mutateFields lr (draws pos) (draws (pos + 1)) (draws (pos + 2))
      (draws (pos + 3)) (draws (pos + 4)) (draws (pos + 5))))

/-! ## `newRandomOrganism` -/

/-- The function `func newRandomOrganism() *organism`: allocates a cell with six genes `r*20 - 10` and
`badness: 0`, consuming the draws `pos`, ..., `pos + 5`. -/
def newRandomOrganism (h : Heap) (draws : ℕ → ℚ) (pos : ℕ) : Heap × Ptr :=
  (h ++ [{ a := draws pos * 20 - 10
           b := draws (pos + 1) * 20 - 10
           c := draws (pos + 2) * 20 - 10
           d := draws (pos + 3) * 20 - 10
           e := draws (pos + 4) * 20 - 10
           f := draws (pos + 5) * 20 - 10
           badness := 0 }], h.length)

/-! ## `Fit` -/

/-- The second loop of `Fit`: `for i := 0; i < len(predictions); i++ { se += ... }`.
The first argument is `ys`, the second the predictions not yet visited, then the loop
counter `i` and the accumulator `se`.  `ys[i]` panics when `i` is out of range. -/
def squaredErrorLoop (ys : List ℚ) : List ℚ → ℕ → ℚ → Option ℚ
  | [], _, se => some se
  | p :: ps, i, se =>
    match ys[i]? with
    | none => none
    | some y => squaredErrorLoop ys ps (i + 1) (se + (p - y) * (p - y))

/-- The method `func (o *organism) Fit(xs, ys []float64, f func(x float64) float64)`: the predictions
`f(xs[i])` are computed first, then the squared error is accumulated from `0.0` and stored
in `o.badness`. -/
def Fit (h : Heap) (o : Ptr) (xs ys : List ℚ) (f : ℚ → ℚ) : Option Heap :=
  match h[o]? with
  | none => none
  | some v =>
    match squaredErrorLoop ys (xs.map f) 0 0 with
    | none => none
    | some se => some (h.set o { v with badness := se })

/-- The closure `f` built in `main` for the organism `o`:
`o.a*x^5 + o.b*x^4 + o.c*x^3 + o.d*x^2 + o.e*x + o.f`. -/
def quintic (o : organism) (x : ℚ) : ℚ :=
  o.a * x ^ 5 + o.b * x ^ 4 + o.c * x ^ 3 + o.d * x ^ 2 + o.e * x + o.f

/-! ## `bestOrganisms` -/

/-- Inner loop of the library's insertion sort,
`for j := i; j > a && less(j, j-1); j-- { swap(j, j-1) }`: the element `x` travels
backwards while it is `less` than its left neighbour.  The list is the part of the slice
to the left of `x`, nearest element first. -/
def insertBackward {α : Type} (less : α → α → Bool) (x : α) : List α → List α
  | [] => [x]
  | y :: before => if less x y then y :: insertBackward less x before else x :: y :: before

/-- Outer loop of the insertion sort: `done` is the part already visited (nearest element
first, that is, in reverse), the second list the part still to visit. -/
def insertionSortLoop {α : Type} (less : α → α → Bool) : List α → List α → List α
  | done, [] => done.reverse
  | done, x :: rest => insertionSortLoop less (insertBackward less x done) rest

/-- The insertion sort of the library run over a whole list: every element in turn
travels backwards to its place.  The library sorts blocks of at most 20 elements this way
(`insertionSort_func` below is the same loop on a part of the slice); over a whole slice
it is the reference sort of the statements. -/
def insertionSort {α : Type} (less : α → α → Bool) (xs : List α) : List α :=
  insertionSortLoop less [] xs

/-! ### The library function `sort.SliceStable`

The library (`stable_func` in `sort/zsortfunc.go`) sorts blocks of 20 elements by
insertion and then merges neighbouring blocks in place with `symMerge_func`, which finds
its split points by binary search and moves elements by rotations.  The algorithm is
modelled as it is written, on the contents of the slice and with the indices the library
uses; `data.Less(i, j)` and `data.Swap(i, j)` are the comparison of the caller and the
exchange of two elements. -/

/-- The call `data.Swap(i, j)`: the elements at `i` and `j` change places.  The library
only calls it with indices in range. -/
def swapAt {α : Type} (data : List α) (i j : ℕ) : List α :=
  match data[i]?, data[j]? with
  | some x, some y => (data.set i y).set j x
  | _, _ => data

/-- The call `data.Less(i, j)`: the comparison of the caller on the elements that are at
`i` and `j` now.  The library only calls it with indices in range. -/
def lessAt {α : Type} (less : α → α → Bool) (data : List α) (i j : ℕ) : Bool :=
  match data[i]?, data[j]? with
  | some x, some y => less x y
  | _, _ => false

/-- The inner loop of `insertionSort_func`,
`for j := i; j > a && data.Less(j, j-1); j-- { data.Swap(j, j-1) }`, from `j` on. -/
def insertionSortInner {α : Type} (less : α → α → Bool) (a : ℕ) : ℕ → List α → List α
  | 0, data => data
  | j + 1, data =>
    if a < j + 1 ∧ lessAt less data (j + 1) j = true then
      insertionSortInner less a j (swapAt data (j + 1) j)
    else data

/-- The outer loop of `insertionSort_func`, `for i := a + 1; i < b; i++ { ... }`, from `i`
on; the first argument bounds the number of iterations. -/
def insertionSortOuter {α : Type} (less : α → α → Bool) (a b : ℕ) :
    ℕ → ℕ → List α → List α
  | 0, _, data => data
  | fuel + 1, i, data =>
    if i < b then insertionSortOuter less a b fuel (i + 1) (insertionSortInner less a i data)
    else data

/-- The library function `insertionSort_func(data, a, b)`: insertion sort of
`data[a:b]`. -/
def insertionSort_func {α : Type} (less : α → α → Bool) (data : List α) (a b : ℕ) : List α :=
  insertionSortOuter less a b (b - a) (a + 1) data

/-- The loop of `swapRange_func`, `for i := 0; i < n; i++ { data.Swap(a+i, b+i) }`, from
`i` on; the first argument bounds the number of iterations. -/
def swapRangeLoop {α : Type} (a b n : ℕ) : ℕ → ℕ → List α → List α
  | 0, _, data => data
  | fuel + 1, i, data =>
    if i < n then swapRangeLoop a b n fuel (i + 1) (swapAt data (a + i) (b + i)) else data

/-- The library function `swapRange_func(data, a, b, n)`. -/
def swapRange_func {α : Type} (data : List α) (a b n : ℕ) : List α :=
  swapRangeLoop a b n n 0 data

/-- The loop of `rotate_func`,
`for i != j { if i > j { swapRange(m-i, m, j); i -= j } else { swapRange(m-i, m+j-i, i); j -= i } }`,
followed by the final `swapRange(m-i, m, i)`; the first argument bounds the number of
iterations. -/
def rotateLoop {α : Type} (m : ℕ) : ℕ → ℕ → ℕ → List α → List α
  | 0, _, _, data => data
  | fuel + 1, i, j, data =>
    if i ≠ j then
      if i > j then rotateLoop m fuel (i - j) j (swapRange_func data (m - i) m j)
      else rotateLoop m fuel i (j - i) (swapRange_func data (m - i) (m + j - i) i)
    else swapRange_func data (m - i) m i

/-- The library function `rotate_func(data, a, m, b)`: the blocks `data[a:m]` and
`data[m:b]` change places. -/
def rotate_func {α : Type} (data : List α) (a m b : ℕ) : List α :=
  rotateLoop m (b - a + 1) (m - a) (b - m) data

/-- The binary search of the first special case of `symMerge_func`,
`for i < j { h := int(uint(i+j) >> 1); if data.Less(h, a) { i = h + 1 } else { j = h } }`;
the result is the final `i`. -/
def searchLess {α : Type} (less : α → α → Bool) (data : List α) (a : ℕ) : ℕ → ℕ → ℕ → ℕ
  | 0, i, _ => i
  | fuel + 1, i, j =>
    if i < j then
      if lessAt less data ((i + j) / 2) a = true then
        searchLess less data a fuel ((i + j) / 2 + 1) j
      else searchLess less data a fuel i ((i + j) / 2)
    else i

/-- The binary search of the second special case of `symMerge_func`,
`for i < j { h := int(uint(i+j) >> 1); if !data.Less(m, h) { i = h + 1 } else { j = h } }`;
the result is the final `i`. -/
def searchNotLess {α : Type} (less : α → α → Bool) (data : List α) (m : ℕ) : ℕ → ℕ → ℕ → ℕ
  | 0, i, _ => i
  | fuel + 1, i, j =>
    if i < j then
      if lessAt less data m ((i + j) / 2) = false then
        searchNotLess less data m fuel ((i + j) / 2 + 1) j
      else searchNotLess less data m fuel i ((i + j) / 2)
    else i

/-- The binary search of the general case of `symMerge_func`,
`for start < r { c := int(uint(start+r) >> 1); if !data.Less(p-c, c) { start = c + 1 } else { r = c } }`;
the result is the final `start`. -/
def searchSplit {α : Type} (less : α → α → Bool) (data : List α) (p : ℕ) : ℕ → ℕ → ℕ → ℕ
  | 0, start, _ => start
  | fuel + 1, start, r =>
    if start < r then
      if lessAt less data (p - (start + r) / 2) ((start + r) / 2) = false then
        searchSplit less data p fuel ((start + r) / 2 + 1) r
      else searchSplit less data p fuel start ((start + r) / 2)
    else start

/-- The loop `for k := a; k < i-1; k++ { data.Swap(k, k+1) }` of `symMerge_func`, from `k`
on; the first argument bounds the number of iterations. -/
def moveUp {α : Type} (i : ℕ) : ℕ → ℕ → List α → List α
  | 0, _, data => data
  | fuel + 1, k, data =>
    if k + 1 < i then moveUp i fuel (k + 1) (swapAt data k (k + 1)) else data

/-- The loop `for k := m; k > i; k-- { data.Swap(k, k-1) }` of `symMerge_func`, from `k`
on; the first argument bounds the number of iterations. -/
def moveDown {α : Type} (i : ℕ) : ℕ → ℕ → List α → List α
  | 0, _, data => data
  | fuel + 1, k, data =>
    if k > i then moveDown i fuel (k - 1) (swapAt data k (k - 1)) else data

/-- The library function `symMerge_func(data, a, m, b)`: merges the sorted blocks
`data[a:m]` and `data[m:b]` in place.  The first argument bounds the depth of the
recursion; each call halves the length `b - a`. -/
def symMerge_func {α : Type} (less : α → α → Bool) : ℕ → List α → ℕ → ℕ → ℕ → List α
  | 0, data, _, _, _ => data
  | fuel + 1, data, a, m, b =>
    if m - a = 1 then
      moveUp (searchLess less data a (b - m) m b) (b - a) a data
    else if b - m = 1 then
      moveDown (searchNotLess less data m (m - a) a m) (b - a) m data
    else
      let mid := (a + b) / 2
      let n := mid + m
      let start0 := if m > mid then n - b else a
      let r0 := if m > mid then mid else m
      let start := searchSplit less data (n - 1) (r0 - start0) start0 r0
      let end_ := n - start
      let data1 := if start < m ∧ m < end_ then rotate_func data start m end_ else data
      let data2 := if a < start ∧ start < mid then symMerge_func less fuel data1 a start mid
        else data1
      if mid < end_ ∧ end_ < b then symMerge_func less fuel data2 mid end_ b else data2

/-- The first loop of `stable_func`,
`for b <= n { insertionSort_func(data, a, b); a = b; b += blockSize }`; the result is the
slice and the final `a`. -/
def sortBlocks {α : Type} (less : α → α → Bool) (blockSize n : ℕ) :
    ℕ → ℕ → ℕ → List α → List α × ℕ
  | 0, a, _, data => (data, a)
  | fuel + 1, a, b, data =>
    if b ≤ n then
      sortBlocks less blockSize n fuel b (b + blockSize) (insertionSort_func less data a b)
    else (data, a)

/-- The inner loop of the second part of `stable_func`,
`for b <= n { symMerge_func(data, a, a+blockSize, b); a = b; b += 2 * blockSize }`; the
result is the slice and the final `a`. -/
def mergeBlocks {α : Type} (less : α → α → Bool) (blockSize n : ℕ) :
    ℕ → ℕ → ℕ → List α → List α × ℕ
  | 0, a, _, data => (data, a)
  | fuel + 1, a, b, data =>
    if b ≤ n then
      mergeBlocks less blockSize n fuel b (b + 2 * blockSize)
        (symMerge_func less n data a (a + blockSize) b)
    else (data, a)

/-- The outer loop of the second part of `stable_func`,
`for blockSize < n { ...; if m := a + blockSize; m < n { symMerge_func(data, a, m, n) }; blockSize *= 2 }`. -/
def mergePasses {α : Type} (less : α → α → Bool) (n : ℕ) : ℕ → ℕ → List α → List α
  | 0, _, data => data
  | fuel + 1, blockSize, data =>
    if blockSize < n then
      mergePasses less n fuel (blockSize * 2)
        (if (mergeBlocks less blockSize n n 0 (2 * blockSize) data).2 + blockSize < n then
          symMerge_func less n (mergeBlocks less blockSize n n 0 (2 * blockSize) data).1
            (mergeBlocks less blockSize n n 0 (2 * blockSize) data).2
            ((mergeBlocks less blockSize n n 0 (2 * blockSize) data).2 + blockSize) n
        else (mergeBlocks less blockSize n n 0 (2 * blockSize) data).1)
    else data

/-- The library function `stable_func(data, n)`: insertion sort of blocks of 20 elements,
then passes that merge neighbouring blocks, the block size doubling from pass to pass. -/
def stable_func {α : Type} (less : α → α → Bool) (data : List α) (n : ℕ) : List α :=
  mergePasses less n n 20
    (insertionSort_func less (sortBlocks less 20 n n 0 20 data).1
      (sortBlocks less 20 n n 0 20 data).2 n)

/-- The call `sort.SliceStable(x, less)` on the contents of the slice:
`stable_func(lessSwap{less, swap}, rv.Len())`. -/
def SliceStable {α : Type} (less : α → α → Bool) (data : List α) : List α :=
  stable_func less data data.length
/-- The field `organisms[i].badness`; the value for a pointer that cannot be dereferenced
is never used, `bestOrganisms` panics before. -/
def badnessAt (h : Heap) (p : Ptr) : ℚ :=
  match h[p]? with
  | none => 0
  | some v => v.badness

/-- The comparison `organisms[i].badness < organisms[j].badness`. -/
def lessBadness (h : Heap) (p q : Ptr) : Bool := decide (badnessAt h p < badnessAt h q)

/-- Every pointer of the slice can be dereferenced. -/
def allValid (h : Heap) (organisms : List Ptr) : Bool := organisms.all (fun p => decide (p < h.length))

/-- What `bestOrganisms` leaves behind: `organisms` is the argument slice after the sort
reordered it in place, and the returned slice is `organisms[:len]`, which shares the
backing array of the argument. -/
structure Best where
  organisms : List Ptr
  len : ℕ
deriving DecidableEq, Repr

/-- The elements of the returned slice at the time `bestOrganisms` returns. -/
def Best.elems (r : Best) : List Ptr := r.organisms.take r.len

/-- The function `func bestOrganisms(organisms []*organism, limit int) []*organism`.
The comparison dereferences both pointers, and the sort compares every element of a
slice of two or more elements at least once, so a pointer that cannot be dereferenced
panics there.  `organisms[:limit]` panics for a negative `limit`. -/
def bestOrganisms (h : Heap) (organisms : List Ptr) (limit : ℤ) : Option Best :=
  if 2 ≤ organisms.length ∧ allValid h organisms = false then none
  else
    let sorted := SliceStable (lessBadness h) organisms
    if (sorted.length : ℤ) ≤ limit then some { organisms := sorted, len := sorted.length }
    else if limit < 0 then none
    else some { organisms := sorted, len := limit.toNat }

/-! ## `main`: one generation -/

/-- The index range of the slice expression `organisms[c*batchSize : c*batchSize+batchSize]`
iterated by worker `c`. -/
def shard (batchSize c : ℕ) : List ℕ := List.range' (c * batchSize) batchSize

/-- The `range` loop of a goroutine over the indices of its shard: for each organism `o`
the closure `f` is built from `o` and `o.Fit(d.xs, d.ys, f)` is called. -/
def fitEach (xs ys : List ℚ) (organisms : List Ptr) : List ℕ → Heap → Option Heap
  | [], h => some h
  | i :: rest, h =>
    match organisms[i]? with
    | none => none
    | some o =>
      match h[o]? with
      | none => none
      | some v =>
        match Fit h o xs ys (quintic v) with
        | none => none
        | some h' => fitEach xs ys organisms rest h'

/-- The goroutine of worker `c`; the slice expression panics when its upper bound exceeds
the length of `organisms`. -/
def worker (xs ys : List ℚ) (organisms : List Ptr) (batchSize c : ℕ) (h : Heap) : Option Heap :=
  if c * batchSize + batchSize ≤ organisms.length then
    fitEach xs ys organisms (shard batchSize c) h
  else none

/-- The evaluation step, `for c := 0; c < concurrency; c++ { go func(c int) {...}(c) }`
followed by `wg.Wait()`: `n` workers remain, the next one is worker `c`. -/
def evaluateLoop (xs ys : List ℚ) (organisms : List Ptr) (batchSize : ℕ) :
    ℕ → ℕ → Heap → Option Heap
  | 0, _, h => some h
  | n + 1, c, h =>
    match worker xs ys organisms batchSize c h with
    | none => none
    | some h' => evaluateLoop xs ys organisms batchSize n (c + 1) h'

/-- The evaluation step of one generation. -/
def evaluate (xs ys : List ℚ) (organisms : List Ptr) (concurrency batchSize : ℕ) (h : Heap) :
    Option Heap :=
  evaluateLoop xs ys organisms batchSize concurrency 0 h

/-- The repopulation loop
`for i := 0; i < population; i++ { organisms[i] = best[idx].Copy(); idx++; if idx > limit-1 { idx = 0 } }`.
`best` is the slice `organisms[:bestLen]` of the array being written, so `best[idx]` reads
the current `organisms[idx]` and panics unless `idx < bestLen`.  `n` iterations remain. -/
def repopulateLoop (limit : ℤ) (bestLen : ℕ) :
    ℕ → ℕ → ℕ → Heap → List Ptr → Option (Heap × List Ptr)
  | 0, _, _, h, organisms => some (h, organisms)
  | n + 1, i, idx, h, organisms =>
    if idx < bestLen then
      match organisms[idx]? with
      | none => none
      | some p =>
        match Copy h p with
        | none => none
        | some (h', q) =>
          if i < organisms.length then
            repopulateLoop limit bestLen n (i + 1)
              (if ((idx : ℤ) + 1 > limit - 1) then 0 else idx + 1) h' (organisms.set i q)
          else none
    else none

/-- The mutation loop
`for i := 0; i < population; i++ { if rand.Float64() < mutationRate { organisms[i].Mutate(learningRate) } }`.
`n` iterations remain and `pos` draws have been consumed. -/
def mutateLoop (mutationRate learningRate : ℚ) (draws : ℕ → ℚ) (organisms : List Ptr) :
    ℕ → ℕ → ℕ → Heap → Option (Heap × ℕ)
  | 0, _, pos, h => some (h, pos)
  | n + 1, i, pos, h =>
    if draws pos < mutationRate then
      match organisms[i]? with
      | none => none
      | some o =>
        match Mutate h o learningRate draws (pos + 1) with
        | none => none
        | some h' => mutateLoop mutationRate learningRate draws organisms n (i + 1) (pos + 7) h'
    else mutateLoop mutationRate learningRate draws organisms n (i + 1) (pos + 1) h

/-- The variables of `main` that change from one generation to the next: the heap, the
slice `organisms` and the number of random draws consumed. -/
structure GaState where
  heap : Heap
  organisms : List Ptr
  pos : ℕ
deriving DecidableEq, Repr

/-- What one generation computes: `loss = best[0].badness`, the organism `*best[0]` as it
was when the loss was read, and the variables after the mutation loop. -/
structure GenResult where
  loss : ℚ
  elite : organism
  next : GaState
deriving DecidableEq, Repr

/-- The run configuration, local variables of `main`. -/
structure Config where
  population : ℤ
  limit : ℤ
  mutationRate : ℚ
  learningRate : ℚ
  lossThreshold : ℚ
  concurrency : ℤ
deriving DecidableEq, Repr

/-- The body of the loop of `main`: evaluate, select, repopulate, mutate. -/
def generation (xs ys : List ℚ) (population concurrency batchSize : ℕ) (limit : ℤ)
    (mutationRate learningRate : ℚ) (draws : ℕ → ℚ) (st : GaState) : Option GenResult :=
  match evaluate xs ys st.organisms concurrency batchSize st.heap with
  | none => none
  | some h1 =>
    match bestOrganisms h1 st.organisms limit with
    | none => none
    | some best =>
      if 0 < best.len then
        match best.organisms[0]? with
        | none => none
        | some p0 =>
          match h1[p0]? with
          | none => none
          | some elite =>
            match repopulateLoop limit best.len population 0 0 h1 best.organisms with
            | none => none
            | some (h2, organisms2) =>
              match mutateLoop mutationRate learningRate draws organisms2 population 0 st.pos h2 with
              | none => none
              | some (h3, pos3) =>
                some { loss := elite.badness, elite := elite
                       next := { heap := h3, organisms := organisms2, pos := pos3 } }
      else none

/-! ## `main`: the loop and the report -/

/-- The constant `math.MaxFloat64`. -/
def MaxFloat64 : ℚ := 2 ^ 1024 - 2 ^ 971

/-- How a run ends: with a panic, with the printed organism, or (in the model only) with
the loop still running when the allowance of generations is used up. -/
inductive Outcome where
  | panicked : Outcome
  | running : ℚ → GaState → Outcome
  | reported : organism → Outcome
deriving DecidableEq, Repr

/-- After the loop: `best := bestOrganisms(organisms, 1); fmt.Println(best[0])`. -/
def report (st : GaState) : Outcome :=
  match bestOrganisms st.heap st.organisms 1 with
  | none => Outcome.panicked
  | some best =>
    if 0 < best.len then
      match best.organisms[0]? with
      | none => Outcome.panicked
      | some p0 =>
        match st.heap[p0]? with
        | none => Outcome.panicked
        | some v => Outcome.reported v
    else Outcome.panicked

/-- The loop `for gen := 0; loss >= lossThreshold; gen++ { ... }` with an allowance of
`fuel` generations, followed by the report. -/
def evolve (xs ys : List ℚ) (population concurrency batchSize : ℕ) (limit : ℤ)
    (mutationRate learningRate lossThreshold : ℚ) (draws : ℕ → ℚ) :
    ℕ → ℚ → GaState → Outcome
  | fuel, loss, st =>
    if loss ≥ lossThreshold then
      match fuel with
      | 0 => Outcome.running loss st
      | fuel + 1 =>
        match generation xs ys population concurrency batchSize limit mutationRate learningRate
            draws st with
        | none => Outcome.panicked
        | some r =>
          evolve xs ys population concurrency batchSize limit mutationRate learningRate
            lossThreshold draws fuel r.loss r.next
    else report st

/-- The initialisation loop `for i := 0; i < len(organisms); i++ { organisms[i] = newRandomOrganism() }`
over the slice made by `make([]*organism, population)`; `organisms` collects the pointers
stored so far. -/
def initLoop (draws : ℕ → ℚ) : ℕ → GaState → GaState
  | 0, st => st
  | n + 1, st =>
    initLoop draws n
      { heap := (newRandomOrganism st.heap draws st.pos).1
        organisms := st.organisms ++ [(newRandomOrganism st.heap draws st.pos).2]
        pos := st.pos + 6 }

/-- The genetic-algorithm part of `main`, for parsed samples `xs`, `ys`.
`population / concurrency` panics for `concurrency = 0`, `make` panics for a negative
`population`, and `wg.Add(concurrency)` panics for a negative `concurrency` once the loop
is entered. -/
def main (cfg : Config) (xs ys : List ℚ) (draws : ℕ → ℚ) (fuel : ℕ) : Outcome :=
  if cfg.concurrency = 0 then Outcome.panicked
  else if cfg.population < 0 then Outcome.panicked
  else
    let st := initLoop draws cfg.population.toNat { heap := [], organisms := [], pos := 0 }
    if cfg.concurrency < 0 then
      if MaxFloat64 ≥ cfg.lossThreshold then Outcome.panicked else report st
    else
      evolve xs ys cfg.population.toNat cfg.concurrency.toNat
        (cfg.population.toNat / cfg.concurrency.toNat) cfg.limit cfg.mutationRate
        cfg.learningRate cfg.lossThreshold draws fuel MaxFloat64 st

/-! ## Reading the data -/

/-- A field of a CSV record as `strconv.ParseFloat(field, 64)` sees it: the number it
returns, or `none` when it returns an error. -/
abbrev Field := Option ℚ

/-- How the part of `main` that builds `d` from the records ends: with a panic, with
`log.Fatal(err)`, or with the two slices `d.xs` and `d.ys`. -/
inductive Parsed where
  | panicked : Parsed
  | fatal : Parsed
  | data : List ℚ → List ℚ → Parsed
deriving DecidableEq, Repr

/-- The loop `for idx, record := range records[1:] { ... d.xs[idx] = x; d.ys[idx] = y }`:
`record[0]` and `record[1]` panic when the record is too short, and a field that does not
parse ends the program with `log.Fatal`.  The second and third arguments are the entries
of `d.xs` and `d.ys` written so far. -/
def parseLoop : List (List Field) → List ℚ → List ℚ → Parsed
  | [], xs, ys => Parsed.data xs ys
  | record :: rest, xs, ys =>
    match record[0]? with
    | none => Parsed.panicked
    | some none => Parsed.fatal
    | some (some x) =>
      match record[1]? with
      | none => Parsed.panicked
      | some none => Parsed.fatal
      | some (some y) => parseLoop rest (xs ++ [x]) (ys ++ [y])

/-- The building of `d` from the records returned by `reader.ReadAll()`: the slices have
length `len(records)-1`, so `make` panics when there is no record at all; the first record
is the header and is discarded. -/
def readData : List (List Field) → Parsed
  | [] => Parsed.panicked
  | _ :: rows => parseLoop rows [] []

/-- How the whole program ends once the records are read: with `log.Fatal`, or with the
outcome of the genetic-algorithm part. -/
inductive Run where
  | fatal : Run
  | ran : Outcome → Run
deriving DecidableEq, Repr

/-- The function `main` from the records on. -/
def program (cfg : Config) (records : List (List Field)) (draws : ℕ → ℚ) (fuel : ℕ) : Run :=
  match readData records with
  | Parsed.panicked => Run.ran Outcome.panicked
  | Parsed.fatal => Run.fatal
  | Parsed.data xs ys => Run.ran (main cfg xs ys draws fuel)

/-! ## Comparisons of `float64` values that may be NaN or infinite

The development above reads a `float64` as a rational number.  For the two places where
the program compares values that can be NaN or infinite (the comparison of `bestOrganisms`
and the condition of the loop), the comparisons are modelled on their own, on values that
are NaN, an infinity or a finite number. -/

/-- A `float64` value as far as comparisons are concerned: NaN, minus infinity, a finite
number (given by its exact value) or plus infinity. -/
inductive Float64 where
  | nan : Float64
  | negInf : Float64
  | finite : ℚ → Float64
  | posInf : Float64
deriving DecidableEq, Repr

/-- The operator `x < y` of Go on `float64`: false whenever an operand is NaN. -/
def Float64.lt : Float64 → Float64 → Bool
  | Float64.nan, _ => false
  | _, Float64.nan => false
  | Float64.negInf, Float64.negInf => false
  | Float64.negInf, _ => true
  | Float64.finite _, Float64.negInf => false
  | Float64.finite a, Float64.finite b => decide (a < b)
  | Float64.finite _, Float64.posInf => true
  | Float64.posInf, _ => false

/-- The operator `x >= y` of Go on `float64`: false whenever an operand is NaN. -/
def Float64.ge : Float64 → Float64 → Bool
  | Float64.nan, _ => false
  | _, Float64.nan => false
  | _, Float64.negInf => true
  | Float64.negInf, _ => false
  | Float64.posInf, _ => true
  | Float64.finite a, Float64.finite b => decide (a ≥ b)
  | Float64.finite _, Float64.posInf => false

/-- The function `bestOrganisms` on organisms whose badness is a `float64` that may be NaN
or infinite: `badness o` is the field `o.badness`, the slice is sorted with the comparison
`organisms[i].badness < organisms[j].badness`, and the result is the whole slice when
`len(organisms) <= limit` and `organisms[:limit]` otherwise (a panic for `limit < 0`). -/
def bestOrganismsIEEE {α : Type} (badness : α → Float64) (organisms : List α) (limit : ℤ) :
    Option (List α) :=
  if ((SliceStable (fun x y => (badness x).lt (badness y)) organisms).length : ℤ) ≤ limit then
    some (SliceStable (fun x y => (badness x).lt (badness y)) organisms)
  else if limit < 0 then none
  else some ((SliceStable (fun x y => (badness x).lt (badness y)) organisms).take limit.toNat)

/-- The condition `loss >= lossThreshold` of the `for` statement of `main`, on `float64`
values that may be NaN or infinite: the body runs (again) exactly when it is true. -/
def loopCondition (loss lossThreshold : Float64) : Bool := loss.ge lossThreshold

/-! ## Rounding of `float64` arithmetic

The development above computes with exact rational numbers.  The program stores the
result of every arithmetic operation in a `float64`, that is, rounded to the nearest
value with a 53-bit significand, ties to the even significand.  The rounding is modelled
here for the one place where it decides a property of `Mutate`. -/

/-- The power `2 ^ k` for an integer exponent. -/
def pow2 (k : ℤ) : ℚ :=
  if 0 ≤ k then ((2 ^ k.toNat : ℕ) : ℚ) else 1 / ((2 ^ (-k).toNat : ℕ) : ℚ)

/-- The number of halvings that bring `n` below 2, that is, the position of the leading
bit of `n >= 1`; the first argument bounds the number of halvings and is taken to be `n`
itself. -/
def bitLength : ℕ → ℕ → ℕ
  | 0, _ => 0
  | fuel + 1, n => if 2 ≤ n then bitLength fuel (n / 2) + 1 else 0

/-- The binary exponent of a positive rational `x`: the `e` with `2^e <= x < 2^(e+1)`.
With `a` and `b` the positions of the leading bits of numerator and denominator, `x` lies
between `2^(a-b-1)` and `2^(a-b+1)`, so `e` is `a - b - 1` or `a - b`. -/
def binaryExponent (x : ℚ) : ℤ :=
  if x < pow2 ((bitLength x.num.natAbs x.num.natAbs : ℤ) - (bitLength x.den x.den : ℤ)) then
    (bitLength x.num.natAbs x.num.natAbs : ℤ) - (bitLength x.den x.den : ℤ) - 1
  else (bitLength x.num.natAbs x.num.natAbs : ℤ) - (bitLength x.den x.den : ℤ)

/-- Rounding of a non-negative rational to the nearest integer, a tie going to the even
one. -/
def roundHalfEven (t : ℚ) : ℤ :=
  if t - (Rat.floor t : ℚ) < 1 / 2 then Rat.floor t
  else if 1 / 2 < t - (Rat.floor t : ℚ) then Rat.floor t + 1
  else if Rat.floor t % 2 = 0 then Rat.floor t
  else Rat.floor t + 1

/-- The absolute value of a rational. -/
def magnitude (x : ℚ) : ℚ := if x < 0 then -x else x

/-- The `float64` that stores the exact result `x` of an arithmetic operation (IEEE 754
round to nearest, ties to even): the significand has 53 bits, and below the normal range
(binary exponent under `-1022`) the spacing stays `2^-1074`.  Overflow to an infinity is
not modelled. -/
def roundFloat64 (x : ℚ) : ℚ :=
  if x = 0 then 0
  else
    (if x < 0 then -1 else 1) *
      ((roundHalfEven
        (magnitude x / pow2 (max (binaryExponent (magnitude x)) (-1022) - 52)) : ℤ) : ℚ) *
      pow2 (max (binaryExponent (magnitude x)) (-1022) - 52)

/-- The assignment `o.a += (rand.Float64()*2 - 1) * lr` of `Mutate` as `float64`
arithmetic carries it out: the product, the difference, the second product and the sum
are each rounded.  `gene` is the stored gene, `r` the draw. -/
def mutateGeneRounded (gene lr r : ℚ) : ℚ :=
  roundFloat64 (gene + roundFloat64 (roundFloat64 (roundFloat64 (r * 2) - 1) * lr))

/-- The six assignments of `Mutate` in `float64` arithmetic. -/
def organism.mutateFieldsRounded (o : organism) (lr : ℚ) (r1 r2 r3 r4 r5 r6 : ℚ) : organism :=
  { o with
    a := mutateGeneRounded o.a lr r1
    b := mutateGeneRounded o.b lr r2
    c := mutateGeneRounded o.c lr r3
    d := mutateGeneRounded o.d lr r4
    e := mutateGeneRounded o.e lr r5
    f := mutateGeneRounded o.f lr r6 }

/-! ## Vocabulary of the statements -/

/-- The organism a pointer points to.  The all-zero organism stands in for a pointer that
cannot be dereferenced; it is only used in statements where the pointer can be. -/
def deref (h : Heap) (p : Ptr) : organism :=
  h.getD p { a := 0, b := 0, c := 0, d := 0, e := 0, f := 0, badness := 0 }

/-- The organism allocated by iteration `j` of the repopulation loop when it starts from
heap `h` and slice `organisms` and the index `idx` wraps at `m`: the copy of the organism
that was at index `j % m`. -/
def copyOfElite (h : Heap) (organisms : List Ptr) (m j : ℕ) : organism :=
  (deref h (organisms.getD (j % m) 0)).copyFields

/-- The indices visited by the evaluation step: the shards of the workers `0`, ...,
`concurrency - 1`, one after the other. -/
def evaluatedIndices (population concurrency : ℕ) : List ℕ :=
  (List.range concurrency).flatMap (shard (population / concurrency))

/-- The value of the variable `loss` of a run that is still in its loop. -/
def Outcome.lossOf : Outcome → Option ℚ
  | Outcome.running loss _ => some loss
  | _ => none

/-- The place of a `float64` value that is not NaN in the order of the extended line:
minus infinity at the bottom, plus infinity at the top.  (NaN is given the top place; the
function is only used on values that are not NaN.) -/
def Float64.rank : Float64 → WithBot (WithTop ℚ)
  | Float64.nan => ((⊤ : WithTop ℚ) : WithBot (WithTop ℚ))
  | Float64.negInf => ⊥
  | Float64.finite q => ((q : WithTop ℚ) : WithBot (WithTop ℚ))
  | Float64.posInf => ((⊤ : WithTop ℚ) : WithBot (WithTop ℚ))

/-- The loop `for i < j { h := int(uint(i+j) >> 1); if test(h) { i = h + 1 } else { j = h } }`
that the three binary searches of `symMerge_func` have in common; the result is the final
`i`. -/
def binarySearch (test : ℕ → Bool) : ℕ → ℕ → ℕ → ℕ
  | 0, i, _ => i
  | fuel + 1, i, j =>
    if i < j then
      if test ((i + j) / 2) = true then binarySearch test fuel ((i + j) / 2 + 1) j
      else binarySearch test fuel i ((i + j) / 2)
    else i

/-- The reference sort of the statements: the stable insertion sort by the comparison
`key x < key y`. -/
def sortByKey {α κ : Type} [LinearOrder κ] (key : α → κ) (xs : List α) : List α :=
  insertionSort (fun x y => decide (key x < key y)) xs

/-- The blocks of a slice after one merge pass of `stable_func`: each block is joined with
its right neighbour, and a last block without neighbour stays. -/
def pairUp {α : Type} : List (List α) → List (List α)
  | b1 :: b2 :: rest => (b1 ++ b2) :: pairUp rest
  | bs => bs

/-- The division of a slice into the blocks of one pass of `stable_func`: every block but
the last has `blockSize` elements, and the last has between 1 and `blockSize`. -/
def Blocked {α : Type} (blockSize : ℕ) : List (List α) → Prop
  | [] => True
  | [b] => 0 < b.length ∧ b.length ≤ blockSize
  | b :: b' :: rest => b.length = blockSize ∧ Blocked blockSize (b' :: rest)

/-! ## Concrete inputs -/

/-- The heap of the stability example: four organisms with errors 3, 1, 1, 2, told apart
by their gene `a`. -/
def stabilityHeap : Heap :=
  [{ a := 0, b := 0, c := 0, d := 0, e := 0, f := 0, badness := 3 },
   { a := 1, b := 0, c := 0, d := 0, e := 0, f := 0, badness := 1 },
   { a := 2, b := 0, c := 0, d := 0, e := 0, f := 0, badness := 1 },
   { a := 3, b := 0, c := 0, d := 0, e := 0, f := 0, badness := 2 }]

/-- The heap of the first fitness example: genes (0,0,0,0,1,0), with a stale badness. -/
def identityHeap : Heap := [{ a := 0, b := 0, c := 0, d := 0, e := 1, f := 0, badness := 7 }]

/-- The heap of the second fitness example: genes (0,0,0,0,0,5). -/
def constantHeap : Heap := [{ a := 0, b := 0, c := 0, d := 0, e := 0, f := 5, badness := 0 }]

/-- The heap of the elite-cycling example: five organisms told apart by their gene `a`,
with errors 5, 3, 4, 1, 2, so that the two elites are the organisms of genes `a = 13` and
`a = 14`, in this order. -/
def cyclingHeap : Heap :=
  [{ a := 10, b := 0, c := 0, d := 0, e := 0, f := 0, badness := 5 },
   { a := 11, b := 0, c := 0, d := 0, e := 0, f := 0, badness := 3 },
   { a := 12, b := 0, c := 0, d := 0, e := 0, f := 0, badness := 4 },
   { a := 13, b := 0, c := 0, d := 0, e := 0, f := 0, badness := 1 },
   { a := 14, b := 0, c := 0, d := 0, e := 0, f := 0, badness := 2 }]

/-- The variables of `main` before the initialisation loop. -/
def emptyState : GaState := { heap := [], organisms := [], pos := 0 }

/-- A random stream that always returns one half: `newRandomOrganism` then gives the zero
polynomial, and no organism is selected for mutation at rate 3/10. -/
def drawsHalf : ℕ → ℚ := fun _ => 1 / 2

/-- A random stream that always returns one quarter: `newRandomOrganism` then gives six
genes `-5`, every organism is selected for mutation at rate 3/10, and `Mutate(1/100)`
lowers every gene by `1/200`. -/
def drawsQuarter : ℕ → ℚ := fun _ => 1 / 4

/-- A random stream whose first six values are `51/100` (genes `1/5`) and whose later
values are one quarter. -/
def drawsFit : ℕ → ℚ := fun n => if n < 6 then 51 / 100 else 1 / 4

/-- A configuration whose worker count does not divide the population size. -/
def unevenConfig : Config :=
  { population := 3, limit := 1, mutationRate := 3 / 10, learningRate := 1 / 100
    lossThreshold := 1 / 2, concurrency := 2 }

/-- A configuration of two organisms, one elite and one worker. -/
def pairConfig : Config :=
  { population := 2, limit := 1, mutationRate := 3 / 10, learningRate := 1 / 100
    lossThreshold := 1 / 2, concurrency := 1 }

/-- A configuration of one organism, one elite and one worker. -/
def singleConfig : Config :=
  { population := 1, limit := 1, mutationRate := 3 / 10, learningRate := 1 / 100
    lossThreshold := 1 / 2, concurrency := 1 }

/-- The organism left by `Fit` when it is called with the closure of `main`: the same
genes, and as badness the sum of squared residuals of its quintic on the samples. -/
def fitted (xs ys : List ℚ) (v : organism) : organism :=
  { v with
    badness := ∑ i in Finset.range xs.length, (quintic v (xs.getD i 0) - ys.getD i 0) ^ 2 }

/-- The number of random draws consumed when iteration `i` of the mutation loop starts,
for a loop that starts with `pos` draws consumed: an iteration consumes one draw, and six
more when the organism is mutated. -/
def mutatePos (mutationRate : ℚ) (draws : ℕ → ℚ) (pos : ℕ) : ℕ → ℕ
  | 0 => pos
  | i + 1 =>
    if draws (mutatePos mutationRate draws pos i) < mutationRate then
      mutatePos mutationRate draws pos i + 7
    else mutatePos mutationRate draws pos i + 1

/-- What iteration `i` of the mutation loop does to the organism `v` it finds at index
`i`: `Mutate(learningRate)` with the next six draws when the draw of the iteration is below
`mutationRate`, nothing otherwise. -/
def mutatedAt (mutationRate learningRate : ℚ) (draws : ℕ → ℚ) (pos i : ℕ) (v : organism) :
    organism :=
  if draws (mutatePos mutationRate draws pos i) < mutationRate then
    v.mutateFields learningRate
      (draws (mutatePos mutationRate draws pos i + 1))
      (draws (mutatePos mutationRate draws pos i + 2))
      (draws (mutatePos mutationRate draws pos i + 3))
      (draws (mutatePos mutationRate draws pos i + 4))
      (draws (mutatePos mutationRate draws pos i + 5))
      (draws (mutatePos mutationRate draws pos i + 6))
  else v

/-- The value of the variable `idx` when iteration `i` of the repopulation loop starts:
`idx := 0` before the loop, then `idx++; if idx > limit-1 { idx = 0 }` in every iteration. -/
def repopulateIdx (limit : ℤ) : ℕ → ℕ
  | 0 => 0
  | i + 1 =>
    if ((repopulateIdx limit i : ℕ) : ℤ) + 1 > limit - 1 then 0 else repopulateIdx limit i + 1

/-- The variables of `main` after the initialisation of two organisms with the stream
that is constantly one half. -/
def pairStart : GaState := initLoop drawsHalf 2 emptyState

/-- A configuration whose population size is below its elite count. -/
def fewerThanLimitConfig : Config :=
  { population := 1, limit := 2, mutationRate := 3 / 10, learningRate := 1 / 100
    lossThreshold := 1 / 2, concurrency := 1 }

/-- The `float64` written `1.8230687000260772`. -/
def roundingGene : ℚ := roundFloat64 (18230687000260772 / 10000000000000000)

/-- The `float64` written `0.01`, the learning rate of `main`. -/
def roundingStep : ℚ := roundFloat64 (1 / 100)

/-- Badness of 21 organisms, numbered from 0: organism 15 has badness 5, organisms 19 and 20
have badness 1, and the badness of every other organism is NaN. -/
def nanBadness (i : ℕ) : Float64 :=
  if i = 15 then Float64.finite 5
  else if i = 19 ∨ i = 20 then Float64.finite 1
  else Float64.nan

/-! # Supporting lemmas

## The sort: permutation, order and stability -/

section Sorting

variable {α κ : Type} [LinearOrder κ] (key : α → κ) (less : α → α → Bool)

theorem insertBackward_perm (x : α) : ∀ l : List α, (insertBackward less x l).Perm (x :: l)
  | [] => List.Perm.refl _
  | y :: before => by
    simp only [insertBackward]
    split
    · exact ((insertBackward_perm x before).cons y).trans (List.Perm.swap x y before)
    · exact List.Perm.refl _

theorem insertionSortLoop_perm :
    ∀ (rest done : List α), (insertionSortLoop less done rest).Perm (done ++ rest)
  | [], done => by
    simp [insertionSortLoop]
  | x :: rest, done => by
    simp only [insertionSortLoop]
    refine (insertionSortLoop_perm rest _).trans ?_
    refine ((insertBackward_perm less x done).append_right rest).trans ?_
    simpa using (@List.perm_middle α x done rest).symm

theorem insertionSort_perm (xs : List α) : (insertionSort less xs).Perm xs := by
  simpa [insertionSort] using insertionSortLoop_perm less xs []

theorem insertionSort_length (xs : List α) : (insertionSort less xs).length = xs.length :=
  (insertionSort_perm less xs).length_eq

variable {less}

theorem insertBackward_descending (hless : ∀ a b, less a b = decide (key a < key b)) (x : α) :
    ∀ l : List α, l.Pairwise (fun a b => key b ≤ key a) →
      (insertBackward less x l).Pairwise (fun a b => key b ≤ key a)
  | [], _ => by simp [insertBackward]
  | y :: before, hl => by
    rw [List.pairwise_cons] at hl
    simp only [insertBackward, hless, decide_eq_true_eq]
    split
    · rename_i hxy
      refine List.pairwise_cons.2 ⟨?_, insertBackward_descending hless x before hl.2⟩
      intro z hz
      rcases List.mem_cons.1 ((insertBackward_perm less x before).mem_iff.1 hz) with rfl | hz
      · exact le_of_lt hxy
      · exact hl.1 z hz
    · rename_i hxy
      have hyx : key y ≤ key x := not_lt.1 hxy
      refine List.pairwise_cons.2 ⟨?_, List.pairwise_cons.2 hl⟩
      intro z hz
      rcases List.mem_cons.1 hz with rfl | hz
      · exact hyx
      · exact le_trans (hl.1 z hz) hyx

theorem insertionSortLoop_sorted (hless : ∀ a b, less a b = decide (key a < key b)) :
    ∀ (rest done : List α), done.Pairwise (fun a b => key b ≤ key a) →
      (insertionSortLoop less done rest).Pairwise (fun a b => key a ≤ key b)
  | [], done, hd => by
    simpa [insertionSortLoop, List.pairwise_reverse] using hd
  | x :: rest, done, hd => by
    simp only [insertionSortLoop]
    exact insertionSortLoop_sorted hless rest _ (insertBackward_descending key hless x done hd)

theorem insertionSort_sorted (hless : ∀ a b, less a b = decide (key a < key b)) (xs : List α) :
    (insertionSort less xs).Pairwise (fun a b => key a ≤ key b) :=
  insertionSortLoop_sorted key hless xs [] List.Pairwise.nil

theorem insertBackward_filter (hless : ∀ a b, less a b = decide (key a < key b)) (v : κ)
    (x : α) : ∀ l : List α,
      (insertBackward less x l).filter (fun a => decide (key a = v)) =
        (x :: l).filter (fun a => decide (key a = v))
  | [] => by simp [insertBackward]
  | y :: before => by
    simp only [insertBackward, hless, decide_eq_true_eq]
    split
    · rename_i hxy
      rw [List.filter_cons, insertBackward_filter hless v x before]
      by_cases hy : key y = v
      · have hx : ¬ key x = v := fun hx => by rw [hx, hy] at hxy; exact lt_irrefl _ hxy
        simp [List.filter_cons, hy, hx]
      · simp [List.filter_cons, hy]
    · rfl

theorem insertionSortLoop_filter (hless : ∀ a b, less a b = decide (key a < key b)) (v : κ) :
    ∀ (rest done : List α),
      (insertionSortLoop less done rest).filter (fun a => decide (key a = v)) =
        (done.filter (fun a => decide (key a = v))).reverse ++
          rest.filter (fun a => decide (key a = v))
  | [], done => by simp [insertionSortLoop, List.filter_reverse]
  | x :: rest, done => by
    simp only [insertionSortLoop]
    rw [insertionSortLoop_filter hless v rest, insertBackward_filter key hless v x done]
    by_cases hx : key x = v <;> simp [List.filter_cons, hx]

theorem insertionSort_filter (hless : ∀ a b, less a b = decide (key a < key b)) (v : κ)
    (xs : List α) :
    (insertionSort less xs).filter (fun a => decide (key a = v)) =
      xs.filter (fun a => decide (key a = v)) := by
  simp [insertionSort, insertionSortLoop_filter key hless v xs []]

theorem sorted_stable_unique :
    ∀ (l₁ l₂ : List α), l₁.Pairwise (fun a b => key a ≤ key b) →
      l₂.Pairwise (fun a b => key a ≤ key b) →
      (∀ v : κ, l₁.filter (fun a => decide (key a = v)) =
        l₂.filter (fun a => decide (key a = v))) → l₁ = l₂
  | [], [], _, _, _ => rfl
  | [], b :: l₂, _, _, hf => by
    have := hf (key b)
    simp at this
  | a :: l₁, [], _, _, hf => by
    have := hf (key a)
    simp at this
  | a :: l₁, b :: l₂, h₁, h₂, hf => by
    rw [List.pairwise_cons] at h₁ h₂
    have hmem_a : a ∈ b :: l₂ := by
      have : a ∈ (b :: l₂).filter (fun x => decide (key x = key a)) := by
        rw [← hf (key a)]; simp
      exact (List.mem_filter.1 this).1
    have hmem_b : b ∈ a :: l₁ := by
      have : b ∈ (a :: l₁).filter (fun x => decide (key x = key b)) := by
        rw [hf (key b)]; simp
      exact (List.mem_filter.1 this).1
    have hba : key b ≤ key a := by
      rcases List.mem_cons.1 hmem_a with rfl | h
      · exact le_refl _
      · exact h₂.1 a h
    have hab : key a ≤ key b := by
      rcases List.mem_cons.1 hmem_b with rfl | h
      · exact le_refl _
      · exact h₁.1 b h
    have hkey : key a = key b := le_antisymm hab hba
    have hhead := hf (key a)
    simp only [List.filter_cons, hkey, decide_True, if_true] at hhead
    have heq : a = b := (List.cons.inj hhead).1
    subst heq
    have htail : ∀ v : κ, l₁.filter (fun x => decide (key x = v)) =
        l₂.filter (fun x => decide (key x = v)) := by
      intro v
      have hv := hf v
      simp only [List.filter_cons] at hv
      by_cases hva : key a = v
      · simp only [hva, decide_True, if_true] at hv
        exact (List.cons.inj hv).2
      · simpa [hva] using hv
    rw [sorted_stable_unique l₁ l₂ h₁.2 h₂.2 htail]

/-- Any stable sort agrees with the insertion sort: a list that is sorted by `key` and
holds, for every key value, the same elements in the same order as `xs` is
`insertionSort less xs`. -/
theorem insertionSort_unique (hless : ∀ a b, less a b = decide (key a < key b))
    (xs ys : List α) (hsorted : ys.Pairwise (fun a b => key a ≤ key b))
    (hstable : ∀ v : κ, ys.filter (fun a => decide (key a = v)) =
      xs.filter (fun a => decide (key a = v))) :
    ys = insertionSort less xs :=
  sorted_stable_unique key ys (insertionSort less xs) hsorted (insertionSort_sorted key hless xs)
    (fun v => by rw [hstable v, insertionSort_filter key hless v xs])

end Sorting

/-! ## The library sort and the insertion sort

The algorithm of `sort.SliceStable` is followed step by step: the index-based insertion
sort of a block is the insertion sort of that part of the slice, the rotation exchanges two
neighbouring blocks, each binary search finds the split point of sorted blocks, and
`symMerge_func` merges two sorted neighbouring blocks stably.  The result
(`SliceStable_eq_insertionSort`) is that on every comparison that orders the elements of
the slice by a key, `sort.SliceStable` returns what the insertion sort over the whole
slice returns; on slices of at most 20 elements it does so for every comparison
(`SliceStable_of_length_le`). -/

theorem insertBackward_congr {α : Type} (less less' : α → α → Bool) (x : α) :
    ∀ l : List α, (∀ y ∈ l, less x y = less' x y) →
      insertBackward less x l = insertBackward less' x l
  | [], _ => rfl
  | y :: before, h => by
    simp only [insertBackward, h y (List.mem_cons_self _ _),
      insertBackward_congr less less' x before (fun z hz => h z (List.mem_cons_of_mem _ hz))]

theorem insertionSortLoop_congr {α : Type} (less less' : α → α → Bool) :
    ∀ (rest done : List α),
      (∀ a ∈ done ++ rest, ∀ b ∈ done ++ rest, less a b = less' a b) →
      insertionSortLoop less done rest = insertionSortLoop less' done rest
  | [], _, _ => rfl
  | x :: rest, done, h => by
    simp only [insertionSortLoop]
    rw [insertBackward_congr less less' x done (fun y hy =>
      h x (by simp) y (List.mem_append_left _ hy))]
    refine insertionSortLoop_congr less less' rest _ ?_
    have hsub : ∀ a ∈ insertBackward less' x done ++ rest, a ∈ done ++ x :: rest := by
      intro a ha
      rcases List.mem_append.1 ha with ha | ha
      · rcases List.mem_cons.1 ((insertBackward_perm less' x done).mem_iff.1 ha) with rfl | ha
        · simp
        · exact List.mem_append_left _ ha
      · exact List.mem_append_right _ (List.mem_cons_of_mem _ ha)
    exact fun a ha b hb => h a (hsub a ha) b (hsub b hb)

theorem insertionSort_congr {α : Type} (less less' : α → α → Bool) (xs : List α)
    (h : ∀ a ∈ xs, ∀ b ∈ xs, less a b = less' a b) :
    insertionSort less xs = insertionSort less' xs :=
  insertionSortLoop_congr less less' xs [] (by simpa using h)

theorem getElem?_append_cons_length {α : Type} (pre post : List α) (x : α) (i : ℕ)
    (hi : i = pre.length) : (pre ++ x :: post)[i]? = some x := by
  subst hi
  rw [List.getElem?_append_right (le_refl _), Nat.sub_self]
  simp

theorem set_append_cons_length {α : Type} (pre post : List α) (x y : α) (i : ℕ)
    (hi : i = pre.length) : (pre ++ x :: post).set i y = pre ++ y :: post := by
  subst hi
  rw [List.set_append_right _ _ (le_refl _), Nat.sub_self]
  rfl

theorem swapAt_append_cons {α : Type} (pre mid post : List α) (x y : α) (i j : ℕ)
    (hi : i = pre.length) (hj : j = pre.length + mid.length + 1) :
    swapAt (pre ++ x :: (mid ++ y :: post)) i j = pre ++ y :: (mid ++ x :: post) := by
  have h1 : (pre ++ x :: (mid ++ y :: post))[i]? = some x :=
    getElem?_append_cons_length pre _ x i hi
  have e : ∀ z : α, pre ++ z :: (mid ++ y :: post) = (pre ++ z :: mid) ++ y :: post := by simp
  have h2 : (pre ++ x :: (mid ++ y :: post))[j]? = some y := by
    rw [e]
    exact getElem?_append_cons_length _ _ y j (by simp [hj]; omega)
  simp only [swapAt, h1, h2]
  rw [set_append_cons_length pre _ x y i hi, e,
    set_append_cons_length _ _ y x j (by simp [hj]; omega)]
  simp

theorem swapAt_comm {α : Type} (data : List α) (i j : ℕ) : swapAt data i j = swapAt data j i := by
  unfold swapAt
  rcases hi : data[i]? with _ | x <;> rcases hj : data[j]? with _ | y <;> simp only []
  by_cases hij : i = j
  · subst hij
    rw [hi] at hj
    cases hj
    rfl
  · exact List.set_comm _ _ _ hij

theorem swapAt_adjacent {α : Type} (pre post : List α) (x y : α) (i : ℕ)
    (hi : i = pre.length) :
    swapAt (pre ++ x :: y :: post) i (i + 1) = pre ++ y :: x :: post := by
  simpa using swapAt_append_cons pre [] post x y i (i + 1) hi (by simp [hi])

theorem lessAt_append_cons {α : Type} (less : α → α → Bool) (pre mid post : List α) (x y : α)
    (i j : ℕ) (hi : i = pre.length) (hj : j = pre.length + mid.length + 1) :
    lessAt less (pre ++ x :: (mid ++ y :: post)) i j = less x y ∧
    lessAt less (pre ++ x :: (mid ++ y :: post)) j i = less y x := by
  have h1 : (pre ++ x :: (mid ++ y :: post))[i]? = some x :=
    getElem?_append_cons_length pre _ x i hi
  have e : ∀ z : α, pre ++ z :: (mid ++ y :: post) = (pre ++ z :: mid) ++ y :: post := by simp
  have h2 : (pre ++ x :: (mid ++ y :: post))[j]? = some y := by
    rw [e]
    exact getElem?_append_cons_length _ _ y j (by simp [hj]; omega)
  simp only [lessAt, h1, h2, and_self]


theorem insertionSortInner_eq {α : Type} (less : α → α → Bool) (pre : List α) (x : α) :
    ∀ (done post : List α) (a j : ℕ), a = pre.length → j = a + done.length →
      insertionSortInner less a j (pre ++ done.reverse ++ x :: post) =
        pre ++ (insertBackward less x done).reverse ++ post := by
  intro done
  induction done with
  | nil =>
    intro post a j ha hj
    have hja : j = a := by simpa using hj
    subst hja
    cases j with
    | zero => simp [insertionSortInner, insertBackward]
    | succ j => simp [insertionSortInner, insertBackward]
  | cons y d ih =>
    intro post a j ha hj
    have hj1 : j = (a + d.length) + 1 := by simpa [Nat.add_assoc] using hj
    subst hj1
    have e : pre ++ (y :: d).reverse ++ x :: post = (pre ++ d.reverse) ++ y :: ([] ++ x :: post) := by
      simp
    have hl := (lessAt_append_cons less (pre ++ d.reverse) [] post y x (a + d.length)
      (a + d.length + 1) (by simp [ha]) (by simp [ha])).2
    have hs := swapAt_append_cons (pre ++ d.reverse) [] post y x (a + d.length)
      (a + d.length + 1) (by simp [ha]) (by simp [ha])
    rw [e]
    simp only [insertionSortInner, hl]
    by_cases hxy : less x y = true
    · rw [if_pos ⟨by omega, hxy⟩, swapAt_comm, hs]
      have := ih (y :: post) a (a + d.length) ha rfl
      simp only [List.nil_append] at this ⊢
      rw [this]
      simp [insertBackward, hxy]
    · rw [if_neg (fun h => hxy h.2)]
      simp [insertBackward, hxy]

theorem insertionSortOuter_eq {α : Type} (less : α → α → Bool) (pre post : List α) :
    ∀ (rest done : List α) (a b fuel i : ℕ), a = pre.length → i = a + done.length →
      b = i + rest.length → rest.length ≤ fuel →
      insertionSortOuter less a b fuel i (pre ++ done.reverse ++ rest ++ post) =
        pre ++ insertionSortLoop less done rest ++ post := by
  intro rest
  induction rest with
  | nil =>
    intro done a b fuel i ha hi hb hfuel
    have hbi : ¬ i < b := by simp [hb]
    cases fuel with
    | zero => simp [insertionSortOuter, insertionSortLoop]
    | succ fuel => simp [insertionSortOuter, insertionSortLoop, hbi]
  | cons x rest ih =>
    intro done a b fuel i ha hi hb hfuel
    cases fuel with
    | zero => simp at hfuel
    | succ fuel =>
      have hib : i < b := by simp [hb]
      simp only [insertionSortOuter, if_pos hib]
      have e : pre ++ done.reverse ++ (x :: rest) ++ post =
          pre ++ done.reverse ++ x :: (rest ++ post) := by simp
      rw [e, insertionSortInner_eq less pre x done (rest ++ post) a i ha hi]
      have hlen : (insertBackward less x done).length = done.length + 1 := by
        simpa using (insertBackward_perm less x done).length_eq
      have := ih (insertBackward less x done) a b fuel (i + 1) ha (by rw [hlen]; omega)
        (by simp at hb; omega) (by simpa using hfuel)
      simp only [List.append_assoc] at this ⊢
      rw [this]
      simp [insertionSortLoop]

theorem insertionSort_func_eq {α : Type} (less : α → α → Bool) (pre block post : List α)
    (a b : ℕ) (ha : a = pre.length) (hb : b = a + block.length) :
    insertionSort_func less (pre ++ block ++ post) a b = pre ++ insertionSort less block ++ post := by
  cases block with
  | nil =>
    have hba : b - a = 0 := by simp [hb]
    simp [insertionSort_func, hba, insertionSortOuter, insertionSort, insertionSortLoop]
  | cons x rest =>
    have := insertionSortOuter_eq less pre post rest [x] a b (b - a) (a + 1) ha (by simp)
      (by simp at hb; omega) (by simp at hb; omega)
    simp only [List.reverse_cons, List.reverse_nil, List.nil_append, List.append_assoc,
      List.singleton_append, List.cons_append] at this
    simp only [insertionSort_func, List.append_assoc, List.cons_append, this, insertionSort,
      insertionSortLoop, insertBackward]


theorem moveUp_eq {α : Type} (x : α) (post : List α) :
    ∀ (block pre : List α) (i fuel k : ℕ), k = pre.length → i = k + block.length + 1 →
      block.length ≤ fuel →
      moveUp i fuel k (pre ++ x :: (block ++ post)) = pre ++ block ++ x :: post := by
  intro block
  induction block with
  | nil =>
    intro pre i fuel k hk hi hfuel
    have : ¬ k + 1 < i := by simp [hi]
    cases fuel with
    | zero => simp [moveUp]
    | succ fuel => simp [moveUp, this]
  | cons y block ih =>
    intro pre i fuel k hk hi hfuel
    cases fuel with
    | zero => simp at hfuel
    | succ fuel =>
      have hlt : k + 1 < i := by simp [hi]
      simp only [moveUp, if_pos hlt, List.cons_append]
      rw [swapAt_adjacent pre _ x y k hk]
      have := ih (pre ++ [y]) i fuel (k + 1) (by simp [hk]) (by simp at hi; omega)
        (by simpa using hfuel)
      simp only [List.append_assoc, List.singleton_append] at this
      rw [this]
      simp

theorem moveDown_eq {α : Type} (y : α) (pre : List α) :
    ∀ (block post : List α) (i fuel k : ℕ), i = pre.length → k = i + block.length →
      block.length ≤ fuel →
      moveDown i fuel k (pre ++ block ++ y :: post) = pre ++ y :: (block ++ post) := by
  intro block
  induction block using List.reverseRecOn with
  | nil =>
    intro post i fuel k hi hk hfuel
    have : ¬ k > i := by simp [hk]
    cases fuel with
    | zero => simp [moveDown]
    | succ fuel => simp [moveDown, this]
  | append_singleton block x ih =>
    intro post i fuel k hi hk hfuel
    cases fuel with
    | zero => simp at hfuel
    | succ fuel =>
      obtain ⟨k', rfl⟩ : ∃ k', k = k' + 1 := ⟨k - 1, by simp at hk; omega⟩
      have hgt : k' + 1 > i := by simp at hk; omega
      simp only [moveDown, if_pos hgt, Nat.add_sub_cancel]
      have e : pre ++ (block ++ [x]) ++ y :: post = (pre ++ block) ++ x :: y :: post := by simp
      rw [e, swapAt_comm,
        swapAt_adjacent (pre ++ block) post x y k' (by simp at hk ⊢; omega)]
      have := ih (x :: post) i fuel k' hi (by simp at hk; omega) (by simp at hfuel; omega)
      rw [this]
      simp

theorem swapRangeLoop_eq {α : Type} (a b n : ℕ) (post : List α) :
    ∀ (xs ys pre mid : List α) (fuel i : ℕ), xs.length = ys.length → i + xs.length = n →
      a + i = pre.length → b + i = pre.length + xs.length + mid.length → xs.length ≤ fuel →
      swapRangeLoop a b n fuel i (pre ++ xs ++ mid ++ ys ++ post) =
        pre ++ ys ++ mid ++ xs ++ post := by
  intro xs
  induction xs with
  | nil =>
    intro ys pre mid fuel i hlen hn ha hb hfuel
    have hys : ys = [] := by
      cases ys with
      | nil => rfl
      | cons y ys => simp at hlen
    subst hys
    have : ¬ i < n := by simp at hn; omega
    cases fuel with
    | zero => simp [swapRangeLoop]
    | succ fuel => simp [swapRangeLoop, this]
  | cons x xs ih =>
    intro ys pre mid fuel i hlen hn ha hb hfuel
    cases ys with
    | nil => simp at hlen
    | cons y ys =>
      cases fuel with
      | zero => simp at hfuel
      | succ fuel =>
        have hlt : i < n := by simp at hn; omega
        simp only [swapRangeLoop, if_pos hlt]
        have e : pre ++ (x :: xs) ++ mid ++ (y :: ys) ++ post =
            pre ++ x :: ((xs ++ mid) ++ y :: (ys ++ post)) := by simp
        rw [e, swapAt_append_cons pre (xs ++ mid) (ys ++ post) x y (a + i) (b + i) ha
          (by simp at hb ⊢; omega)]
        have := ih ys (pre ++ [y]) (mid ++ [x]) fuel (i + 1) (by simpa using hlen)
          (by simp at hn; omega) (by simp; omega) (by simp at hb ⊢; omega)
          (by simpa using hfuel)
        simp only [List.append_assoc, List.singleton_append, List.cons_append,
          List.nil_append] at this ⊢
        rw [this]

theorem swapRange_func_eq {α : Type} (pre xs mid ys post : List α) (a b n : ℕ)
    (hx : xs.length = n) (hy : ys.length = n) (ha : a = pre.length)
    (hb : b = pre.length + xs.length + mid.length) :
    swapRange_func (pre ++ xs ++ mid ++ ys ++ post) a b n = pre ++ ys ++ mid ++ xs ++ post :=
  swapRangeLoop_eq a b n post xs ys pre mid n 0 (by rw [hx, hy]) (by simpa using hx)
    (by simpa using ha) (by simpa using hb) (le_of_eq hx)


theorem rotateLoop_eq {α : Type} (m : ℕ) :
    ∀ (fuel : ℕ) (xs ys pre post : List α) (i j : ℕ), i = xs.length → j = ys.length →
      m = pre.length + i → 0 < i → 0 < j → i + j ≤ fuel →
      rotateLoop m fuel i j (pre ++ xs ++ ys ++ post) = pre ++ ys ++ xs ++ post := by
  intro fuel
  induction fuel with
  | zero =>
    intro xs ys pre post i j hi hj hm hi0 hj0 hfuel
    omega
  | succ fuel ih =>
    intro xs ys pre post i j hi hj hm hi0 hj0 hfuel
    simp only [rotateLoop]
    by_cases hij : i = j
    · rw [if_neg (by simpa using hij)]
      have := swapRange_func_eq pre xs [] ys post (m - i) m i hi.symm (by omega) (by omega)
        (by simp; omega)
      simpa using this
    · rw [if_pos hij]
      by_cases hgt : i > j
      · rw [if_pos hgt]
        have e : pre ++ xs ++ ys ++ post =
            pre ++ xs.take j ++ xs.drop j ++ ys ++ post := by
          simp [List.take_append_drop]
        have hs := swapRange_func_eq pre (xs.take j) (xs.drop j) ys post (m - i) m j
          (by simp; omega) hj.symm (by omega) (by simp; omega)
        rw [e, hs]
        have := ih (xs.drop j) (xs.take j) (pre ++ ys) post (i - j) j (by simp; omega)
          (by simp; omega) (by simp; omega) (by omega) hj0 (by omega)
        simp only [List.append_assoc] at this ⊢
        rw [this, ← List.append_assoc (xs.take j), List.take_append_drop]
      · rw [if_neg hgt]
        have e : pre ++ xs ++ ys ++ post =
            pre ++ xs ++ ys.take (j - i) ++ ys.drop (j - i) ++ post := by
          simp [List.take_append_drop]
        have hs := swapRange_func_eq pre xs (ys.take (j - i)) (ys.drop (j - i)) post (m - i)
          (m + j - i) i hi.symm (by simp; omega) (by omega) (by simp; omega)
        rw [e, hs]
        have := ih (ys.drop (j - i)) (ys.take (j - i)) pre (xs ++ post) i (j - i)
          (by simp; omega) (by simp; omega) (by omega) hi0 (by omega) (by omega)
        simp only [List.append_assoc] at this ⊢
        rw [this]
        rw [← List.append_assoc (ys.take (j - i)), List.take_append_drop]

theorem rotate_func_eq {α : Type} (pre xs ys post : List α) (a m b : ℕ)
    (ha : a = pre.length) (hm : m = a + xs.length) (hb : b = m + ys.length)
    (hx : xs ≠ []) (hy : ys ≠ []) :
    rotate_func (pre ++ xs ++ ys ++ post) a m b = pre ++ ys ++ xs ++ post := by
  have hx0 : 0 < xs.length := List.length_pos.2 hx
  have hy0 : 0 < ys.length := List.length_pos.2 hy
  exact rotateLoop_eq m (b - a + 1) xs ys pre post (m - a) (b - m) (by omega) (by omega)
    (by omega) (by omega) (by omega) (by omega)


theorem searchLess_eq {α : Type} (less : α → α → Bool) (data : List α) (a : ℕ) :
    ∀ fuel i j, searchLess less data a fuel i j =
      binarySearch (fun h => lessAt less data h a) fuel i j := by
  intro fuel
  induction fuel with
  | zero => intro i j; rfl
  | succ fuel ih => intro i j; simp only [searchLess, binarySearch, ih]

theorem searchNotLess_eq {α : Type} (less : α → α → Bool) (data : List α) (m : ℕ) :
    ∀ fuel i j, searchNotLess less data m fuel i j =
      binarySearch (fun h => !lessAt less data m h) fuel i j := by
  intro fuel
  induction fuel with
  | zero => intro i j; rfl
  | succ fuel ih =>
    intro i j
    simp only [searchNotLess, binarySearch, ih, Bool.not_eq_true']

theorem searchSplit_eq {α : Type} (less : α → α → Bool) (data : List α) (p : ℕ) :
    ∀ fuel i j, searchSplit less data p fuel i j =
      binarySearch (fun c => !lessAt less data (p - c) c) fuel i j := by
  intro fuel
  induction fuel with
  | zero => intro i j; rfl
  | succ fuel ih =>
    intro i j
    simp only [searchSplit, binarySearch, ih, Bool.not_eq_true']

theorem binarySearch_invariant (test : ℕ → Bool) (lo hi : ℕ)
    (hmono : ∀ c d, lo ≤ c → c ≤ d → d < hi → test d = true → test c = true) :
    ∀ fuel i j, lo ≤ i → i ≤ j → j ≤ hi → j - i ≤ fuel →
      (∀ c, lo ≤ c → c < i → test c = true) → (∀ c, j ≤ c → c < hi → test c = false) →
      i ≤ binarySearch test fuel i j ∧ binarySearch test fuel i j ≤ j ∧
      (∀ c, lo ≤ c → c < binarySearch test fuel i j → test c = true) ∧
      (∀ c, binarySearch test fuel i j ≤ c → c < hi → test c = false) := by
  intro fuel
  induction fuel with
  | zero =>
    intro i j hlo hij hj hfuel hbelow habove
    have : i = j := by omega
    subst this
    exact ⟨le_refl _, le_refl _, hbelow, habove⟩
  | succ fuel ih =>
    intro i j hlo hij hj hfuel hbelow habove
    simp only [binarySearch]
    by_cases hlt : i < j
    · rw [if_pos hlt]
      have hh1 : i ≤ (i + j) / 2 := by omega
      have hh2 : (i + j) / 2 < j := by omega
      by_cases ht : test ((i + j) / 2) = true
      · rw [if_pos ht]
        have := ih ((i + j) / 2 + 1) j (by omega) (by omega) hj (by omega)
          (fun c hc1 hc2 => hmono c ((i + j) / 2) hc1 (by omega) (by omega) ht) habove
        exact ⟨by omega, this.2.1, this.2.2⟩
      · rw [if_neg ht]
        have hf : test ((i + j) / 2) = false := by simpa using ht
        have := ih i ((i + j) / 2) hlo hh1 (by omega) (by omega) hbelow
          (fun c hc1 hc2 => by
            by_contra hc
            have hc : test c = true := by simpa using hc
            exact ht (hmono ((i + j) / 2) c (by omega) hc1 hc2 hc))
        exact ⟨this.1, by omega, this.2.2⟩
    · rw [if_neg hlt]
      have : i = j := by omega
      subst this
      exact ⟨le_refl _, le_refl _, hbelow, habove⟩


/-- The binary search on a test that is true up to some index of `[lo, hi)` and false from
there on returns that index. -/
theorem binarySearch_spec (test : ℕ → Bool) (lo hi fuel : ℕ) (hlohi : lo ≤ hi)
    (hfuel : hi - lo ≤ fuel)
    (hmono : ∀ c d, lo ≤ c → c ≤ d → d < hi → test d = true → test c = true) :
    lo ≤ binarySearch test fuel lo hi ∧ binarySearch test fuel lo hi ≤ hi ∧
    (∀ c, lo ≤ c → c < binarySearch test fuel lo hi → test c = true) ∧
    (∀ c, binarySearch test fuel lo hi ≤ c → c < hi → test c = false) :=
  binarySearch_invariant test lo hi hmono fuel lo hi (le_refl _) hlohi (le_refl _) hfuel
    (fun c h1 h2 => by omega) (fun c h1 h2 => by omega)


section ByKey

variable {α κ : Type} [LinearOrder κ] (key : α → κ)

theorem sortByKey_perm (xs : List α) : (sortByKey key xs).Perm xs :=
  insertionSort_perm _ xs

theorem sortByKey_length (xs : List α) : (sortByKey key xs).length = xs.length :=
  (sortByKey_perm key xs).length_eq

theorem sortByKey_sorted (xs : List α) :
    (sortByKey key xs).Pairwise (fun a b => key a ≤ key b) :=
  insertionSort_sorted key (fun _ _ => rfl) xs

theorem sortByKey_filter (v : κ) (xs : List α) :
    (sortByKey key xs).filter (fun a => decide (key a = v)) =
      xs.filter (fun a => decide (key a = v)) :=
  insertionSort_filter key (fun _ _ => rfl) v xs

theorem sortByKey_unique (xs ys : List α) (hsorted : ys.Pairwise (fun a b => key a ≤ key b))
    (hstable : ∀ v : κ, ys.filter (fun a => decide (key a = v)) =
      xs.filter (fun a => decide (key a = v))) :
    ys = sortByKey key xs :=
  insertionSort_unique key (fun _ _ => rfl) xs ys hsorted hstable

theorem sortByKey_of_sorted (xs : List α) (hsorted : xs.Pairwise (fun a b => key a ≤ key b)) :
    sortByKey key xs = xs :=
  (sortByKey_unique key xs xs hsorted (fun _ => rfl)).symm

theorem insertionSort_eq_sortByKey (less : α → α → Bool) (xs : List α)
    (hless : ∀ a ∈ xs, ∀ b ∈ xs, less a b = decide (key a < key b)) :
    insertionSort less xs = sortByKey key xs :=
  insertionSort_congr less _ xs hless

/-- Sorting the concatenation of two sorted blocks is the same as sorting the
concatenation of the blocks themselves. -/
theorem sortByKey_append_sortByKey (xs ys : List α) :
    sortByKey key (sortByKey key xs ++ sortByKey key ys) = sortByKey key (xs ++ ys) := by
  refine sortByKey_unique key (xs ++ ys) _ (sortByKey_sorted key _) (fun v => ?_)
  rw [sortByKey_filter, List.filter_append, List.filter_append, sortByKey_filter,
    sortByKey_filter]

/-- The step of the symmetric merge: when the sorted blocks `l1 ++ l2` and `r1 ++ r2` are
split such that nothing of `l1` is above anything of `r2` and everything of `r1` is below
everything of `l2`, merging `l1` with `r1` and `l2` with `r2` merges the two blocks. -/
theorem sortByKey_split (l1 l2 r1 r2 : List α)
    (hl : (l1 ++ l2).Pairwise (fun a b => key a ≤ key b))
    (hr : (r1 ++ r2).Pairwise (fun a b => key a ≤ key b))
    (h12 : ∀ x ∈ l1, ∀ y ∈ r2, key x ≤ key y)
    (h21 : ∀ y ∈ r1, ∀ x ∈ l2, key y < key x) :
    sortByKey key (l1 ++ r1) ++ sortByKey key (l2 ++ r2) =
      sortByKey key ((l1 ++ l2) ++ (r1 ++ r2)) := by
  refine sortByKey_unique key _ _ ?_ (fun v => ?_)
  · rw [List.pairwise_append]
    refine ⟨sortByKey_sorted key _, sortByKey_sorted key _, ?_⟩
    intro x hx y hy
    have hx := (sortByKey_perm key _).mem_iff.1 hx
    have hy := (sortByKey_perm key _).mem_iff.1 hy
    rw [List.pairwise_append] at hl hr
    rcases List.mem_append.1 hx with hx | hx <;> rcases List.mem_append.1 hy with hy | hy
    · exact hl.2.2 x hx y hy
    · exact h12 x hx y hy
    · exact le_of_lt (h21 x hx y hy)
    · exact hr.2.2 x hx y hy
  · simp only [List.filter_append, sortByKey_filter, List.append_assoc]
    congr 1
    by_cases h2 : l2.filter (fun a => decide (key a = v)) = []
    · simp [h2]
    · have h1 : r1.filter (fun a => decide (key a = v)) = [] := by
        rw [List.filter_eq_nil_iff]
        intro y hy hkey
        obtain ⟨x, hx⟩ := List.exists_mem_of_ne_nil _ h2
        rw [List.mem_filter] at hx
        have := h21 y hy x hx.1
        have e1 : key y = v := by simpa using hkey
        have e2 : key x = v := by simpa using hx.2
        rw [e1, e2] at this
        exact lt_irrefl _ this
      simp [h1]

end ByKey


theorem getElem?_eq_some_getD {α : Type} (l : List α) (d : α) (i : ℕ) (h : i < l.length) :
    l[i]? = some (l.getD i d) := by
  rw [List.getD_eq_getElem l d h, List.getElem?_eq_getElem h]

theorem getD_mem {α : Type} (l : List α) (d : α) (i : ℕ) (h : i < l.length) :
    l.getD i d ∈ l := by
  rw [List.getD_eq_getElem l d h]
  exact List.getElem_mem h

theorem mem_take_getD {α : Type} (l : List α) (d x : α) (n : ℕ) (hx : x ∈ l.take n) :
    ∃ i, i < n ∧ i < l.length ∧ l.getD i d = x := by
  obtain ⟨i, hi, rfl⟩ := List.mem_take_iff_getElem.1 hx
  have h1 : i < n := lt_of_lt_of_le hi (min_le_left _ _)
  have h2 : i < l.length := lt_of_lt_of_le hi (min_le_right _ _)
  exact ⟨i, h1, h2, List.getD_eq_getElem l d h2⟩

theorem mem_drop_getD {α : Type} (l : List α) (d x : α) (n : ℕ) (hx : x ∈ l.drop n) :
    ∃ i, n ≤ i ∧ i < l.length ∧ l.getD i d = x := by
  obtain ⟨i, hi, rfl⟩ := List.mem_drop_iff_getElem.1 hx
  have h2 : n + i < l.length := by omega
  exact ⟨n + i, by omega, h2, List.getD_eq_getElem l d h2⟩

theorem sorted_getD {α κ : Type} [LinearOrder κ] (key : α → κ) (l : List α) (d : α)
    (hsorted : l.Pairwise (fun a b => key a ≤ key b)) (i j : ℕ) (hij : i ≤ j)
    (hj : j < l.length) : key (l.getD i d) ≤ key (l.getD j d) := by
  rcases Nat.eq_or_lt_of_le hij with rfl | hlt
  · exact le_refl _
  · have hi : i < l.length := by omega
    rw [List.getD_eq_getElem l d hi, List.getD_eq_getElem l d hj]
    exact List.pairwise_iff_getElem.1 hsorted i j hi hj hlt

theorem getElem?_left_block {α : Type} (pre xs rest : List α) (d : α) (a c : ℕ)
    (ha : a = pre.length) (h1 : a ≤ c) (h2 : c < a + xs.length) :
    (pre ++ xs ++ rest)[c]? = some (xs.getD (c - a) d) := by
  rw [List.append_assoc, List.getElem?_append_right (by omega),
    List.getElem?_append_left (by omega), ← ha]
  exact getElem?_eq_some_getD xs d (c - a) (by omega)

theorem getElem?_right_block {α : Type} (pre xs ys rest : List α) (d : α) (m c : ℕ)
    (hm : m = pre.length + xs.length) (h1 : m ≤ c) (h2 : c < m + ys.length) :
    (pre ++ xs ++ ys ++ rest)[c]? = some (ys.getD (c - m) d) := by
  have := getElem?_left_block (pre ++ xs) ys rest d m c (by simp [hm]) h1 h2
  simpa using this

theorem lessAt_eq {α : Type} (less : α → α → Bool) (data : List α) (i j : ℕ) (x y : α)
    (hi : data[i]? = some x) (hj : data[j]? = some y) : lessAt less data i j = less x y := by
  simp only [lessAt, hi, hj]

/-- The two cross conditions of a split of two sorted blocks follow from the comparison
of the elements next to the split points. -/
theorem split_cross {α κ : Type} [LinearOrder κ] (key : α → κ) (xs ys : List α) (d : α)
    (s e : ℕ) (hs : s ≤ xs.length) (he : e ≤ ys.length)
    (hxs : xs.Pairwise (fun a b => key a ≤ key b))
    (hys : ys.Pairwise (fun a b => key a ≤ key b))
    (h1 : 0 < s → e < ys.length → key (xs.getD (s - 1) d) ≤ key (ys.getD e d))
    (h2 : 0 < e → s < xs.length → key (ys.getD (e - 1) d) < key (xs.getD s d)) :
    (∀ x ∈ xs.take s, ∀ y ∈ ys.drop e, key x ≤ key y) ∧
    (∀ y ∈ ys.take e, ∀ x ∈ xs.drop s, key y < key x) := by
  constructor
  · intro x hx y hy
    obtain ⟨i, hi1, hi2, rfl⟩ := mem_take_getD xs d x s hx
    obtain ⟨j, hj1, hj2, rfl⟩ := mem_drop_getD ys d y e hy
    calc key (xs.getD i d) ≤ key (xs.getD (s - 1) d) :=
          sorted_getD key xs d hxs i (s - 1) (by omega) (by omega)
      _ ≤ key (ys.getD e d) := h1 (by omega) (by omega)
      _ ≤ key (ys.getD j d) := sorted_getD key ys d hys e j hj1 hj2
  · intro y hy x hx
    obtain ⟨j, hj1, hj2, rfl⟩ := mem_take_getD ys d y e hy
    obtain ⟨i, hi1, hi2, rfl⟩ := mem_drop_getD xs d x s hx
    calc key (ys.getD j d) ≤ key (ys.getD (e - 1) d) :=
          sorted_getD key ys d hys j (e - 1) (by omega) (by omega)
      _ < key (xs.getD s d) := h2 (by omega) (by omega)
      _ ≤ key (xs.getD i d) := sorted_getD key xs d hxs s i hi1 hi2

theorem symMerge_left_single {α κ : Type} [LinearOrder κ] (key : α → κ)
    (less : α → α → Bool) (pre ys post : List α) (x : α) (a m b : ℕ)
    (ha : a = pre.length) (hm : m = a + 1) (hb : b = m + ys.length)
    (hagree : ∀ u ∈ x :: ys, ∀ v ∈ x :: ys, less u v = decide (key u < key v))
    (hys : ys.Pairwise (fun u v => key u ≤ key v)) :
    moveUp (searchLess less (pre ++ [x] ++ ys ++ post) a (b - m) m b) (b - a) a
        (pre ++ [x] ++ ys ++ post) =
      pre ++ sortByKey key ([x] ++ ys) ++ post := by
  have htest : ∀ c, m ≤ c → c < b →
      lessAt less (pre ++ [x] ++ ys ++ post) c a = decide (key (ys.getD (c - m) x) < key x) := by
    intro c h1 h2
    rw [lessAt_eq less _ c a (ys.getD (c - m) x) x
      (getElem?_right_block pre [x] ys post x m c (by simp; omega) h1 (by omega))
      (by simpa using getElem?_append_cons_length pre (ys ++ post) x a ha)]
    exact hagree _ (List.mem_cons_of_mem _ (getD_mem ys x (c - m) (by omega))) _
      (List.mem_cons_self _ _)
  rw [searchLess_eq]
  obtain ⟨hk1, hk2, hbelow, habove⟩ := binarySearch_spec
    (fun h => lessAt less (pre ++ [x] ++ ys ++ post) h a) m b (b - m) (by omega) (le_refl _)
    (by
      intro c d h1 h2 h3 hd
      simp only [htest c h1 (by omega), htest d (by omega) h3, decide_eq_true_eq] at hd ⊢
      exact lt_of_le_of_lt (sorted_getD key ys x hys (c - m) (d - m) (by omega) (by omega)) hd)
  generalize binarySearch (fun h => lessAt less (pre ++ [x] ++ ys ++ post) h a) (b - m) m b = k
    at hk1 hk2 hbelow habove
  have e : pre ++ [x] ++ ys ++ post =
      pre ++ x :: (ys.take (k - m) ++ (ys.drop (k - m) ++ post)) := by
    rw [← List.append_assoc (ys.take (k - m)), List.take_append_drop]
    simp
  rw [e, moveUp_eq x (ys.drop (k - m) ++ post) (ys.take (k - m)) pre k (b - a) a ha
    (by simp; omega) (by simp; omega)]
  have h21 : ∀ y ∈ ys.take (k - m), ∀ z ∈ [x], key y < key z := by
    intro y hy z hz
    obtain ⟨i, hi1, hi2, rfl⟩ := mem_take_getD ys x y (k - m) hy
    rw [List.mem_singleton.1 hz]
    have := hbelow (m + i) (by omega) (by omega)
    rw [htest (m + i) (by omega) (by omega), Nat.add_sub_cancel_left] at this
    exact of_decide_eq_true this
  have h22 : ∀ y ∈ ys.drop (k - m), key x ≤ key y := by
    intro y hy
    obtain ⟨i, hi1, hi2, rfl⟩ := mem_drop_getD ys x y (k - m) hy
    have := habove (m + i) (by omega) (by omega)
    rw [htest (m + i) (by omega) (by omega), Nat.add_sub_cancel_left] at this
    exact not_lt.1 (of_decide_eq_false this)
  have hsplit := sortByKey_split key [] [x] (ys.take (k - m)) (ys.drop (k - m)) (by simp)
    (by rw [List.take_append_drop]; exact hys) (by simp) h21
  rw [List.take_append_drop, List.nil_append, List.nil_append,
    sortByKey_of_sorted key _ (hys.sublist (List.take_sublist _ _)),
    sortByKey_of_sorted key ([x] ++ ys.drop (k - m))
      (by
        rw [List.singleton_append, List.pairwise_cons]
        exact ⟨h22, hys.sublist (List.drop_sublist _ _)⟩)] at hsplit
  rw [← hsplit]
  simp


theorem symMerge_right_single {α κ : Type} [LinearOrder κ] (key : α → κ)
    (less : α → α → Bool) (pre xs post : List α) (y : α) (a m b : ℕ)
    (ha : a = pre.length) (hm : m = a + xs.length) (hb : b = m + 1)
    (hagree : ∀ u ∈ xs ++ [y], ∀ v ∈ xs ++ [y], less u v = decide (key u < key v))
    (hxs : xs.Pairwise (fun u v => key u ≤ key v)) :
    moveDown (searchNotLess less (pre ++ xs ++ [y] ++ post) m (m - a) a m) (b - a) m
        (pre ++ xs ++ [y] ++ post) =
      pre ++ sortByKey key (xs ++ [y]) ++ post := by
  have htest : ∀ c, a ≤ c → c < m →
      (!lessAt less (pre ++ xs ++ [y] ++ post) m c) =
        !decide (key y < key (xs.getD (c - a) y)) := by
    intro c h1 h2
    rw [lessAt_eq less _ m c y (xs.getD (c - a) y)
      (by simpa using getElem?_append_cons_length (pre ++ xs) post y m (by simp; omega))
      (by
        have := getElem?_left_block pre xs ([y] ++ post) y a c ha h1 (by omega)
        simpa using this)]
    rw [hagree _ (by simp) _ (List.mem_append_left _ (getD_mem xs y (c - a) (by omega)))]
  rw [searchNotLess_eq]
  obtain ⟨hk1, hk2, hbelow, habove⟩ := binarySearch_spec
    (fun h => !lessAt less (pre ++ xs ++ [y] ++ post) m h) a m (m - a) (by omega) (le_refl _)
    (by
      intro c d h1 h2 h3 hd
      simp only [htest c h1 (by omega), htest d (by omega) h3, Bool.not_eq_true',
        decide_eq_false_iff_not, not_lt] at hd ⊢
      exact le_trans (sorted_getD key xs y hxs (c - a) (d - a) (by omega) (by omega)) hd)
  generalize binarySearch (fun h => !lessAt less (pre ++ xs ++ [y] ++ post) m h) (m - a) a m = k
    at hk1 hk2 hbelow habove
  have e : pre ++ xs ++ [y] ++ post =
      (pre ++ xs.take (k - a)) ++ xs.drop (k - a) ++ y :: post := by
    rw [List.append_assoc pre (xs.take (k - a)), List.take_append_drop]
    simp
  rw [e, moveDown_eq y (pre ++ xs.take (k - a)) (xs.drop (k - a)) post k (b - a) m
    (by simp; omega) (by simp; omega) (by simp; omega)]
  have h21 : ∀ z ∈ [y], ∀ x ∈ xs.drop (k - a), key z < key x := by
    intro z hz x hx
    obtain ⟨i, hi1, hi2, rfl⟩ := mem_drop_getD xs y x (k - a) hx
    rw [List.mem_singleton.1 hz]
    have := habove (a + i) (by omega) (by omega)
    simp only [] at this
    rw [htest (a + i) (by omega) (by omega), Nat.add_sub_cancel_left] at this
    simpa using this
  have h22 : ∀ x ∈ xs.take (k - a), key x ≤ key y := by
    intro x hx
    obtain ⟨i, hi1, hi2, rfl⟩ := mem_take_getD xs y x (k - a) hx
    have := hbelow (a + i) (by omega) (by omega)
    simp only [] at this
    rw [htest (a + i) (by omega) (by omega), Nat.add_sub_cancel_left] at this
    simpa using this
  have hsplit := sortByKey_split key (xs.take (k - a)) (xs.drop (k - a)) [y] []
    (by rw [List.take_append_drop]; exact hxs) (by simp) (by simp) h21
  rw [List.take_append_drop, List.append_nil, List.append_nil,
    sortByKey_of_sorted key _ (hxs.sublist (List.drop_sublist _ _)),
    sortByKey_of_sorted key (xs.take (k - a) ++ [y])
      (by
        rw [List.pairwise_append]
        refine ⟨hxs.sublist (List.take_sublist _ _), by simp, ?_⟩
        intro x hx z hz
        rw [List.mem_singleton.1 hz]
        exact h22 x hx)] at hsplit
  rw [← hsplit]
  simp

theorem getElem?_block_left {α : Type} (pre xs ys post : List α) (d : α) (a c : ℕ)
    (ha : a = pre.length) (h1 : a ≤ c) (h2 : c < a + xs.length) :
    (pre ++ xs ++ ys ++ post)[c]? = some (xs.getD (c - a) d) := by
  have := getElem?_left_block pre xs (ys ++ post) d a c ha h1 h2
  simpa using this

theorem sortByKey_append_of_nil {α κ : Type} [LinearOrder κ] (key : α → κ) (xs ys : List α)
    (hxs : xs.Pairwise (fun u v => key u ≤ key v))
    (hys : ys.Pairwise (fun u v => key u ≤ key v)) (h : xs = [] ∨ ys = []) :
    sortByKey key (xs ++ ys) = xs ++ ys := by
  rcases h with rfl | rfl
  · simpa using sortByKey_of_sorted key ys hys
  · simpa using sortByKey_of_sorted key xs hxs

/-- The general case of `symMerge_func` with its local variables named. -/
theorem symMerge_func_general {α : Type} (less : α → α → Bool) (fuel : ℕ) (data : List α)
    (a m b : ℕ) (h1 : ¬ m - a = 1) (h2 : ¬ b - m = 1)
    (mid n start0 r0 start end_ : ℕ) (data1 data2 : List α)
    (hmid : mid = (a + b) / 2) (hn : n = mid + m)
    (hstart0 : start0 = if m > mid then n - b else a)
    (hr0 : r0 = if m > mid then mid else m)
    (hstart : start = searchSplit less data (n - 1) (r0 - start0) start0 r0)
    (hend : end_ = n - start)
    (hdata1 : data1 = if start < m ∧ m < end_ then rotate_func data start m end_ else data)
    (hdata2 : data2 = if a < start ∧ start < mid then symMerge_func less fuel data1 a start mid
      else data1) :
    symMerge_func less (fuel + 1) data a m b =
      if mid < end_ ∧ end_ < b then symMerge_func less fuel data2 mid end_ b else data2 := by
  subst hmid hn hstart0 hr0 hstart hend hdata1 hdata2
  rw [symMerge_func, if_neg h1, if_neg h2]

/-- The split point found by the binary search of the general case of `symMerge_func`. -/
theorem searchSplit_spec {α κ : Type} [LinearOrder κ] (key : α → κ) (less : α → α → Bool)
    (pre xs ys post : List α) (d : α) (a m b mid n start0 r0 : ℕ)
    (ha : a = pre.length) (hm : m = a + xs.length) (hb : b = m + ys.length)
    (hn : n = mid + m)
    (hagree : ∀ u ∈ xs ++ ys, ∀ v ∈ xs ++ ys, less u v = decide (key u < key v))
    (hxs : xs.Pairwise (fun u v => key u ≤ key v))
    (hys : ys.Pairwise (fun u v => key u ≤ key v))
    (hf1 : a ≤ start0) (hf2 : start0 ≤ r0) (hf3 : r0 ≤ m) (hf4 : r0 ≤ mid)
    (hf5 : n - start0 ≤ b) :
    start0 ≤ searchSplit less (pre ++ xs ++ ys ++ post) (n - 1) (r0 - start0) start0 r0 ∧
    searchSplit less (pre ++ xs ++ ys ++ post) (n - 1) (r0 - start0) start0 r0 ≤ r0 ∧
    (∀ c, start0 ≤ c →
      c < searchSplit less (pre ++ xs ++ ys ++ post) (n - 1) (r0 - start0) start0 r0 →
      key (xs.getD (c - a) d) ≤ key (ys.getD (n - 1 - c - m) d)) ∧
    (∀ c, searchSplit less (pre ++ xs ++ ys ++ post) (n - 1) (r0 - start0) start0 r0 ≤ c →
      c < r0 → key (ys.getD (n - 1 - c - m) d) < key (xs.getD (c - a) d)) := by
  have htest : ∀ c, start0 ≤ c → c < r0 →
      (!lessAt less (pre ++ xs ++ ys ++ post) (n - 1 - c) c) =
        !decide (key (ys.getD (n - 1 - c - m) d) < key (xs.getD (c - a) d)) := by
    intro c hc1 hc2
    rw [lessAt_eq less _ (n - 1 - c) c (ys.getD (n - 1 - c - m) d) (xs.getD (c - a) d)
      (getElem?_right_block pre xs ys post d m (n - 1 - c) (by omega) (by omega)
        (by omega))
      (getElem?_block_left pre xs ys post d a c ha (by omega) (by omega))]
    rw [hagree _ (List.mem_append_right _ (getD_mem ys d _ (by omega))) _
      (List.mem_append_left _ (getD_mem xs d _ (by omega)))]
  rw [searchSplit_eq]
  obtain ⟨hk1, hk2, hbelow, habove⟩ := binarySearch_spec
    (fun c => !lessAt less (pre ++ xs ++ ys ++ post) (n - 1 - c) c) start0 r0
    (r0 - start0) hf2 (le_refl _)
    (by
      intro c e hc1 hc2 hc3 he
      simp only [htest c hc1 (by omega), htest e (by omega) hc3, Bool.not_eq_true',
        decide_eq_false_iff_not, not_lt] at he ⊢
      calc key (xs.getD (c - a) d) ≤ key (xs.getD (e - a) d) :=
            sorted_getD key xs d hxs _ _ (by omega) (by omega)
        _ ≤ key (ys.getD (n - 1 - e - m) d) := he
        _ ≤ key (ys.getD (n - 1 - c - m) d) :=
            sorted_getD key ys d hys _ _ (by omega) (by omega))
  refine ⟨hk1, hk2, ?_, ?_⟩
  · intro c hc1 hc2
    have := hbelow c hc1 hc2
    simp only [] at this
    rw [htest c hc1 (by omega)] at this
    simpa using this
  · intro c hc1 hc2
    have := habove c hc1 hc2
    simp only [] at this
    rw [htest c (by omega) hc2] at this
    simpa using this


/-- The three steps of the general case of `symMerge_func` after the split point is found:
the rotation brings `l2` and `r1` into each other's place, and the two recursive calls
merge `l1` with `r1` and `l2` with `r2`. -/
theorem symMerge_steps {α κ : Type} [LinearOrder κ] (key : α → κ) (less : α → α → Bool)
    (fuel : ℕ)
    (ih : ∀ (pre xs ys post : List α) (a m b : ℕ), a = pre.length →
      m = a + xs.length → b = m + ys.length → xs ≠ [] → ys ≠ [] → b - a ≤ fuel →
      (∀ u ∈ xs ++ ys, ∀ v ∈ xs ++ ys, less u v = decide (key u < key v)) →
      xs.Pairwise (fun u v => key u ≤ key v) → ys.Pairwise (fun u v => key u ≤ key v) →
      symMerge_func less fuel (pre ++ xs ++ ys ++ post) a m b =
        pre ++ sortByKey key (xs ++ ys) ++ post)
    (pre l1 l2 r1 r2 post data1 data2 : List α) (a start m mid end_ b : ℕ)
    (ha : a = pre.length) (hlen1 : l1.length = start - a) (hlen2 : l2.length = m - start)
    (hlen3 : r1.length = end_ - m) (hlen4 : r2.length = b - end_)
    (ho1 : a ≤ start) (ho2 : start ≤ m) (ho3 : m ≤ end_) (ho4 : end_ ≤ b)
    (hmid : mid = start + (end_ - m)) (hfuel1 : mid - a ≤ fuel) (hfuel2 : b - mid ≤ fuel)
    (hxs : (l1 ++ l2).Pairwise (fun u v => key u ≤ key v))
    (hys : (r1 ++ r2).Pairwise (fun u v => key u ≤ key v))
    (h12 : ∀ x ∈ l1, ∀ y ∈ r2, key x ≤ key y) (h21 : ∀ y ∈ r1, ∀ x ∈ l2, key y < key x)
    (hagree : ∀ u ∈ (l1 ++ l2) ++ (r1 ++ r2), ∀ v ∈ (l1 ++ l2) ++ (r1 ++ r2),
      less u v = decide (key u < key v))
    (hdata1 : data1 = if start < m ∧ m < end_ then
      rotate_func (pre ++ (l1 ++ l2) ++ (r1 ++ r2) ++ post) start m end_
      else pre ++ (l1 ++ l2) ++ (r1 ++ r2) ++ post)
    (hdata2 : data2 = if a < start ∧ start < mid then symMerge_func less fuel data1 a start mid
      else data1) :
    (if mid < end_ ∧ end_ < b then symMerge_func less fuel data2 mid end_ b else data2) =
      pre ++ sortByKey key ((l1 ++ l2) ++ (r1 ++ r2)) ++ post := by
  have hl1 : l1.Pairwise (fun u v => key u ≤ key v) := (List.pairwise_append.1 hxs).1
  have hl2 : l2.Pairwise (fun u v => key u ≤ key v) := (List.pairwise_append.1 hxs).2.1
  have hr1 : r1.Pairwise (fun u v => key u ≤ key v) := (List.pairwise_append.1 hys).1
  have hr2 : r2.Pairwise (fun u v => key u ≤ key v) := (List.pairwise_append.1 hys).2.1
  have hagree1 : ∀ u ∈ l1 ++ r1, ∀ v ∈ l1 ++ r1, less u v = decide (key u < key v) := by
    have hsub : ∀ u, u ∈ l1 ++ r1 → u ∈ (l1 ++ l2) ++ (r1 ++ r2) := by
      intro u hu
      rcases List.mem_append.1 hu with h | h
      · exact List.mem_append_left _ (List.mem_append_left _ h)
      · exact List.mem_append_right _ (List.mem_append_left _ h)
    exact fun u hu v hv => hagree u (hsub u hu) v (hsub v hv)
  have hagree2 : ∀ u ∈ l2 ++ r2, ∀ v ∈ l2 ++ r2, less u v = decide (key u < key v) := by
    have hsub : ∀ u, u ∈ l2 ++ r2 → u ∈ (l1 ++ l2) ++ (r1 ++ r2) := by
      intro u hu
      rcases List.mem_append.1 hu with h | h
      · exact List.mem_append_left _ (List.mem_append_right _ h)
      · exact List.mem_append_right _ (List.mem_append_right _ h)
    exact fun u hu v hv => hagree u (hsub u hu) v (hsub v hv)
  have e1 : data1 = pre ++ l1 ++ r1 ++ (l2 ++ r2 ++ post) := by
    rw [hdata1]
    by_cases hrot : start < m ∧ m < end_
    · rw [if_pos hrot]
      have := rotate_func_eq (pre ++ l1) l2 r1 (r2 ++ post) start m end_
        (by simp; omega) (by omega) (by omega)
        (List.ne_nil_of_length_pos (by omega)) (List.ne_nil_of_length_pos (by omega))
      simp only [List.append_assoc] at this ⊢
      exact this
    · rw [if_neg hrot]
      have : l2 = [] ∨ r1 = [] := by
        by_cases hsm : start < m
        · exact Or.inr (List.length_eq_zero.1 (by omega))
        · exact Or.inl (List.length_eq_zero.1 (by omega))
      rcases this with h | h <;> simp [h]
  have e2 : data2 = (pre ++ sortByKey key (l1 ++ r1)) ++ l2 ++ r2 ++ post := by
    rw [hdata2, e1]
    by_cases hrec : a < start ∧ start < mid
    · rw [if_pos hrec, ih pre l1 r1 (l2 ++ r2 ++ post) a start mid ha (by omega) (by omega)
        (List.ne_nil_of_length_pos (by omega)) (List.ne_nil_of_length_pos (by omega))
        hfuel1 hagree1 hl1 hr1]
      simp only [List.append_assoc]
    · rw [if_neg hrec, sortByKey_append_of_nil key l1 r1 hl1 hr1
        (by
          by_cases hsa : a < start
          · exact Or.inr (List.length_eq_zero.1 (by omega))
          · exact Or.inl (List.length_eq_zero.1 (by omega)))]
      simp only [List.append_assoc]
  have e3 : (if mid < end_ ∧ end_ < b then symMerge_func less fuel data2 mid end_ b
      else data2) = (pre ++ sortByKey key (l1 ++ r1)) ++ sortByKey key (l2 ++ r2) ++ post := by
    rw [e2]
    by_cases hrec : mid < end_ ∧ end_ < b
    · rw [if_pos hrec, ih (pre ++ sortByKey key (l1 ++ r1)) l2 r2 post mid end_ b
        (by simp [sortByKey_length]; omega) (by omega) (by omega)
        (List.ne_nil_of_length_pos (by omega)) (List.ne_nil_of_length_pos (by omega))
        hfuel2 hagree2 hl2 hr2]
    · rw [if_neg hrec, sortByKey_append_of_nil key l2 r2 hl2 hr2
        (by
          by_cases hsa : mid < end_
          · exact Or.inr (List.length_eq_zero.1 (by omega))
          · exact Or.inl (List.length_eq_zero.1 (by omega)))]
      simp only [List.append_assoc]
  rw [e3, ← sortByKey_split key l1 l2 r1 r2 hxs hys h12 h21]
  simp only [List.append_assoc]


/-- The bounds of the binary search of the general case of `symMerge_func`. -/
theorem symMerge_search_bounds (a m b mid n start0 r0 : ℕ) (h1 : 2 ≤ m - a) (h2 : 2 ≤ b - m)
    (hmid : mid = (a + b) / 2) (hn : n = mid + m)
    (hstart0 : start0 = if m > mid then n - b else a)
    (hr0 : r0 = if m > mid then mid else m) :
    a ≤ start0 ∧ start0 ≤ r0 ∧ r0 ≤ m ∧ r0 ≤ mid ∧ n - start0 ≤ b ∧
      (start0 = a ∨ n - start0 = b) ∧ (r0 = m ∨ r0 = mid) ∧ a < mid ∧ mid < b := by
  by_cases hc : m > mid
  · rw [if_pos hc] at hstart0 hr0
    omega
  · rw [if_neg hc] at hstart0 hr0
    omega

/-- The positions that the general case of `symMerge_func` computes from the split point
`start`, in terms of the lengths `lx` and `ly` of the two blocks. -/
theorem symMerge_split_bounds (a m b mid n start0 r0 start end_ lx ly fuel : ℕ)
    (hm : m = a + lx) (hb : b = m + ly) (hn : n = mid + m)
    (hf1 : a ≤ start0) (hf3 : r0 ≤ m) (hf4 : r0 ≤ mid) (hf5 : n - start0 ≤ b)
    (hf6 : start0 = a ∨ n - start0 = b) (hf7 : r0 = m ∨ r0 = mid) (hf8 : a < mid)
    (hf9 : mid < b) (hk1 : start0 ≤ start) (hk2 : start ≤ r0) (hend : end_ = n - start)
    (hfuel : b - a ≤ fuel + 1) :
    (start - a ≤ lx ∧ end_ - m ≤ ly ∧ lx - (start - a) = m - start ∧
      ly - (end_ - m) = b - end_) ∧
    (a ≤ start ∧ start ≤ m ∧ m ≤ end_ ∧ end_ ≤ b ∧ mid = start + (end_ - m) ∧
      mid - a ≤ fuel ∧ b - mid ≤ fuel) ∧
    (0 < start - a → end_ - m < ly →
      start0 ≤ start - 1 ∧ start - 1 < start ∧ n - 1 - (start - 1) - m = end_ - m ∧
        start - 1 - a = start - a - 1) ∧
    (0 < end_ - m → start - a < lx → start < r0 ∧ n - 1 - start - m = end_ - m - 1) := by
  subst hm hb hn hend
  refine ⟨by omega, by omega, ?_, ?_⟩
  · intro h3 h4
    omega
  · intro h3 h4
    omega

/-- The library function `symMerge_func` merges two neighbouring sorted blocks of a slice
stably: on blocks `xs` and `ys` that are sorted by `key`, with a comparison that is
`key u < key v` on their elements, the two blocks are replaced by the stable sort of
`xs ++ ys`, and the rest of the slice is untouched. -/
theorem symMerge_func_eq {α κ : Type} [LinearOrder κ] (key : α → κ) (less : α → α → Bool) :
    ∀ (fuel : ℕ) (pre xs ys post : List α) (a m b : ℕ), a = pre.length →
      m = a + xs.length → b = m + ys.length → xs ≠ [] → ys ≠ [] → b - a ≤ fuel →
      (∀ u ∈ xs ++ ys, ∀ v ∈ xs ++ ys, less u v = decide (key u < key v)) →
      xs.Pairwise (fun u v => key u ≤ key v) → ys.Pairwise (fun u v => key u ≤ key v) →
      symMerge_func less fuel (pre ++ xs ++ ys ++ post) a m b =
        pre ++ sortByKey key (xs ++ ys) ++ post := by
  intro fuel
  induction fuel with
  | zero =>
    intro pre xs ys post a m b ha hm hb hx hy hfuel
    have := List.length_pos.2 hx
    omega
  | succ fuel ih =>
    intro pre xs ys post a m b ha hm hb hx hy hfuel hagree hxs hys
    have hx0 := List.length_pos.2 hx
    have hy0 := List.length_pos.2 hy
    by_cases h1 : m - a = 1
    · rw [symMerge_func, if_pos h1]
      obtain ⟨x, rfl⟩ : ∃ x, xs = [x] := List.length_eq_one.1 (by omega)
      exact symMerge_left_single key less pre ys post x a m b ha (by simpa using hm) hb
        (by simpa using hagree) hys
    · by_cases h2 : b - m = 1
      · rw [symMerge_func, if_neg h1, if_pos h2]
        obtain ⟨y, rfl⟩ : ∃ y, ys = [y] := List.length_eq_one.1 (by omega)
        exact symMerge_right_single key less pre xs post y a m b ha hm (by simpa using hb)
          hagree hxs
      · obtain ⟨d, -⟩ : ∃ d : α, True := ⟨xs.head hx, trivial⟩
        obtain ⟨mid, hmid⟩ : ∃ mid, mid = (a + b) / 2 := ⟨_, rfl⟩
        obtain ⟨n, hn⟩ : ∃ n, n = mid + m := ⟨_, rfl⟩
        obtain ⟨start0, hstart0⟩ : ∃ start0, start0 = if m > mid then n - b else a := ⟨_, rfl⟩
        obtain ⟨r0, hr0⟩ : ∃ r0, r0 = if m > mid then mid else m := ⟨_, rfl⟩
        obtain ⟨start, hstart⟩ : ∃ start, start =
            searchSplit less (pre ++ xs ++ ys ++ post) (n - 1) (r0 - start0) start0 r0 :=
          ⟨_, rfl⟩
        obtain ⟨end_, hend⟩ : ∃ end_, end_ = n - start := ⟨_, rfl⟩
        obtain ⟨data1, hdata1⟩ : ∃ data1, data1 = if start < m ∧ m < end_ then
            rotate_func (pre ++ xs ++ ys ++ post) start m end_
            else pre ++ xs ++ ys ++ post := ⟨_, rfl⟩
        obtain ⟨data2, hdata2⟩ : ∃ data2, data2 = if a < start ∧ start < mid then
            symMerge_func less fuel data1 a start mid else data1 := ⟨_, rfl⟩
        rw [symMerge_func_general less fuel (pre ++ xs ++ ys ++ post) a m b h1 h2 mid n start0
          r0 start end_ data1 data2 hmid hn hstart0 hr0 hstart hend hdata1 hdata2]
        obtain ⟨hf1, hf2, hf3, hf4, hf5, hf6, hf7, hf8, hf9⟩ :=
          symMerge_search_bounds a m b mid n start0 r0 (by omega) (by omega) hmid hn hstart0 hr0
        have hsp := searchSplit_spec key less pre xs ys post d a m b mid n start0 r0 ha hm hb hn
          hagree hxs hys hf1 hf2 hf3 hf4 hf5
        rw [← hstart] at hsp
        obtain ⟨hk1, hk2, hbelow, habove⟩ := hsp
        obtain ⟨⟨hs, he, hs', he'⟩, ⟨ho1, ho2, ho3, ho4, ho5, ho6, ho7⟩, hb1, hb2⟩ :=
          symMerge_split_bounds a m b mid n start0 r0 start end_ xs.length ys.length fuel hm hb
            hn hf1 hf3 hf4 hf5 hf6 hf7 hf8 hf9 hk1 hk2 hend hfuel
        have hc1 : 0 < start - a → end_ - m < ys.length →
            key (xs.getD (start - a - 1) d) ≤ key (ys.getD (end_ - m) d) := by
          intro hs0 he0
          obtain ⟨g1, g2, g3, g4⟩ := hb1 hs0 he0
          have := hbelow (start - 1) g1 g2
          rw [g3, g4] at this
          exact this
        have hc2 : 0 < end_ - m → start - a < xs.length →
            key (ys.getD (end_ - m - 1) d) < key (xs.getD (start - a) d) := by
          intro he0 hs0
          obtain ⟨g1, g2⟩ := hb2 he0 hs0
          have := habove start (le_refl _) g1
          rw [g2] at this
          exact this
        obtain ⟨h12, h21⟩ :=
          split_cross key xs ys d (start - a) (end_ - m) hs he hxs hys hc1 hc2
        have hx1 : xs.take (start - a) ++ xs.drop (start - a) = xs := List.take_append_drop _ _
        have hy1 : ys.take (end_ - m) ++ ys.drop (end_ - m) = ys := List.take_append_drop _ _
        have := symMerge_steps key less fuel ih pre (xs.take (start - a)) (xs.drop (start - a))
          (ys.take (end_ - m)) (ys.drop (end_ - m)) post data1 data2 a start m mid end_ b ha
          (by rw [List.length_take]; exact Nat.min_eq_left hs)
          (by rw [List.length_drop]; exact hs')
          (by rw [List.length_take]; exact Nat.min_eq_left he)
          (by rw [List.length_drop]; exact he')
          ho1 ho2 ho3 ho4 ho5 ho6 ho7
          (by rw [hx1]; exact hxs) (by rw [hy1]; exact hys) h12 h21
          (by rw [hx1, hy1]; exact hagree) (by rw [hx1, hy1]; exact hdata1) hdata2
        rw [hx1, hy1] at this
        exact this

theorem Blocked_cons {α : Type} (blockSize : ℕ) (hB : 0 < blockSize) (b : List α)
    (bs : List (List α)) (hb : b.length = blockSize) (hbs : Blocked blockSize bs) :
    Blocked blockSize (b :: bs) := by
  cases bs with
  | nil => exact ⟨by omega, by omega⟩
  | cons b' rest => exact ⟨hb, hbs⟩

theorem Blocked_tail {α : Type} (blockSize : ℕ) (b : List α) (bs : List (List α))
    (h : Blocked blockSize (b :: bs)) : Blocked blockSize bs := by
  cases bs with
  | nil => trivial
  | cons b' rest => exact h.2

theorem Blocked_head {α : Type} (blockSize : ℕ) (hB : 0 < blockSize) (b : List α)
    (bs : List (List α)) (h : Blocked blockSize (b :: bs)) :
    0 < b.length ∧ b.length ≤ blockSize ∧ (bs ≠ [] → b.length = blockSize) := by
  cases bs with
  | nil => exact ⟨h.1, h.2, fun h => absurd rfl h⟩
  | cons b' rest =>
    have h2 : b.length = blockSize := h.1
    exact ⟨by omega, by omega, fun _ => h2⟩

theorem Blocked_length_le {α : Type} (blockSize : ℕ) (hB : 0 < blockSize) :
    ∀ bs : List (List α), Blocked blockSize bs → bs.length ≤ bs.flatten.length
  | [], _ => Nat.zero_le _
  | b :: bs, h => by
    have h1 := (Blocked_head blockSize hB b bs h).1
    have h2 := Blocked_length_le blockSize hB bs (Blocked_tail blockSize b bs h)
    simp only [List.length_cons, List.flatten_cons, List.length_append]
    omega

theorem Blocked_single {α : Type} (blockSize : ℕ) (hB : 0 < blockSize) (bs : List (List α))
    (h : Blocked blockSize bs) (hlen : bs.flatten.length ≤ blockSize) :
    bs = [] ∨ bs = [bs.flatten] := by
  cases bs with
  | nil => exact Or.inl rfl
  | cons b rest =>
    cases rest with
    | nil => exact Or.inr (by simp)
    | cons b' rest =>
      have h1 : b.length = blockSize := h.1
      have h2 := (Blocked_head blockSize hB b' rest h.2).1
      simp only [List.flatten_cons, List.length_append] at hlen
      omega

theorem pairUp_flatten {α : Type} : ∀ bs : List (List α), (pairUp bs).flatten = bs.flatten
  | [] => rfl
  | [b] => rfl
  | b1 :: b2 :: rest => by
    simp only [pairUp, List.flatten_cons, pairUp_flatten rest, List.append_assoc]

theorem pairUp_Blocked {α : Type} (blockSize : ℕ) (hB : 0 < blockSize) :
    ∀ bs : List (List α), Blocked blockSize bs → Blocked (2 * blockSize) (pairUp bs)
  | [], _ => trivial
  | [b], h => ⟨h.1, by have := h.2; omega⟩
  | b1 :: b2 :: rest, h => by
    have h1 : b1.length = blockSize := h.1
    have h2 := Blocked_head blockSize hB b2 rest h.2
    have h3 := pairUp_Blocked blockSize hB rest (Blocked_tail blockSize b2 rest h.2)
    simp only [pairUp]
    cases hr : pairUp rest with
    | nil => exact ⟨by simp; omega, by simp; omega⟩
    | cons c cs =>
      rw [hr] at h3
      have hrest : rest ≠ [] := by
        intro h0
        rw [h0] at hr
        simp [pairUp] at hr
      exact ⟨by simp; have := h2.2.2 hrest; omega, h3⟩

theorem sortBlocks_eq {α : Type} (less : α → α → Bool) (blockSize n : ℕ)
    (hB : 0 < blockSize) :
    ∀ (fuel : ℕ) (rest pre : List α) (a : ℕ), a = pre.length → n = a + rest.length →
      rest.length ≤ fuel →
      ∃ bs : List (List α), bs.flatten = rest ∧ Blocked blockSize bs ∧
        insertionSort_func less
          (sortBlocks less blockSize n fuel a (a + blockSize) (pre ++ rest)).1
          (sortBlocks less blockSize n fuel a (a + blockSize) (pre ++ rest)).2 n =
        pre ++ (bs.map (insertionSort less)).flatten := by
  intro fuel
  induction fuel with
  | zero =>
    intro rest pre a ha hn hfuel
    have hrest : rest = [] := List.length_eq_zero.1 (by omega)
    subst hrest
    refine ⟨[], rfl, trivial, ?_⟩
    simp only [sortBlocks]
    have := insertionSort_func_eq less pre [] [] a n ha (by simpa using hn)
    simpa [insertionSort, insertionSortLoop] using this
  | succ fuel ih =>
    intro rest pre a ha hn hfuel
    simp only [sortBlocks]
    by_cases hfull : a + blockSize ≤ n
    · rw [if_pos hfull]
      have e : pre ++ rest = pre ++ rest.take blockSize ++ rest.drop blockSize := by
        rw [List.append_assoc, List.take_append_drop]
      have hlen : (rest.take blockSize).length = blockSize := by
        rw [List.length_take]; omega
      rw [e, insertionSort_func_eq less pre (rest.take blockSize) (rest.drop blockSize) a
        (a + blockSize) ha (by rw [hlen])]
      obtain ⟨bs, hbs1, hbs2, hbs3⟩ := ih (rest.drop blockSize)
        (pre ++ insertionSort less (rest.take blockSize)) (a + blockSize)
        (by rw [List.length_append, insertionSort_length, hlen, ha])
        (by rw [List.length_drop]; omega) (by rw [List.length_drop]; omega)
      refine ⟨rest.take blockSize :: bs, ?_, Blocked_cons blockSize hB _ bs hlen hbs2, ?_⟩
      · rw [List.flatten_cons, hbs1, List.take_append_drop]
      · rw [hbs3]
        simp only [List.map_cons, List.flatten_cons, List.append_assoc]
    · rw [if_neg hfull]
      have := insertionSort_func_eq less pre rest [] a n ha hn
      simp only [List.append_nil] at this
      rw [this]
      cases rest with
      | nil => exact ⟨[], rfl, trivial, by simp [insertionSort, insertionSortLoop]⟩
      | cons x rest =>
        refine ⟨[x :: rest], by simp, ⟨by simp, ?_⟩, by simp⟩
        simp only [List.length_cons] at hn ⊢
        omega


/-- One merge pass of `stable_func` (the inner loop and the merge of the remaining block
pair): the sorted blocks are merged in pairs. -/
theorem mergeBlocks_eq {α κ : Type} [LinearOrder κ] (key : α → κ) (less : α → α → Bool)
    (blockSize n : ℕ) (hB : 0 < blockSize) :
    ∀ (fuel : ℕ) (bs : List (List α)) (pre : List α) (a : ℕ), a = pre.length →
      n = a + bs.flatten.length → Blocked blockSize bs → bs.length ≤ fuel →
      (∀ u ∈ bs.flatten, ∀ v ∈ bs.flatten, less u v = decide (key u < key v)) →
      (if (mergeBlocks less blockSize n fuel a (a + 2 * blockSize)
            (pre ++ (bs.map (sortByKey key)).flatten)).2 + blockSize < n then
          symMerge_func less n
            (mergeBlocks less blockSize n fuel a (a + 2 * blockSize)
              (pre ++ (bs.map (sortByKey key)).flatten)).1
            (mergeBlocks less blockSize n fuel a (a + 2 * blockSize)
              (pre ++ (bs.map (sortByKey key)).flatten)).2
            ((mergeBlocks less blockSize n fuel a (a + 2 * blockSize)
              (pre ++ (bs.map (sortByKey key)).flatten)).2 + blockSize) n
        else (mergeBlocks less blockSize n fuel a (a + 2 * blockSize)
              (pre ++ (bs.map (sortByKey key)).flatten)).1) =
        pre ++ ((pairUp bs).map (sortByKey key)).flatten := by
  intro fuel
  induction fuel with
  | zero =>
    intro bs pre a ha hn hbs hfuel hagree
    have : bs = [] := List.length_eq_zero.1 (by omega)
    subst this
    simp only [List.flatten_nil, List.length_nil, Nat.add_zero] at hn
    simp only [mergeBlocks, pairUp, List.map_nil, List.flatten_nil]
    rw [if_neg (by omega)]
  | succ fuel ih =>
    intro bs pre a ha hn hbs hfuel hagree
    match bs, hbs, hn, hfuel, hagree with
    | [], _, hn, _, _ =>
      simp only [List.flatten_nil, List.length_nil, Nat.add_zero] at hn
      simp only [mergeBlocks, pairUp, List.map_nil, List.flatten_nil]
      rw [if_neg (show ¬ a + 2 * blockSize ≤ n by omega)]
      simp only []
      rw [if_neg (show ¬ a + blockSize < n by omega)]
    | [b], hbs, hn, _, _ =>
      have h1 : b.length ≤ blockSize := hbs.2
      simp only [List.flatten_cons, List.flatten_nil, List.append_nil] at hn
      simp only [mergeBlocks, pairUp]
      rw [if_neg (show ¬ a + 2 * blockSize ≤ n by omega)]
      simp only []
      rw [if_neg (show ¬ a + blockSize < n by omega)]
    | b1 :: b2 :: rest, hbs, hn, hfuel, hagree =>
      have h1 : b1.length = blockSize := hbs.1
      have h2 := Blocked_head blockSize hB b2 rest hbs.2
      have hrestB := Blocked_tail blockSize b2 rest hbs.2
      simp only [List.flatten_cons, List.length_append] at hn
      have e : pre ++ (List.map (sortByKey key) (b1 :: b2 :: rest)).flatten =
          pre ++ sortByKey key b1 ++ sortByKey key b2 ++
            (rest.map (sortByKey key)).flatten := by
        simp only [List.map_cons, List.flatten_cons, List.append_assoc]
      have hag : ∀ u ∈ sortByKey key b1 ++ sortByKey key b2,
          ∀ v ∈ sortByKey key b1 ++ sortByKey key b2, less u v = decide (key u < key v) := by
        have hsub : ∀ u, u ∈ sortByKey key b1 ++ sortByKey key b2 →
            u ∈ (b1 :: b2 :: rest).flatten := by
          intro u hu
          simp only [List.flatten_cons, List.mem_append] at hu ⊢
          rcases hu with h | h
          · exact Or.inl ((sortByKey_perm key b1).mem_iff.1 h)
          · exact Or.inr (Or.inl ((sortByKey_perm key b2).mem_iff.1 h))
        exact fun u hu v hv => hagree u (hsub u hu) v (hsub v hv)
      have hmerge : ∀ b : ℕ, b = a + blockSize + b2.length →
          symMerge_func less n (pre ++ sortByKey key b1 ++ sortByKey key b2 ++
            (rest.map (sortByKey key)).flatten) a (a + blockSize) b =
          pre ++ sortByKey key (b1 ++ b2) ++ (rest.map (sortByKey key)).flatten := by
        intro b hb
        rw [symMerge_func_eq key less n pre (sortByKey key b1) (sortByKey key b2) _ a
          (a + blockSize) b ha (by rw [sortByKey_length, h1])
          (by rw [sortByKey_length, hb])
          (List.ne_nil_of_length_pos (by rw [sortByKey_length]; omega))
          (List.ne_nil_of_length_pos (by rw [sortByKey_length]; omega))
          (by omega) hag (sortByKey_sorted key b1) (sortByKey_sorted key b2),
          sortByKey_append_sortByKey]
      rw [e]
      simp only [mergeBlocks]
      by_cases hfull : b2.length = blockSize
      · rw [if_pos (show a + 2 * blockSize ≤ n by omega), hmerge (a + 2 * blockSize) (by omega)]
        have := ih rest (pre ++ sortByKey key (b1 ++ b2)) (a + 2 * blockSize)
          (by rw [List.length_append, sortByKey_length, List.length_append]; omega)
          (by omega) hrestB (by simp only [List.length_cons] at hfuel; omega)
          (fun u hu v hv => hagree u (by simp only [List.flatten_cons, List.mem_append]; tauto)
            v (by simp only [List.flatten_cons, List.mem_append]; tauto))
        rw [this]
        simp only [pairUp, List.map_cons, List.flatten_cons, List.append_assoc]
      · have hrest : rest = [] := by
          by_contra h0
          exact hfull (h2.2.2 h0)
        subst hrest
        simp only [List.flatten_nil, List.length_nil, Nat.add_zero] at hn
        rw [if_neg (show ¬ a + 2 * blockSize ≤ n by omega)]
        simp only []
        rw [if_pos (show a + blockSize < n by omega), hmerge n (by omega)]
        simp only [pairUp, List.map_cons, List.map_nil, List.flatten_cons, List.flatten_nil,
          List.append_nil, List.append_assoc]


theorem flatten_map_of_single {α : Type} (sort : List α → List α) (hnil : sort [] = [])
    (blockSize : ℕ) (hB : 0 < blockSize) (bs : List (List α)) (h : Blocked blockSize bs)
    (hlen : bs.flatten.length ≤ blockSize) :
    (bs.map sort).flatten = sort bs.flatten := by
  rcases Blocked_single blockSize hB bs h hlen with h0 | h0
  · rw [h0]
    simp [hnil]
  · generalize bs.flatten = b at h0
    rw [h0]
    simp

/-- The merge passes of `stable_func` turn sorted blocks into the sorted slice. -/
theorem mergePasses_eq {α κ : Type} [LinearOrder κ] (key : α → κ) (less : α → α → Bool)
    (n : ℕ) :
    ∀ (fuel blockSize : ℕ) (bs : List (List α)), 0 < blockSize → Blocked blockSize bs →
      n = bs.flatten.length → n ≤ fuel + blockSize →
      (∀ u ∈ bs.flatten, ∀ v ∈ bs.flatten, less u v = decide (key u < key v)) →
      mergePasses less n fuel blockSize ((bs.map (sortByKey key)).flatten) =
        sortByKey key bs.flatten := by
  intro fuel
  induction fuel with
  | zero =>
    intro blockSize bs hB hbs hn hfuel hagree
    simp only [mergePasses]
    exact flatten_map_of_single (sortByKey key) rfl blockSize hB bs hbs (by omega)
  | succ fuel ih =>
    intro blockSize bs hB hbs hn hfuel hagree
    simp only [mergePasses]
    by_cases hlt : blockSize < n
    · rw [if_pos hlt]
      have hpass := mergeBlocks_eq key less blockSize n hB n bs [] 0 rfl
        (by simpa using hn) hbs (by rw [hn]; exact Blocked_length_le blockSize hB bs hbs) hagree
      simp only [Nat.zero_add, List.nil_append] at hpass
      rw [hpass]
      have := ih (blockSize * 2) (pairUp bs) (by omega)
        (by rw [Nat.mul_comm]; exact pairUp_Blocked blockSize hB bs hbs)
        (by rw [pairUp_flatten]; exact hn) (by omega)
        (by rw [pairUp_flatten]; exact hagree)
      rw [this, pairUp_flatten]
    · rw [if_neg hlt]
      exact flatten_map_of_single (sortByKey key) rfl blockSize hB bs hbs (by omega)

/-- On a comparison that orders the elements of the slice by a key, the stable sort of the
library returns what the insertion sort over the whole slice returns. -/
theorem stable_func_eq_sortByKey {α κ : Type} [LinearOrder κ] (key : α → κ)
    (less : α → α → Bool) (data : List α)
    (hagree : ∀ u ∈ data, ∀ v ∈ data, less u v = decide (key u < key v)) :
    stable_func less data data.length = sortByKey key data := by
  obtain ⟨bs, hbs1, hbs2, hbs3⟩ := sortBlocks_eq less 20 data.length (by decide) data.length
    data [] 0 rfl (by simp) (le_refl _)
  simp only [Nat.zero_add, List.nil_append] at hbs3
  have hmap : bs.map (insertionSort less) = bs.map (sortByKey key) := by
    refine List.map_congr_left (fun b hb => ?_)
    refine insertionSort_eq_sortByKey key less b (fun u hu v hv => hagree u ?_ v ?_)
    · rw [← hbs1]
      exact List.mem_flatten.2 ⟨b, hb, hu⟩
    · rw [← hbs1]
      exact List.mem_flatten.2 ⟨b, hb, hv⟩
  rw [stable_func, hbs3, hmap, mergePasses_eq key less data.length data.length 20 bs (by decide)
    hbs2 (by rw [hbs1]) (by omega) (by rw [hbs1]; exact hagree), hbs1]

/-- On a slice of at most 20 elements the stable sort of the library is its insertion
sort, whatever the comparison. -/
theorem stable_func_of_length_le {α : Type} (less : α → α → Bool) (data : List α)
    (hlen : data.length ≤ 20) : stable_func less data data.length = insertionSort less data := by
  obtain ⟨bs, hbs1, hbs2, hbs3⟩ := sortBlocks_eq less 20 data.length (by decide) data.length
    data [] 0 rfl (by simp) (le_refl _)
  simp only [Nat.zero_add, List.nil_append] at hbs3
  rw [stable_func, hbs3, flatten_map_of_single (insertionSort less) rfl 20 (by decide) bs hbs2
    (by rw [hbs1]; exact hlen), hbs1]
  cases h : data.length with
  | zero => rfl
  | succ k =>
    simp only [mergePasses]
    rw [if_neg (by omega)]

/-- On a slice of at most 20 elements `sort.SliceStable` is the insertion sort of the
library, whatever the comparison. -/
theorem SliceStable_of_length_le {α : Type} (less : α → α → Bool) (data : List α)
    (hlen : data.length ≤ 20) : SliceStable less data = insertionSort less data :=
  stable_func_of_length_le less data hlen

/-- The insertion sort over the whole slice stands for `sort.SliceStable` as the
library carries it out, on every comparison that orders the elements of the slice by a
key. -/
theorem SliceStable_eq_insertionSort {α κ : Type} [LinearOrder κ] (key : α → κ)
    (less : α → α → Bool) (data : List α)
    (hagree : ∀ u ∈ data, ∀ v ∈ data, less u v = decide (key u < key v)) :
    SliceStable less data = insertionSort less data := by
  rw [SliceStable, stable_func_eq_sortByKey key less data hagree,
    insertionSort_eq_sortByKey key less data hagree]

/-! ## `bestOrganisms` -/

theorem allValid_iff (h : Heap) (organisms : List Ptr) :
    allValid h organisms = true ↔ ∀ p ∈ organisms, p < h.length := by
  simp [allValid]

theorem lessBadness_eq (h : Heap) (p q : Ptr) :
    lessBadness h p q = decide (badnessAt h p < badnessAt h q) := rfl

theorem bestOrganisms_eq (h : Heap) (organisms : List Ptr) (limit : ℤ)
    (hvalid : ∀ p ∈ organisms, p < h.length) (hlimit : 0 ≤ limit) :
    bestOrganisms h organisms limit =
      some { organisms := insertionSort (lessBadness h) organisms
             len := min limit.toNat organisms.length } := by
  have hv : allValid h organisms = true := (allValid_iff h organisms).2 hvalid
  unfold bestOrganisms
  rw [if_neg (by simp [hv]), SliceStable_eq_insertionSort (badnessAt h) (lessBadness h) organisms
    (fun _ _ _ _ => lessBadness_eq h _ _)]
  simp only [insertionSort_length]
  by_cases hle : (organisms.length : ℤ) ≤ limit
  · rw [if_pos hle]
    have : organisms.length ≤ limit.toNat := by omega
    rw [Nat.min_eq_right this]
  · rw [if_neg hle, if_neg (by omega)]
    have : limit.toNat ≤ organisms.length := by omega
    rw [Nat.min_eq_left this]

/-- C5: for pointers that can all be dereferenced and a limit `>= 0`, `bestOrganisms`
returns a slice of length `min(limit, len(organisms))` that is sorted ascending by badness
and is a sub-multiset of the input; together with the rest of the sorted array it is a
permutation of the input, and every organism of the rest has a badness at least that of
every returned organism.  When `limit` is at least the population size the result is a
permutation of the whole population. -/
theorem bestOrganisms_lowest (h : Heap) (organisms : List Ptr) (limit : ℤ)
    (hvalid : ∀ p ∈ organisms, p < h.length) (hlimit : 0 ≤ limit) :
    ∃ r : Best, bestOrganisms h organisms limit = some r ∧
      r.elems.length = min limit.toNat organisms.length ∧
      r.elems.Pairwise (fun p q => badnessAt h p ≤ badnessAt h q) ∧
      r.elems.Subperm organisms ∧
      (r.elems ++ r.organisms.drop r.len).Perm organisms ∧
      (∀ p ∈ r.elems, ∀ q ∈ r.organisms.drop r.len, badnessAt h p ≤ badnessAt h q) ∧
      ((organisms.length : ℤ) ≤ limit → r.elems.Perm organisms) := by
  refine ⟨_, bestOrganisms_eq h organisms limit hvalid hlimit, ?_⟩
  have hperm := insertionSort_perm (lessBadness h) organisms
  have hsorted := insertionSort_sorted (badnessAt h) (lessBadness_eq h) organisms
  simp only [Best.elems]
  refine ⟨?_, ?_, ?_, ?_, ?_, ?_⟩
  · simp [List.length_take, insertionSort_length]
  · exact hsorted.sublist (List.take_sublist _ _)
  · exact (List.take_sublist _ _).subperm.trans hperm.subperm
  · rw [List.take_append_drop]; exact hperm
  · intro p hp q hq
    have hs := hsorted
    rw [← List.take_append_drop (min limit.toNat organisms.length)
      (insertionSort (lessBadness h) organisms), List.pairwise_append] at hs
    exact hs.2.2 p hp q hq
  · intro hle
    have : organisms.length ≤ limit.toNat := by omega
    rw [Nat.min_eq_right this, List.take_of_length_le (by simp [insertionSort_length])]
    exact hperm

/-- Witness of C5 on the heap of the stability example. -/
theorem bestOrganisms_lowest_witness :
    ∃ r : Best, bestOrganisms stabilityHeap [0, 1, 2, 3] 2 = some r ∧
      r.elems.length = min (2 : ℤ).toNat [0, 1, 2, 3].length ∧
      r.elems.Pairwise (fun p q => badnessAt stabilityHeap p ≤ badnessAt stabilityHeap q) ∧
      r.elems.Subperm [0, 1, 2, 3] ∧
      (r.elems ++ r.organisms.drop r.len).Perm [0, 1, 2, 3] ∧
      (∀ p ∈ r.elems, ∀ q ∈ r.organisms.drop r.len,
        badnessAt stabilityHeap p ≤ badnessAt stabilityHeap q) ∧
      ((([0, 1, 2, 3] : List Ptr).length : ℤ) ≤ 2 → r.elems.Perm [0, 1, 2, 3]) :=
  bestOrganisms_lowest stabilityHeap [0, 1, 2, 3] 2 (by decide) (by decide)

/-! ## `Copy`, `Mutate` and `Fit` on the heap -/

theorem squaredErrorLoop_eq (ys : List ℚ) :
    ∀ (ps : List ℚ) (i : ℕ) (se : ℚ), i + ps.length ≤ ys.length →
      squaredErrorLoop ys ps i se =
        some (se + ∑ j in Finset.range ps.length, (ps.getD j 0 - ys.getD (i + j) 0) ^ 2)
  | [], i, se, _ => by simp [squaredErrorLoop]
  | p :: ps, i, se, hlen => by
    have hi : i < ys.length := by simp at hlen; omega
    have hrec := squaredErrorLoop_eq ys ps (i + 1) (se + (p - ys[i]) * (p - ys[i]))
      (by simp at hlen; omega)
    simp only [squaredErrorLoop, List.getElem?_eq_getElem hi, hrec, List.length_cons,
      Finset.sum_range_succ', List.getD_cons_succ, List.getD_cons_zero, add_zero,
      List.getD_eq_getElem ys 0 hi]
    congr 1
    have : ∀ j, i + 1 + j = i + (j + 1) := fun j => by omega
    simp only [this]
    ring

theorem getElem?_set_other (h : Heap) (o p : Ptr) (w : organism) (hne : p ≠ o) :
    (h.set o w)[p]? = h[p]? := by
  simp [List.getElem?_set, Ne.symm hne]

theorem getElem?_lt_of_some {h : Heap} {o : Ptr} {v : organism} (hv : h[o]? = some v) :
    o < h.length := by
  by_contra hlt
  rw [List.getElem?_eq_none (not_lt.1 hlt)] at hv
  exact Option.noConfusion hv

theorem getElem?_set_same (h : Heap) (o : Ptr) (v w : organism) (hv : h[o]? = some v) :
    (h.set o w)[o]? = some w := by
  simp [List.getElem?_set, getElem?_lt_of_some hv]

theorem Fit_eq (h : Heap) (o : Ptr) (v : organism) (xs ys : List ℚ) (f : ℚ → ℚ)
    (hv : h[o]? = some v) (hlen : xs.length = ys.length) :
    Fit h o xs ys f =
      some (h.set o { v with
        badness := ∑ i in Finset.range xs.length, (f (xs.getD i 0) - ys.getD i 0) ^ 2 }) := by
  have hloop := squaredErrorLoop_eq ys (xs.map f) 0 0 (by simp [hlen])
  have hsum : ∑ j in Finset.range (xs.map f).length, ((xs.map f).getD j 0 - ys.getD (0 + j) 0) ^ 2
      = ∑ i in Finset.range xs.length, (f (xs.getD i 0) - ys.getD i 0) ^ 2 := by
    rw [List.length_map]
    refine Finset.sum_congr rfl fun j hj => ?_
    have hj' : j < xs.length := Finset.mem_range.1 hj
    simp [List.getD_eq_getElem, hj']
  rw [hsum, zero_add] at hloop
  simp only [Fit, hv, hloop]

/-- C8: for samples of equal length, `Fit` succeeds, stores in `badness` the sum over
`i < n` of `(f(xs[i]) - ys[i])^2`, leaves the six genes of the organism as they were and
leaves every other organism untouched.  With the quintic of `main`, genes (0,0,0,0,1,0)
on samples (1,1),(2,2),(3,3) give error 0 and genes (0,0,0,0,0,5) on samples (0,0),(1,0)
give error 50. -/
theorem Fit_sum_squared_residuals (h : Heap) (o : Ptr) (v : organism) (xs ys : List ℚ)
    (f : ℚ → ℚ) (hv : h[o]? = some v) (hlen : xs.length = ys.length) :
    (∃ h' w, Fit h o xs ys f = some h' ∧ h'[o]? = some w ∧
      w.badness = ∑ i in Finset.range xs.length, (f (xs.getD i 0) - ys.getD i 0) ^ 2 ∧
      w.a = v.a ∧ w.b = v.b ∧ w.c = v.c ∧ w.d = v.d ∧ w.e = v.e ∧ w.f = v.f ∧
      h'.length = h.length ∧ ∀ p, p ≠ o → h'[p]? = h[p]?) ∧
    (Fit identityHeap 0 [1, 2, 3] [1, 2, 3]
        (quintic { a := 0, b := 0, c := 0, d := 0, e := 1, f := 0, badness := 7 })).map
      (fun h' => h'.map organism.badness) = some [0] ∧
    (Fit constantHeap 0 [0, 1] [0, 0]
        (quintic { a := 0, b := 0, c := 0, d := 0, e := 0, f := 5, badness := 0 })).map
      (fun h' => h'.map organism.badness) = some [50] := by
  refine ⟨⟨_, _, Fit_eq h o v xs ys f hv hlen, getElem?_set_same h o v _ hv, rfl, rfl, rfl,
    rfl, rfl, rfl, rfl, by simp, fun p hp => getElem?_set_other h o p _ hp⟩, by decide!,
    by decide!⟩

/-- Witness of C8: the identity polynomial on three samples. -/
theorem Fit_sum_squared_residuals_witness :
    (∃ h' w, Fit identityHeap 0 [1, 2, 3] [1, 2, 3] (fun x => x) = some h' ∧
      h'[0]? = some w ∧
      w.badness = ∑ i in Finset.range [(1 : ℚ), 2, 3].length,
        ((fun x => x) ([(1 : ℚ), 2, 3].getD i 0) - [(1 : ℚ), 2, 3].getD i 0) ^ 2 ∧
      w.a = 0 ∧ w.b = 0 ∧ w.c = 0 ∧ w.d = 0 ∧ w.e = 1 ∧ w.f = 0 ∧
      h'.length = identityHeap.length ∧ ∀ p, p ≠ 0 → h'[p]? = identityHeap[p]?) ∧
    (Fit identityHeap 0 [1, 2, 3] [1, 2, 3]
        (quintic { a := 0, b := 0, c := 0, d := 0, e := 1, f := 0, badness := 7 })).map
      (fun h' => h'.map organism.badness) = some [0] ∧
    (Fit constantHeap 0 [0, 1] [0, 0]
        (quintic { a := 0, b := 0, c := 0, d := 0, e := 0, f := 5, badness := 0 })).map
      (fun h' => h'.map organism.badness) = some [50] :=
  Fit_sum_squared_residuals identityHeap 0
    { a := 0, b := 0, c := 0, d := 0, e := 1, f := 0, badness := 7 } [1, 2, 3] [1, 2, 3]
    (fun x => x) rfl rfl

theorem Copy_eq (h : Heap) (o : Ptr) (v : organism) (hv : h[o]? = some v) :
    Copy h o = some (h ++ [v.copyFields], h.length) := by
  simp [Copy, hv]

theorem getElem?_append_old (h ext : Heap) (p : Ptr) (hp : p < h.length) :
    (h ++ ext)[p]? = h[p]? := by
  simp [List.getElem?_append_left hp]

/-- C9: `Copy` succeeds on an organism that can be dereferenced and returns the address of
a new cell (not an address of the heap before the call) holding the receiver's six genes
and badness 0, whatever the receiver's badness; the receiver and every other organism
already on the heap are unchanged. -/
theorem Copy_new_organism (h : Heap) (o : Ptr) (v : organism) (hv : h[o]? = some v) :
    ∃ h' q w, Copy h o = some (h', q) ∧ h.length ≤ q ∧ h'[q]? = some w ∧
      w.a = v.a ∧ w.b = v.b ∧ w.c = v.c ∧ w.d = v.d ∧ w.e = v.e ∧ w.f = v.f ∧
      w.badness = 0 ∧ h'[o]? = some v ∧ ∀ p, p < h.length → h'[p]? = h[p]? := by
  refine ⟨_, _, v.copyFields, Copy_eq h o v hv, le_refl _, by simp, rfl, rfl, rfl, rfl, rfl,
    rfl, rfl, ?_, fun p hp => getElem?_append_old h _ p hp⟩
  rw [getElem?_append_old h _ o (getElem?_lt_of_some hv), hv]

/-- Witness of C9: copying an organism whose badness is 7. -/
theorem Copy_new_organism_witness :
    ∃ h' q w, Copy identityHeap 0 = some (h', q) ∧ identityHeap.length ≤ q ∧
      h'[q]? = some w ∧
      w.a = 0 ∧ w.b = 0 ∧ w.c = 0 ∧ w.d = 0 ∧ w.e = 1 ∧ w.f = 0 ∧
      w.badness = 0 ∧
      h'[0]? = some { a := 0, b := 0, c := 0, d := 0, e := 1, f := 0, badness := 7 } ∧
      ∀ p, p < identityHeap.length → h'[p]? = identityHeap[p]? :=
  Copy_new_organism identityHeap 0
    { a := 0, b := 0, c := 0, d := 0, e := 1, f := 0, badness := 7 } rfl

/-! ## The repopulation loop -/

theorem copyFields_copyFields (v : organism) : v.copyFields.copyFields = v.copyFields := rfl

theorem wrap_eq_succ_mod (i m : ℕ) (hm : 0 < m) :
    (if ((i % m : ℕ) : ℤ) + 1 > (m : ℤ) - 1 then 0 else i % m + 1) = (i + 1) % m := by
  have hlt := Nat.mod_lt i hm
  have hsplit : i + 1 = m * (i / m) + (i % m + 1) := by
    have := Nat.div_add_mod i m
    omega
  rw [hsplit, Nat.mul_add_mod]
  by_cases heq : i % m + 1 = m
  · rw [if_pos (by omega)]
    conv_rhs => rw [heq]
    exact (Nat.mod_self m).symm
  · rw [if_neg (by omega), Nat.mod_eq_of_lt (show i % m + 1 < m by omega)]

theorem set_range'_append_drop (s i : ℕ) (l : List Ptr) (hi : i < l.length) :
    (List.range' s i ++ l.drop i).set i (s + i) = List.range' s (i + 1) ++ l.drop (i + 1) := by
  rw [List.set_append_right _ _ (by simp), List.length_range', Nat.sub_self,
    List.drop_eq_getElem_cons hi, List.set_cons_zero, List.range'_concat]
  simp

theorem deref_eq_of_getElem? {h : Heap} {p : Ptr} {v : organism} (hv : h[p]? = some v) :
    deref h p = v := by
  simp [deref, List.getD_eq_getElem?_getD, hv]

theorem getElem?_eq_deref (h : Heap) (p : Ptr) (hp : p < h.length) : h[p]? = some (deref h p) := by
  simp [deref, List.getD_eq_getElem?_getD, List.getElem?_eq_getElem hp]

theorem repopulateLoop_closed (h0 : Heap) (orgs0 : List Ptr) (limit : ℤ) (hlimit : 1 ≤ limit)
    (hvalid : ∀ p ∈ orgs0, p < h0.length) :
    ∀ (n i : ℕ), i + n = orgs0.length →
      repopulateLoop limit (min limit.toNat orgs0.length) n i (i % limit.toNat)
          (h0 ++ (List.range i).map (copyOfElite h0 orgs0 limit.toNat))
          (List.range' h0.length i ++ orgs0.drop i) =
        some (h0 ++ (List.range orgs0.length).map (copyOfElite h0 orgs0 limit.toNat),
          List.range' h0.length orgs0.length)
  | 0, i, hi => by
    have hi' : i = orgs0.length := by omega
    subst hi'
    simp [repopulateLoop]
  | n + 1, i, hi => by
    have hm : 0 < limit.toNat := by omega
    have hmz : ((limit.toNat : ℕ) : ℤ) = limit := Int.toNat_of_nonneg (by omega)
    have hiP : i < orgs0.length := by omega
    have hidx_m : i % limit.toNat < limit.toNat := Nat.mod_lt i hm
    have hidx_i : i % limit.toNat ≤ i := Nat.mod_le i _
    have hlen : (List.range' h0.length i ++ orgs0.drop i).length = orgs0.length := by
      simp; omega
    -- the pointer read through `best[idx]` and the organism it points to
    have hread : ∃ p, (List.range' h0.length i ++ orgs0.drop i)[i % limit.toNat]? = some p ∧
        (h0 ++ (List.range i).map (copyOfElite h0 orgs0 limit.toNat))[p]? =
          some (deref (h0 ++ (List.range i).map (copyOfElite h0 orgs0 limit.toNat)) p) ∧
        (deref (h0 ++ (List.range i).map (copyOfElite h0 orgs0 limit.toNat)) p).copyFields =
          copyOfElite h0 orgs0 limit.toNat i := by
      by_cases hlt : i % limit.toNat < i
      · refine ⟨h0.length + i % limit.toNat, ?_, ?_, ?_⟩
        · rw [List.getElem?_append_left (by simpa using hlt)]
          simp [List.getElem?_range', hlt]
        · exact getElem?_eq_deref _ _
            (by rw [List.length_append, List.length_map, List.length_range]
                exact Nat.add_lt_add_left hlt _)
        · have hcell : (h0 ++ (List.range i).map (copyOfElite h0 orgs0 limit.toNat))[
              h0.length + i % limit.toNat]? =
              some (copyOfElite h0 orgs0 limit.toNat (i % limit.toNat)) := by
            rw [List.getElem?_append_right (by omega)]
            simp [hlt]
          rw [deref_eq_of_getElem? hcell]
          simp [copyOfElite, copyFields_copyFields, Nat.mod_mod]
      · have heq : i % limit.toNat = i := by omega
        have hp : orgs0[i] < h0.length := hvalid _ (List.getElem_mem _)
        refine ⟨orgs0[i], ?_, ?_, ?_⟩
        · rw [heq, List.getElem?_append_right (by simp)]
          simp [List.getElem?_drop, List.getElem?_eq_getElem hiP]
        · exact getElem?_eq_deref _ _
            (by rw [List.length_append, List.length_map, List.length_range]
                exact Nat.lt_add_right _ hp)
        · have hcell : (h0 ++ (List.range i).map (copyOfElite h0 orgs0 limit.toNat))[orgs0[i]]? =
              some (deref h0 orgs0[i]) := by
            rw [List.getElem?_append_left hp]
            exact getElem?_eq_deref _ _ hp
          rw [deref_eq_of_getElem? hcell]
          simp [copyOfElite, heq, List.getD_eq_getElem, hiP]
    obtain ⟨p, hp1, hp2, hp3⟩ := hread
    have hidx' : (if ((i % limit.toNat : ℕ) : ℤ) + 1 > limit - 1 then 0 else i % limit.toNat + 1)
        = (i + 1) % limit.toNat := by
      have := wrap_eq_succ_mod i limit.toNat hm
      rw [hmz] at this
      exact this
    have hheap : h0 ++ (List.range i).map (copyOfElite h0 orgs0 limit.toNat) ++
        [copyOfElite h0 orgs0 limit.toNat i] =
        h0 ++ (List.range (i + 1)).map (copyOfElite h0 orgs0 limit.toNat) := by
      simp [List.range_succ]
    have hset : (List.range' h0.length i ++ orgs0.drop i).set i
        (h0 ++ (List.range i).map (copyOfElite h0 orgs0 limit.toNat)).length =
        List.range' h0.length (i + 1) ++ orgs0.drop (i + 1) := by
      have : (h0 ++ (List.range i).map (copyOfElite h0 orgs0 limit.toNat)).length =
          h0.length + i := by simp
      rw [this]
      exact set_range'_append_drop h0.length i orgs0 hiP
    have hrec := repopulateLoop_closed h0 orgs0 limit hlimit hvalid n (i + 1) (by omega)
    simp only [repopulateLoop]
    rw [if_pos (lt_min hidx_m (lt_of_le_of_lt hidx_i hiP)), hp1]
    simp only [Copy, hp2]
    rw [if_pos (by rw [hlen]; exact hiP), hidx', hp3, hheap, hset]
    exact hrec

theorem repopulateLoop_eq (h0 : Heap) (orgs0 : List Ptr) (limit : ℤ) (hlimit : 1 ≤ limit)
    (hvalid : ∀ p ∈ orgs0, p < h0.length) :
    repopulateLoop limit (min limit.toNat orgs0.length) orgs0.length 0 0 h0 orgs0 =
      some (h0 ++ (List.range orgs0.length).map (copyOfElite h0 orgs0 limit.toNat),
        List.range' h0.length orgs0.length) := by
  have := repopulateLoop_closed h0 orgs0 limit hlimit hvalid orgs0.length 0 (by omega)
  simpa using this

theorem insertionSort_valid (h : Heap) (organisms : List Ptr)
    (hvalid : ∀ p ∈ organisms, p < h.length) :
    ∀ p ∈ insertionSort (lessBadness h) organisms, p < h.length :=
  fun p hp => hvalid p ((insertionSort_perm (lessBadness h) organisms).mem_iff.1 hp)

theorem select_repopulate_eq (h : Heap) (organisms : List Ptr) (limit : ℤ)
    (hvalid : ∀ p ∈ organisms, p < h.length) (hlimit : 1 ≤ limit) :
    bestOrganisms h organisms limit =
        some { organisms := insertionSort (lessBadness h) organisms
               len := min limit.toNat organisms.length } ∧
      repopulateLoop limit (min limit.toNat organisms.length) organisms.length 0 0 h
          (insertionSort (lessBadness h) organisms) =
        some (h ++ (List.range organisms.length).map
            (copyOfElite h (insertionSort (lessBadness h) organisms) limit.toNat),
          List.range' h.length organisms.length) := by
  refine ⟨bestOrganisms_eq h organisms limit hvalid (by omega), ?_⟩
  have := repopulateLoop_eq h (insertionSort (lessBadness h) organisms) limit hlimit
    (insertionSort_valid h organisms hvalid)
  rw [insertionSort_length] at this
  exact this

theorem mod_min_eq (i m P : ℕ) (hi : i < P) : i % min m P = i % m := by
  by_cases hmP : m ≤ P
  · rw [Nat.min_eq_left hmP]
  · have hPm : P ≤ m := by omega
    rw [Nat.min_eq_right hPm, Nat.mod_eq_of_lt hi, Nat.mod_eq_of_lt (by omega)]

/-- C7: for pointers that can all be dereferenced, a population of at least one organism
and `limit >= 1`, selection followed by the repopulation loop succeeds, keeps the
population size, and leaves at every index `i` a pointer to an organism with the six genes
that elite `i mod len(elites)` had before the loop and badness 0, although `best` is a
sub-slice of the array being overwritten.  With `limit = 2` and five organisms the
population becomes copies of `[E0, E1, E0, E1, E0]`. -/
theorem repopulate_elite_cycling (h : Heap) (organisms : List Ptr) (limit : ℤ)
    (hvalid : ∀ p ∈ organisms, p < h.length) (hP : 1 ≤ organisms.length)
    (hlimit : 1 ≤ limit) :
    (∃ best h' organisms', bestOrganisms h organisms limit = some best ∧
      repopulateLoop limit best.len organisms.length 0 0 h best.organisms =
        some (h', organisms') ∧
      organisms'.length = organisms.length ∧
      ∀ i, i < organisms.length → ∃ p v q w,
        best.elems[i % best.elems.length]? = some p ∧ h[p]? = some v ∧
        organisms'[i]? = some q ∧ h'[q]? = some w ∧
        w.a = v.a ∧ w.b = v.b ∧ w.c = v.c ∧ w.d = v.d ∧ w.e = v.e ∧ w.f = v.f ∧
        w.badness = 0) ∧
    (bestOrganisms cyclingHeap [0, 1, 2, 3, 4] 2).bind (fun best =>
      (repopulateLoop 2 best.len 5 0 0 cyclingHeap best.organisms).map
        (fun r => r.2.map (deref r.1))) =
      some [{ a := 13, b := 0, c := 0, d := 0, e := 0, f := 0, badness := 0 },
            { a := 14, b := 0, c := 0, d := 0, e := 0, f := 0, badness := 0 },
            { a := 13, b := 0, c := 0, d := 0, e := 0, f := 0, badness := 0 },
            { a := 14, b := 0, c := 0, d := 0, e := 0, f := 0, badness := 0 },
            { a := 13, b := 0, c := 0, d := 0, e := 0, f := 0, badness := 0 }] := by
  obtain ⟨hbest, hloop⟩ := select_repopulate_eq h organisms limit hvalid hlimit
  refine ⟨⟨_, _, _, hbest, hloop, by simp, ?_⟩, by decide!⟩
  intro i hi
  have hm : 0 < limit.toNat := by omega
  have hslen := insertionSort_length (lessBadness h) organisms
  have helems : (Best.mk (insertionSort (lessBadness h) organisms)
      (min limit.toNat organisms.length)).elems.length =
      min limit.toNat organisms.length := by
    simp [Best.elems, hslen]
  have hLpos : 0 < min limit.toNat organisms.length := lt_min hm hP
  have hiL : i % min limit.toNat organisms.length < min limit.toNat organisms.length :=
    Nat.mod_lt i hLpos
  have hiS : i % min limit.toNat organisms.length <
      (insertionSort (lessBadness h) organisms).length := by
    rw [hslen]; exact lt_of_lt_of_le hiL (min_le_right _ _)
  have hpvalid : (insertionSort (lessBadness h) organisms)[i % min limit.toNat organisms.length]
      < h.length := insertionSort_valid h organisms hvalid _ (List.getElem_mem _)
  refine ⟨(insertionSort (lessBadness h) organisms)[i % min limit.toNat organisms.length],
    deref h (insertionSort (lessBadness h) organisms)[i % min limit.toNat organisms.length],
    h.length + i,
    (deref h (insertionSort (lessBadness h) organisms)[
      i % min limit.toNat organisms.length]).copyFields,
    ?_, getElem?_eq_deref h _ hpvalid, ?_, ?_, rfl, rfl, rfl, rfl, rfl, rfl, rfl⟩
  · rw [helems]
    simp only [Best.elems]
    rw [List.getElem?_take_of_lt hiL, List.getElem?_eq_getElem hiS]
  · simp [List.getElem?_range', hi]
  · rw [List.getElem?_append_right (by omega)]
    simp only [Nat.add_sub_cancel_left]
    rw [List.getElem?_map, List.getElem?_range hi]
    simp only [Option.map_some', copyOfElite]
    rw [← mod_min_eq i limit.toNat organisms.length hi, List.getD_eq_getElem _ 0 hiS]

/-- Witness of C7 on the heap of the example, with three elites. -/
theorem repopulate_elite_cycling_witness :
    (∃ best h' organisms', bestOrganisms cyclingHeap [0, 1, 2, 3, 4] 3 = some best ∧
      repopulateLoop 3 best.len ([0, 1, 2, 3, 4] : List Ptr).length 0 0 cyclingHeap
        best.organisms = some (h', organisms') ∧
      organisms'.length = ([0, 1, 2, 3, 4] : List Ptr).length ∧
      ∀ i, i < ([0, 1, 2, 3, 4] : List Ptr).length → ∃ p v q w,
        best.elems[i % best.elems.length]? = some p ∧ cyclingHeap[p]? = some v ∧
        organisms'[i]? = some q ∧ h'[q]? = some w ∧
        w.a = v.a ∧ w.b = v.b ∧ w.c = v.c ∧ w.d = v.d ∧ w.e = v.e ∧ w.f = v.f ∧
        w.badness = 0) ∧
    (bestOrganisms cyclingHeap [0, 1, 2, 3, 4] 2).bind (fun best =>
      (repopulateLoop 2 best.len 5 0 0 cyclingHeap best.organisms).map
        (fun r => r.2.map (deref r.1))) =
      some [{ a := 13, b := 0, c := 0, d := 0, e := 0, f := 0, badness := 0 },
            { a := 14, b := 0, c := 0, d := 0, e := 0, f := 0, badness := 0 },
            { a := 13, b := 0, c := 0, d := 0, e := 0, f := 0, badness := 0 },
            { a := 14, b := 0, c := 0, d := 0, e := 0, f := 0, badness := 0 },
            { a := 13, b := 0, c := 0, d := 0, e := 0, f := 0, badness := 0 }] :=
  repopulate_elite_cycling cyclingHeap [0, 1, 2, 3, 4] 3 (by decide) (by decide) (by decide)

theorem Mutate_eq (h : Heap) (o : Ptr) (v : organism) (lr : ℚ) (draws : ℕ → ℚ) (pos : ℕ)
    (hv : h[o]? = some v) :
    Mutate h o lr draws pos =
      some (h.set o (v.mutateFields lr (draws pos) (draws (pos + 1)) (draws (pos + 2))
        (draws (pos + 3)) (draws (pos + 4)) (draws (pos + 5)))) := by
  simp [Mutate, hv]

/-- C10: the organism returned by `Copy` is independent of its source.  For every
organism `o`, step `lr` and random stream, `Mutate(lr)` or `Fit` called on `o.Copy()`
succeeds and leaves the cell of `o` (six genes and badness) as it was.  Consequently,
after selection and the repopulation loop, the population holds pairwise different
pointers, and `Mutate` on the organism at one index succeeds and changes no organism at
any other index. -/
theorem Copy_independence (h : Heap) (o : Ptr) (v : organism) (lr : ℚ) (draws : ℕ → ℚ)
    (pos : ℕ) (xs ys : List ℚ) (f : ℚ → ℚ) (organisms : List Ptr) (limit : ℤ)
    (hv : h[o]? = some v) (hlen : xs.length = ys.length)
    (hvalid : ∀ p ∈ organisms, p < h.length) (hlimit : 1 ≤ limit) :
    (∃ h1 q, Copy h o = some (h1, q) ∧
      (∃ h2, Mutate h1 q lr draws pos = some h2 ∧ h2[o]? = some v) ∧
      (∃ h3, Fit h1 q xs ys f = some h3 ∧ h3[o]? = some v)) ∧
    (∃ best h' organisms', bestOrganisms h organisms limit = some best ∧
      repopulateLoop limit best.len organisms.length 0 0 h best.organisms =
        some (h', organisms') ∧
      ∀ i j, i < organisms.length → j < organisms.length → i ≠ j →
        ∃ pi pj h'', organisms'[i]? = some pi ∧ organisms'[j]? = some pj ∧ pi ≠ pj ∧
          Mutate h' pi lr draws pos = some h'' ∧ h''[pj]? = h'[pj]?) := by
  have ho : o < h.length := getElem?_lt_of_some hv
  have hnew : (h ++ [v.copyFields])[h.length]? = some v.copyFields := by simp
  have hold : (h ++ [v.copyFields])[o]? = some v := by
    rw [getElem?_append_old h _ o ho, hv]
  obtain ⟨hbest, hloop⟩ := select_repopulate_eq h organisms limit hvalid hlimit
  refine ⟨⟨_, _, Copy_eq h o v hv, ⟨_, Mutate_eq _ _ _ lr draws pos hnew, ?_⟩,
    ⟨_, Fit_eq _ _ _ xs ys f hnew hlen, ?_⟩⟩, ⟨_, _, _, hbest, hloop, ?_⟩⟩
  · rw [getElem?_set_other _ _ _ _ (Nat.ne_of_lt ho), hold]
  · rw [getElem?_set_other _ _ _ _ (Nat.ne_of_lt ho), hold]
  · intro i j hi hj hij
    have hcell : (h ++ (List.range organisms.length).map
        (copyOfElite h (insertionSort (lessBadness h) organisms) limit.toNat))[h.length + i]? =
        some (copyOfElite h (insertionSort (lessBadness h) organisms) limit.toNat i) := by
      rw [List.getElem?_append_right (by omega)]
      simp [hi]
    refine ⟨h.length + i, h.length + j, _, by simp [List.getElem?_range', hi],
      by simp [List.getElem?_range', hj], fun heq => hij (Nat.add_left_cancel heq),
      Mutate_eq _ _ _ lr draws pos hcell, ?_⟩
    exact getElem?_set_other _ _ _ _ (fun heq => hij (Nat.add_left_cancel heq).symm)

/-- Witness of C10 on the heap of the elite-cycling example. -/
theorem Copy_independence_witness :
    (∃ h1 q, Copy cyclingHeap 3 = some (h1, q) ∧
      (∃ h2, Mutate h1 q (1 / 100) (fun _ => 3 / 4) 0 = some h2 ∧
        h2[3]? = some { a := 13, b := 0, c := 0, d := 0, e := 0, f := 0, badness := 1 }) ∧
      (∃ h3, Fit h1 q [0, 1] [0, 0] (fun x => x) = some h3 ∧
        h3[3]? = some { a := 13, b := 0, c := 0, d := 0, e := 0, f := 0, badness := 1 })) ∧
    (∃ best h' organisms', bestOrganisms cyclingHeap [0, 1, 2, 3, 4] 2 = some best ∧
      repopulateLoop 2 best.len ([0, 1, 2, 3, 4] : List Ptr).length 0 0 cyclingHeap
        best.organisms = some (h', organisms') ∧
      ∀ i j, i < ([0, 1, 2, 3, 4] : List Ptr).length →
        j < ([0, 1, 2, 3, 4] : List Ptr).length → i ≠ j →
        ∃ pi pj h'', organisms'[i]? = some pi ∧ organisms'[j]? = some pj ∧ pi ≠ pj ∧
          Mutate h' pi (1 / 100) (fun _ => 3 / 4) 0 = some h'' ∧ h''[pj]? = h'[pj]?) :=
  Copy_independence cyclingHeap 3
    { a := 13, b := 0, c := 0, d := 0, e := 0, f := 0, badness := 1 } (1 / 100)
    (fun _ => 3 / 4) 0 [0, 1] [0, 0] (fun x => x) [0, 1, 2, 3, 4] 2 rfl rfl (by decide)
    (by decide)

/-! ## The shards of the evaluation step -/

theorem flatMap_shard (batchSize : ℕ) :
    ∀ n : ℕ, (List.range n).flatMap (shard batchSize) = List.range (n * batchSize)
  | 0 => by simp
  | n + 1 => by
    rw [List.range_succ, List.flatMap_append, flatMap_shard batchSize n]
    simp only [List.flatMap_cons, List.flatMap_nil, List.append_nil, shard]
    rw [List.range_eq_range', List.range_eq_range', Nat.succ_mul, Nat.add_comm (n * batchSize)]
    simpa using (List.range'_append 0 (n * batchSize) batchSize 1)

/-- The evaluation step visits exactly the indices below `concurrency * batchSize`, each
once and in increasing order. -/
theorem evaluatedIndices_eq (population concurrency : ℕ) :
    evaluatedIndices population concurrency =
      List.range (concurrency * (population / concurrency)) :=
  flatMap_shard (population / concurrency) concurrency

/-- Whenever the worker count does not divide the population size, the last organism is
in no shard. -/
theorem last_index_not_evaluated (population concurrency : ℕ)
    (hndvd : ¬ concurrency ∣ population) :
    population - 1 ∉ evaluatedIndices population concurrency := by
  rw [evaluatedIndices_eq, List.mem_range]
  have hle : concurrency * (population / concurrency) ≤ population := Nat.mul_div_le _ _
  have hne : concurrency * (population / concurrency) ≠ population := fun h =>
    hndvd ⟨population / concurrency, h.symm⟩
  omega

/-! ## Behaviour of the loop of `main` on concrete runs -/

/-- C1 (defect of the code): with three organisms and two workers, `batchSize` is 1 and
the organism at index 2 is never passed to `Fit`.  On the sample (0, 1) every organism of
the initial population is the zero polynomial, whose sum of squared residuals is 1, but
the loss read in the first generation is the stale badness 0 of the third organism, and
the run stops there as if it had converged. -/
theorem loss_is_stale_badness :
    (initLoop drawsHalf 3 emptyState).organisms = [0, 1, 2] ∧
    (∀ p ∈ (initLoop drawsHalf 3 emptyState).organisms,
      squaredErrorLoop [1]
        ([0].map (quintic (deref (initLoop drawsHalf 3 emptyState).heap p))) 0 0 = some 1) ∧
    (evaluate [0] [1] [0, 1, 2] 2 (3 / 2) (initLoop drawsHalf 3 emptyState).heap).map
      (fun h => h.map organism.badness) = some [1, 1, 0] ∧
    (generation [0] [1] 3 2 (3 / 2) 1 (3 / 10) (1 / 100) drawsHalf
      (initLoop drawsHalf 3 emptyState)).map GenResult.loss = some 0 ∧
    main unevenConfig [0] [1] drawsHalf 1 =
      Outcome.reported { a := 0, b := 0, c := 0, d := 0, e := 0, f := 0, badness := 0 } := by
  decide!

/-- C2 (defect of the code): with population size 3 and 2 workers the shards are `[0]` and
`[1]`; index 2 lies in no shard. -/
theorem shards_miss_remainder :
    shard (3 / 2) 0 = [0] ∧ shard (3 / 2) 1 = [1] ∧ evaluatedIndices 3 2 = [0, 1] ∧
    2 ∉ evaluatedIndices 3 2 := by
  decide

/-- C3 (defect of the code): two organisms, one elite, one worker, the sample (0, 0) and a
random stream that is constantly one quarter.  The first generation has loss 25; every
copy of the elite is then mutated, and the second generation has loss 25.050025. -/
theorem loss_goes_up :
    (generation [0] [0] 2 1 (2 / 1) 1 (3 / 10) (1 / 100) drawsQuarter
      (initLoop drawsQuarter 2 emptyState)).bind (fun r0 =>
        (generation [0] [0] 2 1 (2 / 1) 1 (3 / 10) (1 / 100) drawsQuarter r0.next).map
          (fun r1 => (r0.loss, r1.loss))) = some (25, 25 + 50025 / 1000000) ∧
    (main pairConfig [0] [0] drawsQuarter 1).lossOf = some 25 ∧
    (main pairConfig [0] [0] drawsQuarter 2).lossOf = some (25 + 50025 / 1000000) ∧
    (25 : ℚ) < 25 + 50025 / 1000000 := by
  decide!

/-- C4 (defect of the code): one organism with six genes `1/5` on the sample (0, 0).  The
first generation has loss `1/25`, below the threshold, with `best[0]` of genes `1/5` and
badness `1/25`; the loop then exits and the organism printed has genes `39/200` (the copy
was mutated after the loss was read) and badness 0. -/
theorem report_is_not_the_elite :
    (generation [0] [0] 1 1 (1 / 1) 1 (3 / 10) (1 / 100) drawsFit
      (initLoop drawsFit 1 emptyState)).map (fun r => (r.loss, r.elite)) =
      some (1 / 25, { a := 1 / 5, b := 1 / 5, c := 1 / 5, d := 1 / 5, e := 1 / 5, f := 1 / 5
                      badness := 1 / 25 }) ∧
    main singleConfig [0] [0] drawsFit 1 =
      Outcome.reported { a := 39 / 200, b := 39 / 200, c := 39 / 200, d := 39 / 200
                         e := 39 / 200, f := 39 / 200, badness := 0 } := by
  decide!

/-! ## `Mutate` and `newRandomOrganism`: ranges -/

theorem scaled_draw_bounded (r lr : ℚ) (hlr : 0 ≤ lr) (h0 : 0 ≤ r) (h1 : r < 1) :
    |(r * 2 - 1) * lr| ≤ lr := by
  rw [abs_le]
  constructor <;> nlinarith

/-- C13: for an organism that can be dereferenced, a step `lr >= 0` and draws in `[0, 1)`,
`Mutate(lr)` succeeds and adds `(2*r_k - 1)*lr` to each of the six genes, each with its
own draw `r_k` (the six consecutive draws from `pos` on), so every gene moves by at most
`lr` in absolute value; the badness, the size of the heap and every other organism are
unchanged. -/
theorem Mutate_bounded_step (h : Heap) (o : Ptr) (v : organism) (lr : ℚ) (draws : ℕ → ℚ)
    (pos : ℕ) (hv : h[o]? = some v) (hlr : 0 ≤ lr)
    (hdraws : ∀ n, 0 ≤ draws n ∧ draws n < 1) :
    ∃ h' w, Mutate h o lr draws pos = some h' ∧ h'[o]? = some w ∧
      w.a = v.a + (2 * draws pos - 1) * lr ∧
      w.b = v.b + (2 * draws (pos + 1) - 1) * lr ∧
      w.c = v.c + (2 * draws (pos + 2) - 1) * lr ∧
      w.d = v.d + (2 * draws (pos + 3) - 1) * lr ∧
      w.e = v.e + (2 * draws (pos + 4) - 1) * lr ∧
      w.f = v.f + (2 * draws (pos + 5) - 1) * lr ∧
      |w.a - v.a| ≤ lr ∧ |w.b - v.b| ≤ lr ∧ |w.c - v.c| ≤ lr ∧
      |w.d - v.d| ≤ lr ∧ |w.e - v.e| ≤ lr ∧ |w.f - v.f| ≤ lr ∧
      w.badness = v.badness ∧ h'.length = h.length ∧ ∀ p, p ≠ o → h'[p]? = h[p]? := by
  have hb : ∀ n, |(draws n * 2 - 1) * lr| ≤ lr := fun n =>
    scaled_draw_bounded (draws n) lr hlr (hdraws n).1 (hdraws n).2
  refine ⟨_, _, Mutate_eq h o v lr draws pos hv, getElem?_set_same h o v _ hv, ?_, ?_, ?_, ?_,
    ?_, ?_, ?_, ?_, ?_, ?_, ?_, ?_, rfl, by simp, fun p hp => getElem?_set_other h o p _ hp⟩
  all_goals simp only [organism.mutateFields]
  · ring
  · ring
  · ring
  · ring
  · ring
  · ring
  · simpa using hb pos
  · simpa using hb (pos + 1)
  · simpa using hb (pos + 2)
  · simpa using hb (pos + 3)
  · simpa using hb (pos + 4)
  · simpa using hb (pos + 5)

/-- Witness of C13: a step of one hundredth with every draw three quarters. -/
theorem Mutate_bounded_step_witness :
    ∃ h' w, Mutate identityHeap 0 (1 / 100) (fun _ => 3 / 4) 0 = some h' ∧ h'[0]? = some w ∧
      w.a = 0 + (2 * (3 / 4) - 1) * (1 / 100) ∧
      w.b = 0 + (2 * (3 / 4) - 1) * (1 / 100) ∧
      w.c = 0 + (2 * (3 / 4) - 1) * (1 / 100) ∧
      w.d = 0 + (2 * (3 / 4) - 1) * (1 / 100) ∧
      w.e = 1 + (2 * (3 / 4) - 1) * (1 / 100) ∧
      w.f = 0 + (2 * (3 / 4) - 1) * (1 / 100) ∧
      |w.a - 0| ≤ 1 / 100 ∧ |w.b - 0| ≤ 1 / 100 ∧ |w.c - 0| ≤ 1 / 100 ∧
      |w.d - 0| ≤ 1 / 100 ∧ |w.e - 1| ≤ 1 / 100 ∧ |w.f - 0| ≤ 1 / 100 ∧
      w.badness = 7 ∧ h'.length = identityHeap.length ∧
      ∀ p, p ≠ 0 → h'[p]? = identityHeap[p]? :=
  Mutate_bounded_step identityHeap 0
    { a := 0, b := 0, c := 0, d := 0, e := 1, f := 0, badness := 7 } (1 / 100)
    (fun _ => 3 / 4) 0 rfl (by norm_num) (fun _ => by norm_num)

/-- C15: for draws in `[0, 1)`, `newRandomOrganism` returns the address of a new cell
whose six genes are `20*r_k - 10`, each with its own draw `r_k` (the six consecutive draws
from `pos` on), hence in `[-10, 10]`, and whose badness is 0; the organisms already on the
heap are unchanged. -/
theorem newRandomOrganism_in_range (h : Heap) (draws : ℕ → ℚ) (pos : ℕ)
    (hdraws : ∀ n, 0 ≤ draws n ∧ draws n < 1) :
    ∃ w, (newRandomOrganism h draws pos).1[(newRandomOrganism h draws pos).2]? = some w ∧
      (newRandomOrganism h draws pos).2 = h.length ∧
      w.a = 20 * draws pos - 10 ∧ w.b = 20 * draws (pos + 1) - 10 ∧
      w.c = 20 * draws (pos + 2) - 10 ∧ w.d = 20 * draws (pos + 3) - 10 ∧
      w.e = 20 * draws (pos + 4) - 10 ∧ w.f = 20 * draws (pos + 5) - 10 ∧
      (-10 ≤ w.a ∧ w.a ≤ 10) ∧ (-10 ≤ w.b ∧ w.b ≤ 10) ∧ (-10 ≤ w.c ∧ w.c ≤ 10) ∧
      (-10 ≤ w.d ∧ w.d ≤ 10) ∧ (-10 ≤ w.e ∧ w.e ≤ 10) ∧ (-10 ≤ w.f ∧ w.f ≤ 10) ∧
      w.badness = 0 ∧ ∀ p, p < h.length → (newRandomOrganism h draws pos).1[p]? = h[p]? := by
  have hb : ∀ n, -10 ≤ draws n * 20 - 10 ∧ draws n * 20 - 10 ≤ 10 := fun n =>
    ⟨by linarith [(hdraws n).1], by linarith [(hdraws n).2]⟩
  refine ⟨{ a := draws pos * 20 - 10, b := draws (pos + 1) * 20 - 10,
            c := draws (pos + 2) * 20 - 10, d := draws (pos + 3) * 20 - 10,
            e := draws (pos + 4) * 20 - 10, f := draws (pos + 5) * 20 - 10, badness := 0 },
    ?_, rfl, ?_, ?_, ?_, ?_, ?_, ?_, hb pos, hb (pos + 1),
    hb (pos + 2), hb (pos + 3), hb (pos + 4), hb (pos + 5), rfl, ?_⟩
  · simp [newRandomOrganism]
  · dsimp only; ring
  · dsimp only; ring
  · dsimp only; ring
  · dsimp only; ring
  · dsimp only; ring
  · dsimp only; ring
  · intro p hp
    exact getElem?_append_old h _ p hp

/-- Witness of C15: every draw equal to one quarter gives six genes `-5`. -/
theorem newRandomOrganism_in_range_witness :
    ∃ w, (newRandomOrganism [] drawsQuarter 0).1[(newRandomOrganism [] drawsQuarter 0).2]? =
        some w ∧
      (newRandomOrganism [] drawsQuarter 0).2 = ([] : Heap).length ∧
      w.a = 20 * drawsQuarter 0 - 10 ∧ w.b = 20 * drawsQuarter (0 + 1) - 10 ∧
      w.c = 20 * drawsQuarter (0 + 2) - 10 ∧ w.d = 20 * drawsQuarter (0 + 3) - 10 ∧
      w.e = 20 * drawsQuarter (0 + 4) - 10 ∧ w.f = 20 * drawsQuarter (0 + 5) - 10 ∧
      (-10 ≤ w.a ∧ w.a ≤ 10) ∧ (-10 ≤ w.b ∧ w.b ≤ 10) ∧ (-10 ≤ w.c ∧ w.c ≤ 10) ∧
      (-10 ≤ w.d ∧ w.d ≤ 10) ∧ (-10 ≤ w.e ∧ w.e ≤ 10) ∧ (-10 ≤ w.f ∧ w.f ≤ 10) ∧
      w.badness = 0 ∧
      ∀ p, p < ([] : Heap).length → (newRandomOrganism [] drawsQuarter 0).1[p]? =
        ([] : Heap)[p]? :=
  newRandomOrganism_in_range [] drawsQuarter 0 (fun _ => by norm_num [drawsQuarter])

/-! ## The shards: bounds and disjointness -/

theorem mem_shard (batchSize c i : ℕ) :
    i ∈ shard batchSize c ↔ c * batchSize ≤ i ∧ i < c * batchSize + batchSize := by
  simp [shard, List.mem_range'_1]

theorem shard_upper_bound (population concurrency c : ℕ) (hc : c < concurrency) :
    c * (population / concurrency) + population / concurrency ≤ population := by
  have h1 : (c + 1) * (population / concurrency) ≤ concurrency * (population / concurrency) :=
    Nat.mul_le_mul_right _ hc
  have h2 : concurrency * (population / concurrency) ≤ population := Nat.mul_div_le _ _
  rw [Nat.succ_mul] at h1
  omega

theorem shard_disjoint_of_lt (batchSize c₁ c₂ : ℕ) (hlt : c₁ < c₂) :
    List.Disjoint (shard batchSize c₁) (shard batchSize c₂) := by
  intro i h₁ h₂
  rw [mem_shard] at h₁ h₂
  have h : (c₁ + 1) * batchSize ≤ c₂ * batchSize := Nat.mul_le_mul_right _ hlt
  rw [Nat.succ_mul] at h
  omega

theorem shard_disjoint (batchSize c₁ c₂ : ℕ) (hne : c₁ ≠ c₂) :
    List.Disjoint (shard batchSize c₁) (shard batchSize c₂) := by
  rcases Nat.lt_or_gt_of_ne hne with h | h
  · exact shard_disjoint_of_lt batchSize c₁ c₂ h
  · exact (shard_disjoint_of_lt batchSize c₂ c₁ h).symm

/-- C17: for every population size and every worker count `>= 1`, with
`batchSize = population / concurrency`, the slice expression of every worker stays within
the population, every index of a shard is a population index, the shards of two different
workers are disjoint and no index is visited twice; so, on a population of pairwise
different pointers, two different workers never write the same organism. -/
theorem shards_within_bounds_and_disjoint (population concurrency : ℕ)
    (_hW : 1 ≤ concurrency) :
    (∀ c, c < concurrency →
      c * (population / concurrency) + population / concurrency ≤ population ∧
      ∀ i ∈ shard (population / concurrency) c, i < population) ∧
    (∀ c₁ c₂, c₁ < concurrency → c₂ < concurrency → c₁ ≠ c₂ →
      List.Disjoint (shard (population / concurrency) c₁)
        (shard (population / concurrency) c₂)) ∧
    (evaluatedIndices population concurrency).Nodup ∧
    (∀ organisms : List Ptr, organisms.length = population → organisms.Nodup →
      ∀ c₁ c₂, c₁ < concurrency → c₂ < concurrency → c₁ ≠ c₂ →
        ∀ i₁ ∈ shard (population / concurrency) c₁,
          ∀ i₂ ∈ shard (population / concurrency) c₂, organisms[i₁]? ≠ organisms[i₂]?) := by
  have hbound : ∀ c, c < concurrency → ∀ i ∈ shard (population / concurrency) c,
      i < population := by
    intro c hc i hi
    have := shard_upper_bound population concurrency c hc
    rw [mem_shard] at hi
    omega
  refine ⟨fun c hc => ⟨shard_upper_bound population concurrency c hc, hbound c hc⟩,
    fun c₁ c₂ _ _ hne => shard_disjoint _ c₁ c₂ hne, ?_, ?_⟩
  · rw [evaluatedIndices_eq]
    exact List.nodup_range _
  · intro organisms hlen hnodup c₁ c₂ h₁ h₂ hne i₁ hi₁ i₂ hi₂ heq
    have hlt₁ : i₁ < organisms.length := by rw [hlen]; exact hbound c₁ h₁ i₁ hi₁
    have hlt₂ : i₂ < organisms.length := by rw [hlen]; exact hbound c₂ h₂ i₂ hi₂
    rw [List.getElem?_eq_getElem hlt₁, List.getElem?_eq_getElem hlt₂] at heq
    have hidx : i₁ = i₂ := (List.Nodup.getElem_inj_iff hnodup).1 (Option.some.inj heq)
    subst hidx
    exact shard_disjoint _ c₁ c₂ hne hi₁ hi₂

/-- Witness of C17: seven organisms and three workers. -/
theorem shards_within_bounds_and_disjoint_witness :
    (∀ c, c < 3 → c * (7 / 3) + 7 / 3 ≤ 7 ∧ ∀ i ∈ shard (7 / 3) c, i < 7) ∧
    (∀ c₁ c₂, c₁ < 3 → c₂ < 3 → c₁ ≠ c₂ →
      List.Disjoint (shard (7 / 3) c₁) (shard (7 / 3) c₂)) ∧
    (evaluatedIndices 7 3).Nodup ∧
    (∀ organisms : List Ptr, organisms.length = 7 → organisms.Nodup →
      ∀ c₁ c₂, c₁ < 3 → c₂ < 3 → c₁ ≠ c₂ →
        ∀ i₁ ∈ shard (7 / 3) c₁, ∀ i₂ ∈ shard (7 / 3) c₂, organisms[i₁]? ≠ organisms[i₂]?) :=
  shards_within_bounds_and_disjoint 7 3 (by decide)

/-! ## The evaluation step -/

theorem fitted_fitted (xs ys : List ℚ) (v : organism) :
    fitted xs ys (fitted xs ys v) = fitted xs ys v := by
  simp [fitted, quintic]

theorem Fit_quintic_eq (h : Heap) (o : Ptr) (v : organism) (xs ys : List ℚ)
    (hv : h[o]? = some v) (hlen : xs.length = ys.length) :
    Fit h o xs ys (quintic v) = some (h.set o (fitted xs ys v)) :=
  Fit_eq h o v xs ys (quintic v) hv hlen

theorem fitEach_spec (xs ys : List ℚ) (organisms : List Ptr) (hxy : xs.length = ys.length) :
    ∀ (indices : List ℕ) (h : Heap), (∀ i ∈ indices, i < organisms.length) →
      (∀ p ∈ organisms, p < h.length) →
      ∃ h', fitEach xs ys organisms indices h = some h' ∧ h'.length = h.length ∧
        ∀ p, h'[p]? = (h[p]?).map (fun v =>
          if p ∈ indices.map (fun i => organisms.getD i 0) then fitted xs ys v else v)
  | [], h, _, _ => ⟨h, rfl, rfl, fun p => by simp⟩
  | i :: rest, h, hidx, hvalid => by
    have hi : i < organisms.length := hidx i (List.mem_cons_self _ _)
    have ho : organisms[i] < h.length := hvalid _ (List.getElem_mem _)
    have hcell : h[organisms[i]]? = some (deref h organisms[i]) := getElem?_eq_deref h _ ho
    obtain ⟨h', hrun, hlen', hcells⟩ := fitEach_spec xs ys organisms hxy rest
      (h.set organisms[i] (fitted xs ys (deref h organisms[i])))
      (fun j hj => hidx j (List.mem_cons_of_mem _ hj))
      (fun p hp => by rw [List.length_set]; exact hvalid p hp)
    refine ⟨h', ?_, by rw [hlen', List.length_set], ?_⟩
    · simp only [fitEach, List.getElem?_eq_getElem hi, hcell,
        Fit_quintic_eq h _ _ xs ys hcell hxy]
      exact hrun
    · intro p
      rw [hcells p]
      have hgetD : organisms.getD i 0 = organisms[i] := List.getD_eq_getElem _ _ hi
      by_cases hp : p = organisms[i]
      · subst hp
        rw [getElem?_set_same h _ _ _ hcell, hcell]
        simp only [Option.map_some', List.map_cons, hgetD, List.mem_cons, true_or, if_true]
        split <;> simp [fitted_fitted]
      · rw [getElem?_set_other h _ p _ hp]
        simp only [List.map_cons, hgetD, List.mem_cons, hp, false_or]

theorem fitEach_append (xs ys : List ℚ) (organisms : List Ptr) :
    ∀ (l₁ l₂ : List ℕ) (h : Heap),
      fitEach xs ys organisms (l₁ ++ l₂) h =
        (fitEach xs ys organisms l₁ h).bind (fitEach xs ys organisms l₂)
  | [], l₂, h => by simp [fitEach]
  | i :: rest, l₂, h => by
    simp only [List.cons_append, fitEach]
    rcases ho : organisms[i]? with _ | o
    · rfl
    · simp only []
      rcases hv : h[o]? with _ | v
      · rfl
      · simp only []
        rcases hf : Fit h o xs ys (quintic v) with _ | h'
        · rfl
        · exact fitEach_append xs ys organisms rest l₂ h'

theorem evaluateLoop_eq (xs ys : List ℚ) (organisms : List Ptr) (batchSize : ℕ) :
    ∀ (n c : ℕ) (h : Heap), (c + n) * batchSize ≤ organisms.length →
      evaluateLoop xs ys organisms batchSize n c h =
        fitEach xs ys organisms ((List.range' c n).flatMap (shard batchSize)) h
  | 0, c, h, _ => by simp [evaluateLoop, fitEach]
  | n + 1, c, h, hb => by
    have hc : c * batchSize + batchSize ≤ organisms.length := by
      have : (c + 1) * batchSize ≤ (c + (n + 1)) * batchSize :=
        Nat.mul_le_mul_right _ (by omega)
      rw [Nat.succ_mul] at this
      omega
    simp only [evaluateLoop, worker, if_pos hc, List.range'_succ, List.flatMap_cons,
      fitEach_append]
    cases fitEach xs ys organisms (shard batchSize c) h with
    | none => rfl
    | some h' =>
      exact evaluateLoop_eq xs ys organisms batchSize n (c + 1) h' (by
        have : c + 1 + n = c + (n + 1) := by omega
        rw [this]; exact hb)

theorem evaluate_eq (xs ys : List ℚ) (organisms : List Ptr) (concurrency : ℕ) (h : Heap) :
    evaluate xs ys organisms concurrency (organisms.length / concurrency) h =
      fitEach xs ys organisms (evaluatedIndices organisms.length concurrency) h := by
  unfold evaluate evaluatedIndices
  rw [evaluateLoop_eq xs ys organisms _ concurrency 0 h
    (by rw [Nat.zero_add]; exact Nat.mul_div_le _ _), List.range_eq_range']

theorem evaluate_spec (xs ys : List ℚ) (organisms : List Ptr) (concurrency : ℕ) (h : Heap)
    (hxy : xs.length = ys.length) (hvalid : ∀ p ∈ organisms, p < h.length) :
    ∃ h', evaluate xs ys organisms concurrency (organisms.length / concurrency) h = some h' ∧
      h'.length = h.length ∧
      ∀ p, h'[p]? = (h[p]?).map (fun v =>
        if p ∈ (evaluatedIndices organisms.length concurrency).map
            (fun i => organisms.getD i 0) then fitted xs ys v else v) := by
  rw [evaluate_eq]
  refine fitEach_spec xs ys organisms hxy _ h ?_ hvalid
  intro i hi
  rw [evaluatedIndices_eq, List.mem_range] at hi
  exact lt_of_lt_of_le hi (Nat.mul_div_le _ _)

/-! ## The mutation loop -/

theorem mutatePos_succ_of_lt (rate : ℚ) (draws : ℕ → ℚ) (pos i : ℕ)
    (hsel : draws (mutatePos rate draws pos i) < rate) :
    mutatePos rate draws pos (i + 1) = mutatePos rate draws pos i + 7 := by
  simp [mutatePos, hsel]

theorem mutatePos_succ_of_not_lt (rate : ℚ) (draws : ℕ → ℚ) (pos i : ℕ)
    (hsel : ¬ draws (mutatePos rate draws pos i) < rate) :
    mutatePos rate draws pos (i + 1) = mutatePos rate draws pos i + 1 := by
  simp [mutatePos, hsel]

theorem Mutate_eq_mutatedAt (h : Heap) (s i : ℕ) (rate lr : ℚ) (draws : ℕ → ℚ) (pos : ℕ)
    (hcell : s + i < h.length) (hsel : draws (mutatePos rate draws pos i) < rate) :
    Mutate h (s + i) lr draws (mutatePos rate draws pos i + 1) =
      some (h.set (s + i) (mutatedAt rate lr draws pos i (deref h (s + i)))) := by
  rw [Mutate_eq h (s + i) (deref h (s + i)) lr draws _ (getElem?_eq_deref h _ hcell)]
  simp only [mutatedAt, if_pos hsel, Nat.add_assoc]

theorem mutateLoop_spec (rate lr : ℚ) (draws : ℕ → ℚ) (s P pos : ℕ) :
    ∀ (n i : ℕ) (h : Heap), i + n = P → s + P ≤ h.length →
      ∃ h', mutateLoop rate lr draws (List.range' s P) n i (mutatePos rate draws pos i) h =
          some (h', mutatePos rate draws pos P) ∧
        h'.length = h.length ∧
        ∀ q, h'[q]? = (h[q]?).map (fun v =>
          if s + i ≤ q ∧ q < s + P then mutatedAt rate lr draws pos (q - s) v else v)
  | 0, i, h, hi, _ => by
    have hiP : i = P := by omega
    subst hiP
    refine ⟨h, rfl, rfl, fun q => ?_⟩
    have : ¬ (s + i ≤ q ∧ q < s + i) := by omega
    simp only [this, if_false]
    cases h[q]? <;> rfl
  | n + 1, i, h, hi, hs => by
    have hiP : i < P := by omega
    have hcell : s + i < h.length := by omega
    have hget : (List.range' s P)[i]? = some (s + i) := by
      simp [List.getElem?_range', hiP]
    by_cases hsel : draws (mutatePos rate draws pos i) < rate
    · obtain ⟨h', hrun, hlen', hcells⟩ := mutateLoop_spec rate lr draws s P pos n (i + 1)
        (h.set (s + i) (mutatedAt rate lr draws pos i (deref h (s + i)))) (by omega)
        (by rw [List.length_set]; exact hs)
      rw [mutatePos_succ_of_lt rate draws pos i hsel] at hrun
      refine ⟨h', ?_, by rw [hlen', List.length_set], ?_⟩
      · simp only [mutateLoop, if_pos hsel, hget,
          Mutate_eq_mutatedAt h s i rate lr draws pos hcell hsel]
        exact hrun
      · intro q
        rw [hcells q]
        by_cases hq : q = s + i
        · subst hq
          rw [getElem?_set_same h _ _ _ (getElem?_eq_deref h _ hcell),
            getElem?_eq_deref h _ hcell]
          have h1 : ¬ (s + (i + 1) ≤ s + i ∧ s + i < s + P) := by omega
          have h2 : s + i ≤ s + i ∧ s + i < s + P := by omega
          simp only [Option.map_some', Nat.add_sub_cancel_left]
          rw [if_neg h1, if_pos h2]
        · rw [getElem?_set_other h _ q _ hq]
          have hiff : (s + (i + 1) ≤ q ∧ q < s + P) ↔ (s + i ≤ q ∧ q < s + P) := by omega
          simp only [hiff]
    · obtain ⟨h', hrun, hlen', hcells⟩ := mutateLoop_spec rate lr draws s P pos n (i + 1) h
        (by omega) hs
      rw [mutatePos_succ_of_not_lt rate draws pos i hsel] at hrun
      refine ⟨h', ?_, hlen', ?_⟩
      · simp only [mutateLoop, if_neg hsel]
        exact hrun
      · intro q
        rw [hcells q]
        by_cases hq : q = s + i
        · subst hq
          have h1 : ¬ (s + (i + 1) ≤ s + i ∧ s + i < s + P) := by omega
          have h2 : s + i ≤ s + i ∧ s + i < s + P := by omega
          rw [getElem?_eq_deref h _ hcell]
          simp only [Option.map_some', Nat.add_sub_cancel_left]
          rw [if_neg h1, if_pos h2]
          simp only [mutatedAt, if_neg hsel]
        · have hiff : (s + (i + 1) ≤ q ∧ q < s + P) ↔ (s + i ≤ q ∧ q < s + P) := by omega
          simp only [hiff]

/-! ## One generation -/

theorem generation_spec (xs ys : List ℚ) (concurrency : ℕ) (limit : ℤ) (rate lr : ℚ)
    (draws : ℕ → ℚ) (st : GaState) (hxy : xs.length = ys.length)
    (hvalid : ∀ p ∈ st.organisms, p < st.heap.length) (hP : 1 ≤ st.organisms.length)
    (hlimit : 1 ≤ limit) :
    ∃ h1 h3,
      evaluate xs ys st.organisms concurrency (st.organisms.length / concurrency) st.heap =
        some h1 ∧
      h1.length = st.heap.length ∧
      (∀ p, h1[p]? = (st.heap[p]?).map (fun v =>
        if p ∈ (evaluatedIndices st.organisms.length concurrency).map
            (fun i => st.organisms.getD i 0) then fitted xs ys v else v)) ∧
      generation xs ys st.organisms.length concurrency (st.organisms.length / concurrency)
          limit rate lr draws st =
        some { loss := (deref h1 ((insertionSort (lessBadness h1) st.organisms).getD 0 0)).badness
               elite := deref h1 ((insertionSort (lessBadness h1) st.organisms).getD 0 0)
               next := { heap := h3
                         organisms := List.range' h1.length st.organisms.length
                         pos := mutatePos rate draws st.pos st.organisms.length } } ∧
      h3.length = h1.length + st.organisms.length ∧
      ∀ q, h3[q]? =
        ((h1 ++ (List.range st.organisms.length).map
            (copyOfElite h1 (insertionSort (lessBadness h1) st.organisms) limit.toNat))[q]?).map
          (fun v => if h1.length ≤ q ∧ q < h1.length + st.organisms.length then
            mutatedAt rate lr draws st.pos (q - h1.length) v else v) := by
  obtain ⟨h1, heval, hlen1, hcells1⟩ :=
    evaluate_spec xs ys st.organisms concurrency st.heap hxy hvalid
  have hvalid1 : ∀ p ∈ st.organisms, p < h1.length := fun p hp => by
    rw [hlen1]; exact hvalid p hp
  obtain ⟨hbest, hloop⟩ := select_repopulate_eq h1 st.organisms limit hvalid1 hlimit
  have hslen := insertionSort_length (lessBadness h1) st.organisms
  have hm : 0 < limit.toNat := by omega
  have hL : 0 < min limit.toNat st.organisms.length := lt_min hm hP
  have h0 : 0 < (insertionSort (lessBadness h1) st.organisms).length := by rw [hslen]; exact hP
  have hp0 : (insertionSort (lessBadness h1) st.organisms)[0]? =
      some ((insertionSort (lessBadness h1) st.organisms).getD 0 0) := by
    rw [List.getElem?_eq_getElem h0, List.getD_eq_getElem _ _ h0]
  have hp0valid : (insertionSort (lessBadness h1) st.organisms).getD 0 0 < h1.length := by
    rw [List.getD_eq_getElem _ _ h0]
    exact insertionSort_valid h1 st.organisms hvalid1 _ (List.getElem_mem _)
  obtain ⟨h3, hmut, hlen3, hcells3⟩ := mutateLoop_spec rate lr draws h1.length
    st.organisms.length st.pos st.organisms.length 0
    (h1 ++ (List.range st.organisms.length).map
      (copyOfElite h1 (insertionSort (lessBadness h1) st.organisms) limit.toNat))
    (by omega) (by simp)
  refine ⟨h1, h3, heval, hlen1, hcells1, ?_, by rw [hlen3]; simp, ?_⟩
  · simp only [generation, heval, hbest, if_pos hL, hp0, getElem?_eq_deref h1 _ hp0valid, hloop]
    have hmut' := hmut
    simp only [mutatePos] at hmut'
    rw [hmut']
  · intro q
    rw [hcells3 q]
    simp only [Nat.add_zero]

/-! ## Selection, repopulation and mutation together -/

theorem repopulateIdx_eq_mod (limit : ℤ) (hlimit : 1 ≤ limit) :
    ∀ i : ℕ, repopulateIdx limit i = i % limit.toNat
  | 0 => by simp [repopulateIdx]
  | i + 1 => by
    have hm : 0 < limit.toNat := by omega
    have hmz : ((limit.toNat : ℕ) : ℤ) = limit := Int.toNat_of_nonneg (by omega)
    have hw := wrap_eq_succ_mod i limit.toNat hm
    rw [hmz] at hw
    simp only [repopulateIdx, repopulateIdx_eq_mod limit hlimit i]
    exact hw

theorem mod_lt_min (i m P : ℕ) (hm : 0 < m) (hi : i < P) : i % m < min m P :=
  lt_min (Nat.mod_lt i hm) (lt_of_le_of_lt (Nat.mod_le i m) hi)

theorem copyOfElite_spec (h : Heap) (organisms : List Ptr) (limit : ℤ)
    (hvalid : ∀ p ∈ organisms, p < h.length) (hlimit : 1 ≤ limit) (i : ℕ)
    (hi : i < organisms.length) :
    ∃ p v, (Best.mk (insertionSort (lessBadness h) organisms)
          (min limit.toNat organisms.length)).elems[i %
        (Best.mk (insertionSort (lessBadness h) organisms)
          (min limit.toNat organisms.length)).elems.length]? = some p ∧
      h[p]? = some v ∧
      copyOfElite h (insertionSort (lessBadness h) organisms) limit.toNat i = v.copyFields := by
  have hm : 0 < limit.toNat := by omega
  have hslen := insertionSort_length (lessBadness h) organisms
  have helems : (Best.mk (insertionSort (lessBadness h) organisms)
      (min limit.toNat organisms.length)).elems.length =
      min limit.toNat organisms.length := by
    simp [Best.elems, hslen]
  have hiL : i % min limit.toNat organisms.length < min limit.toNat organisms.length :=
    Nat.mod_lt i (lt_min hm (by omega))
  have hiS : i % min limit.toNat organisms.length <
      (insertionSort (lessBadness h) organisms).length := by
    rw [hslen]; exact lt_of_lt_of_le hiL (min_le_right _ _)
  have hpvalid : (insertionSort (lessBadness h) organisms)[i % min limit.toNat organisms.length]
      < h.length := insertionSort_valid h organisms hvalid _ (List.getElem_mem _)
  refine ⟨_, _, ?_, getElem?_eq_deref h _ hpvalid, ?_⟩
  · rw [helems]
    simp only [Best.elems]
    rw [List.getElem?_take_of_lt hiL, List.getElem?_eq_getElem hiS]
  · simp only [copyOfElite]
    rw [← mod_min_eq i limit.toNat organisms.length hi, List.getD_eq_getElem _ 0 hiS]

/-- C20: for pointers that can all be dereferenced, a population of at least one organism
and `limit >= 1` (also when `limit` exceeds the population size), `bestOrganisms` returns a
slice of length `min(limit, P) >= 1`, so `best[0]` is in range; the value of `idx` at every
iteration of the repopulation loop is below that length; the loop runs to its end without
a panic; and afterwards the population still has `P` entries, each a pointer that can be
dereferenced. -/
theorem select_repopulate_in_bounds (h : Heap) (organisms : List Ptr) (limit : ℤ)
    (hvalid : ∀ p ∈ organisms, p < h.length) (hP : 1 ≤ organisms.length)
    (hlimit : 1 ≤ limit) :
    ∃ best h' organisms', bestOrganisms h organisms limit = some best ∧
      best.len = min limit.toNat organisms.length ∧ best.elems.length = best.len ∧
      0 < best.len ∧
      (∀ i, i < organisms.length → repopulateIdx limit i < best.len) ∧
      repopulateLoop limit best.len organisms.length 0 0 h best.organisms =
        some (h', organisms') ∧
      organisms'.length = organisms.length ∧ ∀ q ∈ organisms', q < h'.length := by
  obtain ⟨hbest, hloop⟩ := select_repopulate_eq h organisms limit hvalid hlimit
  have hm : 0 < limit.toNat := by omega
  refine ⟨_, _, _, hbest, rfl, ?_, lt_min hm hP, ?_, hloop, by simp, ?_⟩
  · simp [Best.elems, insertionSort_length]
  · intro i hi
    rw [repopulateIdx_eq_mod limit hlimit i]
    exact mod_lt_min i limit.toNat organisms.length hm hi
  · intro q hq
    rw [List.mem_range'_1] at hq
    simp only [List.length_append, List.length_map, List.length_range]
    exact hq.2

/-- Witness of C20: five organisms and a limit of seven, larger than the population. -/
theorem select_repopulate_in_bounds_witness :
    ∃ best h' organisms', bestOrganisms cyclingHeap [0, 1, 2, 3, 4] 7 = some best ∧
      best.len = min (7 : ℤ).toNat ([0, 1, 2, 3, 4] : List Ptr).length ∧
      best.elems.length = best.len ∧ 0 < best.len ∧
      (∀ i, i < ([0, 1, 2, 3, 4] : List Ptr).length → repopulateIdx 7 i < best.len) ∧
      repopulateLoop 7 best.len ([0, 1, 2, 3, 4] : List Ptr).length 0 0 cyclingHeap
        best.organisms = some (h', organisms') ∧
      organisms'.length = ([0, 1, 2, 3, 4] : List Ptr).length ∧
      ∀ q ∈ organisms', q < h'.length :=
  select_repopulate_in_bounds cyclingHeap [0, 1, 2, 3, 4] 7 (by decide) (by decide)
    (by decide)

/-- C14: after selection and repopulation (pointers that can all be dereferenced,
`limit >= 1`), the mutation loop succeeds, and for every index `i < P` whose
draw (the one made by iteration `i`) is not below `mutationRate`, the organism at index
`i` is what the repopulation loop left there: the six genes of elite `i mod len(elites)`
and badness 0.  An organism is changed by the mutation loop only if it sits at an index
whose draw is below `mutationRate`. -/
theorem unselected_stay_elite_copies (h : Heap) (organisms : List Ptr) (limit : ℤ)
    (rate lr : ℚ) (draws : ℕ → ℚ) (pos : ℕ)
    (hvalid : ∀ p ∈ organisms, p < h.length) (hlimit : 1 ≤ limit) :
    ∃ best h2 organisms2 h3 pos3, bestOrganisms h organisms limit = some best ∧
      repopulateLoop limit best.len organisms.length 0 0 h best.organisms =
        some (h2, organisms2) ∧
      mutateLoop rate lr draws organisms2 organisms.length 0 pos h2 = some (h3, pos3) ∧
      (∀ i, i < organisms.length → rate ≤ draws (mutatePos rate draws pos i) →
        ∃ p v q w, best.elems[i % best.elems.length]? = some p ∧ h[p]? = some v ∧
          organisms2[i]? = some q ∧ h3[q]? = some w ∧ h2[q]? = some w ∧
          w.a = v.a ∧ w.b = v.b ∧ w.c = v.c ∧ w.d = v.d ∧ w.e = v.e ∧ w.f = v.f ∧
          w.badness = 0) ∧
      (∀ q : ℕ, h3[q]? ≠ h2[q]? → ∃ i, i < organisms.length ∧ organisms2[i]? = some q ∧
        draws (mutatePos rate draws pos i) < rate) := by
  obtain ⟨hbest, hloop⟩ := select_repopulate_eq h organisms limit hvalid hlimit
  obtain ⟨h3, hmut, _, hcells⟩ := mutateLoop_spec rate lr draws h.length organisms.length pos
    organisms.length 0
    (h ++ (List.range organisms.length).map
      (copyOfElite h (insertionSort (lessBadness h) organisms) limit.toNat))
    (by omega) (by simp)
  simp only [mutatePos] at hmut
  refine ⟨_, _, _, h3, _, hbest, hloop, hmut, ?_, ?_⟩
  · intro i hi hkeep
    obtain ⟨p, v, hp, hv, hcopy⟩ := copyOfElite_spec h organisms limit hvalid hlimit i hi
    have hcell : (h ++ (List.range organisms.length).map
        (copyOfElite h (insertionSort (lessBadness h) organisms) limit.toNat))[h.length + i]? =
        some v.copyFields := by
      rw [List.getElem?_append_right (by omega)]
      simp [hi, hcopy]
    refine ⟨p, v, h.length + i, v.copyFields, hp, hv, by simp [List.getElem?_range', hi], ?_,
      hcell, rfl, rfl, rfl, rfl, rfl, rfl, rfl⟩
    rw [hcells, hcell]
    simp only [Option.map_some', Nat.add_zero, Nat.add_sub_cancel_left, mutatedAt,
      if_neg (not_lt.2 hkeep), ite_self]
  · intro q hne
    rw [hcells q] at hne
    simp only [Nat.add_zero] at hne
    by_cases hq : h.length ≤ q ∧ q < h.length + organisms.length
    · have hlt : q - h.length < organisms.length := (Nat.sub_lt_iff_lt_add hq.1).2 hq.2
      refine ⟨q - h.length, hlt, ?_, ?_⟩
      · simp only [List.getElem?_range', hlt, if_true, Nat.one_mul]
        exact congrArg some (Nat.add_sub_cancel' hq.1)
      · by_contra hsel
        apply hne
        simp only [if_pos hq, mutatedAt, if_neg hsel]
        cases (h ++ (List.range organisms.length).map
          (copyOfElite h (insertionSort (lessBadness h) organisms) limit.toNat))[q]? <;> rfl
    · exfalso
      apply hne
      simp only [if_neg hq]
      cases (h ++ (List.range organisms.length).map
        (copyOfElite h (insertionSort (lessBadness h) organisms) limit.toNat))[q]? <;> rfl

/-- Witness of C14 on the heap of the elite-cycling example, with draws that select the
organisms at even positions of the stream only. -/
theorem unselected_stay_elite_copies_witness :
    ∃ best h2 organisms2 h3 pos3, bestOrganisms cyclingHeap [0, 1, 2, 3, 4] 2 = some best ∧
      repopulateLoop 2 best.len ([0, 1, 2, 3, 4] : List Ptr).length 0 0 cyclingHeap
        best.organisms = some (h2, organisms2) ∧
      mutateLoop (3 / 10) (1 / 100) drawsFit organisms2 ([0, 1, 2, 3, 4] : List Ptr).length 0 0
        h2 = some (h3, pos3) ∧
      (∀ i, i < ([0, 1, 2, 3, 4] : List Ptr).length →
        3 / 10 ≤ drawsFit (mutatePos (3 / 10) drawsFit 0 i) →
        ∃ p v q w, best.elems[i % best.elems.length]? = some p ∧ cyclingHeap[p]? = some v ∧
          organisms2[i]? = some q ∧ h3[q]? = some w ∧ h2[q]? = some w ∧
          w.a = v.a ∧ w.b = v.b ∧ w.c = v.c ∧ w.d = v.d ∧ w.e = v.e ∧ w.f = v.f ∧
          w.badness = 0) ∧
      (∀ q : ℕ, h3[q]? ≠ h2[q]? → ∃ i, i < ([0, 1, 2, 3, 4] : List Ptr).length ∧
        organisms2[i]? = some q ∧ drawsFit (mutatePos (3 / 10) drawsFit 0 i) < 3 / 10) :=
  unselected_stay_elite_copies cyclingHeap [0, 1, 2, 3, 4] 2 (3 / 10) (1 / 100) drawsFit 0
    (by decide) (by decide)

/-! ## Two generations in a row -/

theorem evaluatedIndices_of_dvd (population concurrency : ℕ)
    (hdvd : concurrency ∣ population) :
    evaluatedIndices population concurrency = List.range population := by
  rw [evaluatedIndices_eq, Nat.mul_div_cancel' hdvd]

theorem map_getD_range (l : List Ptr) :
    (List.range l.length).map (fun i => l.getD i 0) = l := by
  apply List.ext_getElem
  · simp
  · intro n h₁ h₂
    simp [List.getD_eq_getElem, h₂]

theorem badnessAt_eq_deref (h : Heap) (p : Ptr) : badnessAt h p = (deref h p).badness := by
  unfold badnessAt deref
  rw [List.getD_eq_getElem?_getD]
  cases h[p]? <;> rfl

theorem fitted_copyFields_badness (xs ys : List ℚ) (v : organism) :
    (fitted xs ys v.copyFields).badness = (fitted xs ys v).badness := by
  simp [fitted, quintic, organism.copyFields]

theorem head_le_of_sorted (h : Heap) (l : List Ptr)
    (hsorted : l.Pairwise (fun p q => badnessAt h p ≤ badnessAt h q)) (q : Ptr) (hq : q ∈ l) :
    badnessAt h (l.getD 0 0) ≤ badnessAt h q := by
  cases l with
  | nil => cases hq
  | cons x rest =>
    rw [List.pairwise_cons] at hsorted
    simp only [List.getD_cons_zero]
    rcases List.mem_cons.1 hq with rfl | hmem
    · exact le_refl _
    · exact hsorted.1 q hmem

theorem evaluated_cell_of_dvd (xs ys : List ℚ) (organisms : List Ptr) (concurrency : ℕ)
    (h h1 : Heap) (hdvd : concurrency ∣ organisms.length)
    (hcells : ∀ p, h1[p]? = (h[p]?).map (fun v =>
      if p ∈ (evaluatedIndices organisms.length concurrency).map
          (fun i => organisms.getD i 0) then fitted xs ys v else v))
    (p : Ptr) (hp : p ∈ organisms) (v : organism) (hv : h[p]? = some v) :
    h1[p]? = some (fitted xs ys v) := by
  rw [hcells p, hv, evaluatedIndices_of_dvd _ _ hdvd, map_getD_range]
  simp [hp]

/-- C19: conditional elitism.  Start a generation from variables whose pointers can all be
dereferenced, with samples of equal length, a worker count that divides the population
size and `limit >= 1`.  If some index `i < P` with `i mod min(limit, P) = 0` is not selected
for mutation in that generation (the draw of iteration `i` is not below `mutationRate`),
then this generation and the next one both succeed and the loss of the next one is at
most the loss of this one. -/
theorem conditional_elitism (xs ys : List ℚ) (concurrency : ℕ) (limit : ℤ) (rate lr : ℚ)
    (draws : ℕ → ℚ) (st : GaState) (i : ℕ) (hxy : xs.length = ys.length)
    (hvalid : ∀ p ∈ st.organisms, p < st.heap.length)
    (hdvd : concurrency ∣ st.organisms.length) (hlimit : 1 ≤ limit)
    (hi : i < st.organisms.length)
    (himod : i % min limit.toNat st.organisms.length = 0)
    (hkeep : rate ≤ draws (mutatePos rate draws st.pos i)) :
    ∃ r0 r1,
      generation xs ys st.organisms.length concurrency (st.organisms.length / concurrency)
        limit rate lr draws st = some r0 ∧
      generation xs ys st.organisms.length concurrency (st.organisms.length / concurrency)
        limit rate lr draws r0.next = some r1 ∧
      r1.loss ≤ r0.loss := by
  have hP : 1 ≤ st.organisms.length := by omega
  obtain ⟨h1, h3, _, hlen1, hcells1, hgen, hlen3, hcells3⟩ :=
    generation_spec xs ys concurrency limit rate lr draws st hxy hvalid hP hlimit
  -- the elite of the first generation is a freshly evaluated organism
  have hvalid1 : ∀ p ∈ st.organisms, p < h1.length := fun p hp => by
    rw [hlen1]; exact hvalid p hp
  have hs0 : 0 < (insertionSort (lessBadness h1) st.organisms).length := by
    rw [insertionSort_length]; exact hP
  have hp0mem : (insertionSort (lessBadness h1) st.organisms).getD 0 0 ∈ st.organisms := by
    rw [List.getD_eq_getElem _ _ hs0]
    exact (insertionSort_perm (lessBadness h1) st.organisms).mem_iff.1 (List.getElem_mem _)
  have helite : deref h1 ((insertionSort (lessBadness h1) st.organisms).getD 0 0) =
      fitted xs ys (deref st.heap ((insertionSort (lessBadness h1) st.organisms).getD 0 0)) :=
    deref_eq_of_getElem? (evaluated_cell_of_dvd xs ys st.organisms concurrency st.heap h1 hdvd
      hcells1 _ hp0mem _ (getElem?_eq_deref st.heap _ (hvalid _ hp0mem)))
  -- the organism at index `i` after the first generation is an unmutated copy of the elite
  have hmod : i % limit.toNat = 0 := by
    rw [← mod_min_eq i limit.toNat st.organisms.length hi]; exact himod
  have hcopy : copyOfElite h1 (insertionSort (lessBadness h1) st.organisms) limit.toNat i =
      (deref h1 ((insertionSort (lessBadness h1) st.organisms).getD 0 0)).copyFields := by
    simp only [copyOfElite, hmod]
  have hcell3 : h3[h1.length + i]? =
      some (deref h1 ((insertionSort (lessBadness h1) st.organisms).getD 0 0)).copyFields := by
    rw [hcells3, List.getElem?_append_right (by omega)]
    have hrange : h1.length ≤ h1.length + i ∧ h1.length + i < h1.length + st.organisms.length :=
      ⟨by omega, by omega⟩
    simp only [Nat.add_sub_cancel_left, List.getElem?_map, List.getElem?_range hi,
      Option.map_some', if_pos hrange, mutatedAt, if_neg (not_lt.2 hkeep), hcopy]
  -- the second generation
  have hlen' : (List.range' h1.length st.organisms.length).length = st.organisms.length :=
    List.length_range' _ _ _
  have hvalid' : ∀ q ∈ List.range' h1.length st.organisms.length, q < h3.length := by
    intro q hq
    rw [List.mem_range'_1] at hq
    rw [hlen3]; exact hq.2
  obtain ⟨h1', h3', _, _, hcells1', hgen', _, _⟩ :=
    generation_spec xs ys concurrency limit rate lr draws
      { heap := h3, organisms := List.range' h1.length st.organisms.length
        pos := mutatePos rate draws st.pos st.organisms.length }
      hxy hvalid' (by rw [hlen']; exact hP) hlimit
  simp only [hlen'] at hcells1' hgen'
  have hqmem : h1.length + i ∈ List.range' h1.length st.organisms.length := by
    rw [List.mem_range'_1]; omega
  have hdvd' : concurrency ∣ (List.range' h1.length st.organisms.length).length := by
    rw [hlen']; exact hdvd
  have hcell1' : h1'[h1.length + i]? = some (fitted xs ys
      (deref h1 ((insertionSort (lessBadness h1) st.organisms).getD 0 0)).copyFields) :=
    evaluated_cell_of_dvd xs ys _ concurrency h3 h1' hdvd'
      (by simp only [hlen']; exact hcells1') _ hqmem _ hcell3
  have hmin := head_le_of_sorted h1'
    (insertionSort (lessBadness h1') (List.range' h1.length st.organisms.length))
    (insertionSort_sorted (badnessAt h1') (lessBadness_eq h1') _) (h1.length + i)
    ((insertionSort_perm (lessBadness h1') _).mem_iff.2 hqmem)
  refine ⟨_, _, hgen, hgen', ?_⟩
  simp only []
  rw [← badnessAt_eq_deref, ← badnessAt_eq_deref]
  refine le_trans hmin ?_
  rw [badnessAt_eq_deref h1' (h1.length + i), deref_eq_of_getElem? hcell1',
    fitted_copyFields_badness, badnessAt_eq_deref h1, helite, fitted_fitted]

/-! ## The loop of `main` -/

theorem initLoop_organisms (draws : ℕ → ℚ) :
    ∀ (n : ℕ) (st : GaState), (initLoop draws n st).organisms =
      st.organisms ++ List.range' st.heap.length n
  | 0, st => by simp [initLoop]
  | n + 1, st => by
    rw [initLoop, initLoop_organisms draws n]
    simp [newRandomOrganism, List.range'_succ]

theorem initLoop_heap_length (draws : ℕ → ℚ) :
    ∀ (n : ℕ) (st : GaState), (initLoop draws n st).heap.length = st.heap.length + n
  | 0, st => by simp [initLoop]
  | n + 1, st => by
    rw [initLoop, initLoop_heap_length draws n]
    simp [newRandomOrganism]
    omega

theorem initLoop_badness (draws : ℕ → ℚ) :
    ∀ (n : ℕ) (st : GaState), (∀ v ∈ st.heap, v.badness = 0) →
      ∀ v ∈ (initLoop draws n st).heap, v.badness = 0
  | 0, st, h => by simpa [initLoop] using h
  | n + 1, st, h => by
    rw [initLoop]
    refine initLoop_badness draws n _ ?_
    intro v hv
    simp only [newRandomOrganism, List.mem_append, List.mem_singleton] at hv
    rcases hv with hv | hv
    · exact h v hv
    · rw [hv]

theorem initLoop_empty (draws : ℕ → ℚ) (n : ℕ) :
    (initLoop draws n emptyState).organisms.length = n ∧
    (∀ p ∈ (initLoop draws n emptyState).organisms,
      p < (initLoop draws n emptyState).heap.length) ∧
    ∀ v ∈ (initLoop draws n emptyState).heap, v.badness = 0 := by
  refine ⟨?_, ?_, initLoop_badness draws n emptyState (by simp [emptyState])⟩
  · rw [initLoop_organisms]; simp [emptyState]
  · intro p hp
    rw [initLoop_organisms] at hp
    rw [initLoop_heap_length]
    simp [emptyState, List.mem_range'_1] at hp ⊢
    exact hp

theorem report_spec (st : GaState) (hvalid : ∀ p ∈ st.organisms, p < st.heap.length)
    (hP : 1 ≤ st.organisms.length) :
    report st = Outcome.reported
      (deref st.heap ((insertionSort (lessBadness st.heap) st.organisms).getD 0 0)) := by
  have hs0 : 0 < (insertionSort (lessBadness st.heap) st.organisms).length := by
    rw [insertionSort_length]; exact hP
  have hp0 : (insertionSort (lessBadness st.heap) st.organisms)[0]? =
      some ((insertionSort (lessBadness st.heap) st.organisms).getD 0 0) := by
    rw [List.getElem?_eq_getElem hs0, List.getD_eq_getElem _ _ hs0]
  have hp0valid : (insertionSort (lessBadness st.heap) st.organisms).getD 0 0 <
      st.heap.length := by
    rw [List.getD_eq_getElem _ _ hs0]
    exact insertionSort_valid st.heap st.organisms hvalid _ (List.getElem_mem _)
  have hL : 0 < min (1 : ℤ).toNat st.organisms.length := lt_min (by decide) hP
  simp only [report, bestOrganisms_eq st.heap st.organisms 1 hvalid (by decide), if_pos hL,
    hp0, getElem?_eq_deref st.heap _ hp0valid]

theorem main_eq_evolve (cfg : Config) (xs ys : List ℚ) (draws : ℕ → ℚ) (fuel : ℕ)
    (hP : 0 ≤ cfg.population) (hW : 1 ≤ cfg.concurrency) :
    main cfg xs ys draws fuel =
      evolve xs ys cfg.population.toNat cfg.concurrency.toNat
        (cfg.population.toNat / cfg.concurrency.toNat) cfg.limit cfg.mutationRate
        cfg.learningRate cfg.lossThreshold draws fuel MaxFloat64
        (initLoop draws cfg.population.toNat emptyState) := by
  unfold main
  rw [if_neg (by omega), if_neg (by omega)]
  simp only []
  rw [if_neg (by omega)]
  rfl

theorem evolve_succ (xs ys : List ℚ) (population concurrency batchSize : ℕ) (limit : ℤ)
    (rate lr threshold : ℚ) (draws : ℕ → ℚ) (fuel : ℕ) (loss : ℚ) (st : GaState) :
    evolve xs ys population concurrency batchSize limit rate lr threshold draws (fuel + 1)
        loss st =
      if loss ≥ threshold then
        match generation xs ys population concurrency batchSize limit rate lr draws st with
        | none => Outcome.panicked
        | some r =>
          evolve xs ys population concurrency batchSize limit rate lr threshold draws fuel
            r.loss r.next
      else report st := by
  rw [evolve]

theorem evolve_zero (xs ys : List ℚ) (population concurrency batchSize : ℕ) (limit : ℤ)
    (rate lr threshold : ℚ) (draws : ℕ → ℚ) (loss : ℚ) (st : GaState) :
    evolve xs ys population concurrency batchSize limit rate lr threshold draws 0 loss st =
      if loss ≥ threshold then Outcome.running loss st else report st := by
  rw [evolve]

theorem evolve_of_lt (xs ys : List ℚ) (population concurrency batchSize : ℕ) (limit : ℤ)
    (rate lr threshold : ℚ) (draws : ℕ → ℚ) (fuel : ℕ) (loss : ℚ) (st : GaState)
    (hlt : loss < threshold) :
    evolve xs ys population concurrency batchSize limit rate lr threshold draws fuel loss st =
      report st := by
  cases fuel with
  | zero => rw [evolve_zero, if_neg (not_le.2 hlt)]
  | succ n => rw [evolve_succ, if_neg (not_le.2 hlt)]

theorem mutatedAt_badness (rate lr : ℚ) (draws : ℕ → ℚ) (pos i : ℕ) (v : organism) :
    (mutatedAt rate lr draws pos i v).badness = v.badness := by
  unfold mutatedAt
  split <;> rfl

theorem fitted_nil_badness (v : organism) : (fitted [] [] v).badness = 0 := by
  simp [fitted]

/-- The first generation on an empty sample set: it succeeds, its loss is 0, and the
variables it leaves hold pointers that can all be dereferenced, to organisms of badness 0. -/
theorem generation_on_empty_samples (concurrency : ℕ) (limit : ℤ) (rate lr : ℚ)
    (draws : ℕ → ℚ) (st : GaState) (hvalid : ∀ p ∈ st.organisms, p < st.heap.length)
    (hzero : ∀ v ∈ st.heap, v.badness = 0) (hP : 1 ≤ st.organisms.length)
    (hlimit : 1 ≤ limit) :
    ∃ r, generation [] [] st.organisms.length concurrency (st.organisms.length / concurrency)
        limit rate lr draws st = some r ∧ r.loss = 0 ∧
      r.next.organisms.length = st.organisms.length ∧
      (∀ p ∈ r.next.organisms, p < r.next.heap.length) ∧
      ∀ p ∈ r.next.organisms, (deref r.next.heap p).badness = 0 := by
  obtain ⟨h1, h3, _, hlen1, hcells1, hgen, hlen3, hcells3⟩ :=
    generation_spec [] [] concurrency limit rate lr draws st rfl hvalid hP hlimit
  refine ⟨_, hgen, ?_, List.length_range' _ _ _, ?_, ?_⟩
  · -- every organism has badness 0 after the evaluation step
    have hs0 : 0 < (insertionSort (lessBadness h1) st.organisms).length := by
      rw [insertionSort_length]; exact hP
    have hp0 : (insertionSort (lessBadness h1) st.organisms).getD 0 0 < st.heap.length := by
      rw [List.getD_eq_getElem _ _ hs0]
      exact hvalid _ ((insertionSort_perm (lessBadness h1) st.organisms).mem_iff.1
        (List.getElem_mem _))
    have hcell := hcells1 ((insertionSort (lessBadness h1) st.organisms).getD 0 0)
    rw [getElem?_eq_deref st.heap _ hp0] at hcell
    have hv0 : (deref st.heap ((insertionSort (lessBadness h1) st.organisms).getD 0 0)).badness
        = 0 := hzero _ (List.getElem?_mem (getElem?_eq_deref st.heap _ hp0))
    simp only [Option.map_some'] at hcell
    have hb : (deref h1 ((insertionSort (lessBadness h1) st.organisms).getD 0 0)).badness = 0 := by
      rw [deref_eq_of_getElem? hcell]
      split
      · exact fitted_nil_badness _
      · exact hv0
    exact hb
  · intro p hp
    simp only [List.mem_range'_1] at hp
    simp only [hlen3]
    exact hp.2
  · intro p hp
    simp only [List.mem_range'_1] at hp
    have hcell := hcells3 p
    rw [List.getElem?_append_right hp.1, List.getElem?_map,
      List.getElem?_range ((Nat.sub_lt_iff_lt_add hp.1).2 hp.2)] at hcell
    simp only [Option.map_some', if_pos hp] at hcell
    simp only []
    rw [deref_eq_of_getElem? hcell, mutatedAt_badness]
    rfl

/-- C11, as amended: an empty sample set is not rejected.  For a data source with a header
row and no data rows, `d.xs` and `d.ys` are empty and nothing is reported before the loop;
with at least one organism, at least one worker, `limit >= 1` and a threshold in
`(0, MaxFloat64]` the loop is entered, its first generation succeeds with loss 0, and the
program then prints an organism, of badness 0, as the fit. -/
theorem empty_sample_set_is_accepted (cfg : Config) (header : List Field) (draws : ℕ → ℚ)
    (fuel : ℕ) (hP : 1 ≤ cfg.population) (hW : 1 ≤ cfg.concurrency) (hlimit : 1 ≤ cfg.limit)
    (hT0 : 0 < cfg.lossThreshold) (hT1 : cfg.lossThreshold ≤ MaxFloat64) :
    readData [header] = Parsed.data [] [] ∧
    program cfg [header] draws 0 =
      Run.ran (Outcome.running MaxFloat64 (initLoop draws cfg.population.toNat emptyState)) ∧
    ∃ r v, generation [] [] cfg.population.toNat cfg.concurrency.toNat
        (cfg.population.toNat / cfg.concurrency.toNat) cfg.limit cfg.mutationRate
        cfg.learningRate draws (initLoop draws cfg.population.toNat emptyState) = some r ∧
      r.loss = 0 ∧
      program cfg [header] draws (fuel + 1) = Run.ran (Outcome.reported v) ∧
      v.badness = 0 := by
  obtain ⟨hlen0, hvalid0, hzero0⟩ := initLoop_empty draws cfg.population.toNat
  have hP' : 1 ≤ (initLoop draws cfg.population.toNat emptyState).organisms.length := by
    rw [hlen0]; omega
  obtain ⟨r, hgen, hloss, hlen1, hvalid1, hzero1⟩ := generation_on_empty_samples
    cfg.concurrency.toNat cfg.limit cfg.mutationRate cfg.learningRate draws
    (initLoop draws cfg.population.toNat emptyState) hvalid0 hzero0 hP' hlimit
  rw [hlen0] at hgen hlen1
  have hmain : ∀ n, program cfg [header] draws n =
      Run.ran (evolve [] [] cfg.population.toNat cfg.concurrency.toNat
        (cfg.population.toNat / cfg.concurrency.toNat) cfg.limit cfg.mutationRate
        cfg.learningRate cfg.lossThreshold draws n MaxFloat64
        (initLoop draws cfg.population.toNat emptyState)) := by
    intro n
    simp only [program, readData, parseLoop]
    rw [main_eq_evolve cfg [] [] draws n (by omega) hW]
  have hs0 : 0 < (insertionSort (lessBadness r.next.heap) r.next.organisms).length := by
    rw [insertionSort_length, hlen1]; omega
  refine ⟨rfl, ?_, r,
    deref r.next.heap ((insertionSort (lessBadness r.next.heap) r.next.organisms).getD 0 0),
    hgen, hloss, ?_, ?_⟩
  · rw [hmain 0, evolve_zero, if_pos hT1]
  · rw [hmain (fuel + 1), evolve_succ, if_pos hT1, hgen]
    simp only []
    rw [evolve_of_lt _ _ _ _ _ _ _ _ _ _ _ _ _ (by rw [hloss]; exact hT0),
      report_spec r.next hvalid1 (by rw [hlen1]; omega)]
  · refine hzero1 _ ?_
    rw [List.getD_eq_getElem _ _ hs0]
    exact (insertionSort_perm (lessBadness r.next.heap) r.next.organisms).mem_iff.1
      (List.getElem_mem _)

/-- Witness of the amended C11: one organism, one elite, one worker. -/
theorem empty_sample_set_is_accepted_witness :
    readData [[none, none]] = Parsed.data [] [] ∧
    program singleConfig [[none, none]] drawsQuarter 0 =
      Run.ran (Outcome.running MaxFloat64
        (initLoop drawsQuarter singleConfig.population.toNat emptyState)) ∧
    ∃ r v, generation [] [] singleConfig.population.toNat singleConfig.concurrency.toNat
        (singleConfig.population.toNat / singleConfig.concurrency.toNat) singleConfig.limit
        singleConfig.mutationRate singleConfig.learningRate drawsQuarter
        (initLoop drawsQuarter singleConfig.population.toNat emptyState) = some r ∧
      r.loss = 0 ∧
      program singleConfig [[none, none]] drawsQuarter (3 + 1) =
        Run.ran (Outcome.reported v) ∧
      v.badness = 0 :=
  empty_sample_set_is_accepted singleConfig [none, none] drawsQuarter 3 (by decide)
    (by decide) (by decide) (by decide!) (by decide!)

/-- C11 as stated fails: for records that consist of a header row only, with one
organism, one elite and one worker, the program reports no error; it runs a generation on
the empty sample set and prints an organism (six genes `-5.005`, badness 0) as the fit. -/
theorem empty_sample_set_reports_a_fit :
    program singleConfig [[none, none]] drawsQuarter 1 =
      Run.ran (Outcome.reported
        { a := -1001 / 200, b := -1001 / 200, c := -1001 / 200, d := -1001 / 200
          e := -1001 / 200, f := -1001 / 200, badness := 0 }) := by
  decide!

/-- Witness of C19: two organisms, one worker, one elite, the sample (0, 1) and a stream
that selects no organism for mutation. -/
theorem conditional_elitism_witness :
    ∃ r0 r1,
      generation [0] [1] pairStart.organisms.length 1 (pairStart.organisms.length / 1)
        1 (3 / 10) (1 / 100) drawsHalf pairStart = some r0 ∧
      generation [0] [1] pairStart.organisms.length 1 (pairStart.organisms.length / 1)
        1 (3 / 10) (1 / 100) drawsHalf r0.next = some r1 ∧
      r1.loss ≤ r0.loss :=
  conditional_elitism [0] [1] 1 1 (3 / 10) (1 / 100) drawsHalf pairStart 0 rfl (by decide)
    (by decide) (by decide) (by decide) (by decide) (by decide!)

/-! ## Configurations -/

theorem bestOrganisms_len_of_nonpos (h : Heap) (organisms : List Ptr) (limit : ℤ)
    (hlimit : limit ≤ 0) (best : Best) (hbest : bestOrganisms h organisms limit = some best) :
    best.len = 0 := by
  unfold bestOrganisms at hbest
  split at hbest
  · cases hbest
  · simp only [] at hbest
    split at hbest
    · rename_i hle
      cases Option.some.inj hbest
      simp only []
      omega
    · split at hbest
      · cases hbest
      · cases Option.some.inj hbest
        simp only []
        omega

theorem generation_none_of_nonpos (xs ys : List ℚ) (population concurrency batchSize : ℕ)
    (limit : ℤ) (rate lr : ℚ) (draws : ℕ → ℚ) (st : GaState) (hlimit : limit ≤ 0) :
    generation xs ys population concurrency batchSize limit rate lr draws st = none := by
  unfold generation
  cases evaluate xs ys st.organisms concurrency batchSize st.heap with
  | none => rfl
  | some h1 =>
    simp only []
    rcases hbest : bestOrganisms h1 st.organisms limit with _ | best
    · rfl
    · simp only []
      rw [if_neg (by rw [bestOrganisms_len_of_nonpos h1 st.organisms limit hlimit best hbest]
                     exact lt_irrefl 0)]

theorem generation_succeeds (xs ys : List ℚ) (concurrency : ℕ) (limit : ℤ) (rate lr : ℚ)
    (draws : ℕ → ℚ) (st : GaState) (hxy : xs.length = ys.length)
    (hvalid : ∀ p ∈ st.organisms, p < st.heap.length) (hP : 1 ≤ st.organisms.length)
    (hlimit : 1 ≤ limit) :
    ∃ r, generation xs ys st.organisms.length concurrency (st.organisms.length / concurrency)
        limit rate lr draws st = some r ∧
      r.next.organisms.length = st.organisms.length ∧
      ∀ p ∈ r.next.organisms, p < r.next.heap.length := by
  obtain ⟨h1, h3, _, _, _, hgen, hlen3, _⟩ :=
    generation_spec xs ys concurrency limit rate lr draws st hxy hvalid hP hlimit
  refine ⟨_, hgen, List.length_range' _ _ _, ?_⟩
  intro p hp
  simp only [List.mem_range'_1] at hp
  simp only [hlen3]
  exact hp.2

/-- C16, as amended: no configuration is rejected by a check; the run goes on with the
values it has.  With a threshold of at most `MaxFloat64` and samples of equal length: a
worker count of 0 ends in a panic (integer division by zero), a negative worker count
ends in a panic (negative `WaitGroup` counter when the loop is entered), an elite count
`limit <= 0` ends in a panic in the first generation (selection), and a population size
below the elite count, with at least one organism and one worker, is accepted: the first
generation completes and the run goes on or prints an organism. -/
theorem invalid_configuration_not_rejected (cfg : Config) (xs ys : List ℚ)
    (draws : ℕ → ℚ) (fuel : ℕ) (hT : cfg.lossThreshold ≤ MaxFloat64)
    (hxy : xs.length = ys.length) :
    (cfg.concurrency = 0 → main cfg xs ys draws fuel = Outcome.panicked) ∧
    (cfg.concurrency < 0 → main cfg xs ys draws fuel = Outcome.panicked) ∧
    (cfg.limit ≤ 0 → main cfg xs ys draws (fuel + 1) = Outcome.panicked) ∧
    (cfg.population < cfg.limit → 1 ≤ cfg.population → 1 ≤ cfg.concurrency →
      ∃ r, generation xs ys cfg.population.toNat cfg.concurrency.toNat
          (cfg.population.toNat / cfg.concurrency.toNat) cfg.limit cfg.mutationRate
          cfg.learningRate draws (initLoop draws cfg.population.toNat emptyState) = some r ∧
        (main cfg xs ys draws 1 = Outcome.running r.loss r.next ∨
          ∃ v, main cfg xs ys draws 1 = Outcome.reported v)) := by
  refine ⟨?_, ?_, ?_, ?_⟩
  · intro hW
    simp [main, hW]
  · intro hW
    unfold main
    rw [if_neg (by omega)]
    by_cases hP : cfg.population < 0
    · rw [if_pos hP]
    · rw [if_neg hP]
      simp only []
      rw [if_pos hW, if_pos hT]
  · intro hlimit
    unfold main
    by_cases hW0 : cfg.concurrency = 0
    · rw [if_pos hW0]
    · rw [if_neg hW0]
      by_cases hP : cfg.population < 0
      · rw [if_pos hP]
      · rw [if_neg hP]
        simp only []
        by_cases hW : cfg.concurrency < 0
        · rw [if_pos hW, if_pos hT]
        · rw [if_neg hW, evolve_succ, if_pos hT, generation_none_of_nonpos _ _ _ _ _ _ _ _ _ _
            hlimit]
  · intro hlt hP hW
    obtain ⟨hlen0, hvalid0, _⟩ := initLoop_empty draws cfg.population.toNat
    obtain ⟨r, hgen, hlen1, hvalid1⟩ := generation_succeeds xs ys cfg.concurrency.toNat
      cfg.limit cfg.mutationRate cfg.learningRate draws
      (initLoop draws cfg.population.toNat emptyState) hxy hvalid0
      (by rw [hlen0]; omega) (by omega)
    rw [hlen0] at hgen hlen1
    refine ⟨r, hgen, ?_⟩
    rw [main_eq_evolve cfg xs ys draws 1 (by omega) hW, evolve_succ, if_pos hT, hgen]
    simp only []
    rw [evolve_zero]
    by_cases hloss : r.loss ≥ cfg.lossThreshold
    · left
      rw [if_pos hloss]
    · right
      rw [if_neg hloss, report_spec r.next hvalid1 (by rw [hlen1]; omega)]
      exact ⟨_, rfl⟩

/-- Witness of the amended C16: a population of one organism with an elite count of two. -/
theorem invalid_configuration_not_rejected_witness :
    (fewerThanLimitConfig.concurrency = 0 →
      main fewerThanLimitConfig [0] [0] drawsHalf 4 = Outcome.panicked) ∧
    (fewerThanLimitConfig.concurrency < 0 →
      main fewerThanLimitConfig [0] [0] drawsHalf 4 = Outcome.panicked) ∧
    (fewerThanLimitConfig.limit ≤ 0 →
      main fewerThanLimitConfig [0] [0] drawsHalf (4 + 1) = Outcome.panicked) ∧
    (fewerThanLimitConfig.population < fewerThanLimitConfig.limit →
      1 ≤ fewerThanLimitConfig.population → 1 ≤ fewerThanLimitConfig.concurrency →
      ∃ r, generation [0] [0] fewerThanLimitConfig.population.toNat
          fewerThanLimitConfig.concurrency.toNat
          (fewerThanLimitConfig.population.toNat / fewerThanLimitConfig.concurrency.toNat)
          fewerThanLimitConfig.limit fewerThanLimitConfig.mutationRate
          fewerThanLimitConfig.learningRate drawsHalf
          (initLoop drawsHalf fewerThanLimitConfig.population.toNat emptyState) = some r ∧
        (main fewerThanLimitConfig [0] [0] drawsHalf 1 = Outcome.running r.loss r.next ∨
          ∃ v, main fewerThanLimitConfig [0] [0] drawsHalf 1 = Outcome.reported v)) :=
  invalid_configuration_not_rejected fewerThanLimitConfig [0] [0] drawsHalf 4 (by decide!)
    rfl

/-- C16 as stated fails: with one organism and an elite count of two (population size
below the elite count) no configuration error is reported; the population is created, a
generation is run and an organism is printed.  With an elite count of 0 or a worker count
of 0 the run ends in a panic, not in a configuration error. -/
theorem small_population_is_accepted :
    main fewerThanLimitConfig [0] [0] drawsHalf 1 =
      Outcome.reported { a := 0, b := 0, c := 0, d := 0, e := 0, f := 0, badness := 0 } ∧
    (initLoop drawsHalf fewerThanLimitConfig.population.toNat emptyState).organisms = [0] ∧
    main { fewerThanLimitConfig with limit := 0 } [0] [0] drawsHalf 1 = Outcome.panicked ∧
    main { fewerThanLimitConfig with concurrency := 0 } [0] [0] drawsHalf 1 =
      Outcome.panicked := by
  decide!

/-! ## Comparisons with NaN and infinities -/

theorem Float64.lt_eq_rank_lt (a b : Float64) (ha : a ≠ Float64.nan) (hb : b ≠ Float64.nan) :
    a.lt b = decide (a.rank < b.rank) := by
  have htop : ∀ q : ℚ, ((q : WithTop ℚ) : WithBot (WithTop ℚ)) <
      ((⊤ : WithTop ℚ) : WithBot (WithTop ℚ)) := fun q =>
    WithBot.coe_lt_coe.2 (WithTop.coe_lt_top q)
  cases a <;> cases b <;>
    simp [Float64.lt, Float64.rank, WithBot.bot_lt_coe, WithTop.coe_lt_top] at ha hb ⊢
  exact htop _

theorem Float64.lt_false_iff_rank_le (a b : Float64) (ha : a ≠ Float64.nan)
    (hb : b ≠ Float64.nan) : b.lt a = false ↔ a.rank ≤ b.rank := by
  rw [Float64.lt_eq_rank_lt b a hb ha]
  simp

theorem insertionSort_sorted_without_nan {α : Type} (badness : α → Float64)
    (organisms : List α) (hnan : ∀ o ∈ organisms, badness o ≠ Float64.nan) :
    (insertionSort (fun x y => (badness x).lt (badness y)) organisms).Pairwise
      (fun a b => (badness b).lt (badness a) = false) := by
  have hcongr := insertionSort_congr (fun x y => (badness x).lt (badness y))
    (fun x y => decide ((badness x).rank < (badness y).rank)) organisms
    (fun a ha b hb => Float64.lt_eq_rank_lt _ _ (hnan a ha) (hnan b hb))
  have hsorted := insertionSort_sorted (fun o => (badness o).rank)
    (fun _ _ => rfl) organisms
  rw [← hcongr] at hsorted
  have hmem : ∀ o ∈ insertionSort (fun x y => (badness x).lt (badness y)) organisms,
      badness o ≠ Float64.nan := fun o ho =>
    hnan o ((insertionSort_perm _ organisms).mem_iff.1 ho)
  refine (List.Pairwise.and_mem.1 hsorted).imp ?_
  intro a b hab
  exact (Float64.lt_false_iff_rank_le _ _ (hmem a hab.1) (hmem b hab.2.1)).2 hab.2.2

theorem Float64.lt_total (x y : Float64) (hx : x ≠ Float64.nan) (hy : y ≠ Float64.nan) :
    x.lt y = true ∨ x = y ∨ y.lt x = true := by
  cases x <;> cases y <;> simp [Float64.lt] at hx hy ⊢
  exact lt_trichotomy _ _

theorem Float64.posInf_not_lt (x : Float64) : Float64.posInf.lt x = false := by
  cases x <;> rfl

theorem Float64.nan_not_lt (x : Float64) :
    Float64.nan.lt x = false ∧ x.lt Float64.nan = false := by
  cases x <;> exact ⟨rfl, rfl⟩

/-- C12, as amended: `bestOrganisms` compares with `<` alone.  On a population in which no
badness is NaN (infinite values included) and for a limit `>= 0`, it returns
`min(limit, len)` organisms in ascending order, none of the organisms left out being
better than a returned one; on values that are not NaN the comparison is total, and
nothing is worse than plus infinity.  NaN is not ordered at all: `<` is false on every
pair that involves NaN, in both directions. -/
theorem bestOrganismsIEEE_without_nan {α : Type} (badness : α → Float64)
    (organisms : List α) (limit : ℤ) (hnan : ∀ o ∈ organisms, badness o ≠ Float64.nan)
    (hlimit : 0 ≤ limit) :
    (∃ best, bestOrganismsIEEE badness organisms limit = some best ∧
      best.length = min limit.toNat organisms.length ∧
      best.Pairwise (fun a b => (badness b).lt (badness a) = false) ∧
      best.Subperm organisms ∧
      ∀ a ∈ best, ∀ b ∈ (SliceStable (fun x y => (badness x).lt (badness y))
        organisms).drop limit.toNat, (badness b).lt (badness a) = false) ∧
    (∀ x y : Float64, x ≠ Float64.nan → y ≠ Float64.nan →
      x.lt y = true ∨ x = y ∨ y.lt x = true) ∧
    (∀ x : Float64, Float64.posInf.lt x = false) ∧
    (∀ x : Float64, Float64.nan.lt x = false ∧ x.lt Float64.nan = false) := by
  have hsorted := insertionSort_sorted_without_nan badness organisms hnan
  have hperm := insertionSort_perm (fun x y => (badness x).lt (badness y)) organisms
  have hslen := insertionSort_length (fun x y => (badness x).lt (badness y)) organisms
  refine ⟨?_, Float64.lt_total, Float64.posInf_not_lt, Float64.nan_not_lt⟩
  unfold bestOrganismsIEEE
  rw [SliceStable_eq_insertionSort (fun o => (badness o).rank) _ organisms
    (fun a ha b hb => Float64.lt_eq_rank_lt _ _ (hnan a ha) (hnan b hb)), hslen]
  by_cases hle : (organisms.length : ℤ) ≤ limit
  · have hlen : organisms.length ≤ limit.toNat := by omega
    rw [if_pos hle]
    refine ⟨_, rfl, by rw [hslen, Nat.min_eq_right hlen], hsorted, hperm.subperm, ?_⟩
    intro a _ b hb
    rw [List.drop_of_length_le (by rw [hslen]; exact hlen)] at hb
    cases hb
  · have hlen : limit.toNat ≤ organisms.length := by omega
    rw [if_neg hle, if_neg (by omega)]
    refine ⟨_, rfl, by rw [List.length_take, hslen], hsorted.sublist (List.take_sublist _ _),
      (List.take_sublist _ _).subperm.trans hperm.subperm, ?_⟩
    intro a ha b hb
    have hs := hsorted
    rw [← List.take_append_drop limit.toNat
      (insertionSort (fun x y => (badness x).lt (badness y)) organisms),
      List.pairwise_append] at hs
    exact hs.2.2 a ha b hb

/-- Witness of the amended C12: four errors, one of them infinite, and a limit of 2. -/
theorem bestOrganismsIEEE_without_nan_witness :
    (∃ best, bestOrganismsIEEE (fun x => x)
        [Float64.finite 3, Float64.posInf, Float64.finite 1, Float64.negInf] 2 = some best ∧
      best.length = min (2 : ℤ).toNat
        [Float64.finite 3, Float64.posInf, Float64.finite 1, Float64.negInf].length ∧
      best.Pairwise (fun a b => Float64.lt b a = false) ∧
      best.Subperm [Float64.finite 3, Float64.posInf, Float64.finite 1, Float64.negInf] ∧
      ∀ a ∈ best, ∀ b ∈ (SliceStable (fun x y => Float64.lt x y)
        [Float64.finite 3, Float64.posInf, Float64.finite 1, Float64.negInf]).drop
          (2 : ℤ).toNat, Float64.lt b a = false) ∧
    (∀ x y : Float64, x ≠ Float64.nan → y ≠ Float64.nan →
      x.lt y = true ∨ x = y ∨ y.lt x = true) ∧
    (∀ x : Float64, Float64.posInf.lt x = false) ∧
    (∀ x : Float64, Float64.nan.lt x = false ∧ x.lt Float64.nan = false) :=
  bestOrganismsIEEE_without_nan (fun x => x)
    [Float64.finite 3, Float64.posInf, Float64.finite 1, Float64.negInf] 2
    (by simp) (by decide)

/-- C12 as stated fails: on the errors `[NaN, 1]` the comparison never holds, the slice
stays as it is, and with limit 1 the organism returned as `best[0]` is the one whose
badness is NaN, ahead of the finite one. -/
theorem nan_stays_ahead_of_finite :
    SliceStable (fun x y => Float64.lt x y) [Float64.nan, Float64.finite 1] =
      [Float64.nan, Float64.finite 1] ∧
    bestOrganismsIEEE (fun x => x) [Float64.nan, Float64.finite 1] 1 = some [Float64.nan] ∧
    Float64.lt (Float64.finite 1) Float64.nan = false := by
  decide!

/-- C18, as amended: the loop runs another generation exactly when
`loss >= lossThreshold` holds.  When neither value is NaN (infinities included) this is
exactly when `loss < lossThreshold` does not hold; the condition is false whenever the
loss or the threshold is NaN, so a NaN loss ends the loop.  The first generation runs for
every threshold that is minus infinity or a finite number up to `MaxFloat64`.  On finite
values the loop of `main` follows the condition: it runs the body when the condition
holds and goes on to the report when it does not. -/
theorem loop_runs_iff_ge (loss threshold : Float64) (xs ys : List ℚ)
    (population concurrency batchSize : ℕ) (limit : ℤ) (rate lr : ℚ) (draws : ℕ → ℚ)
    (fuel : ℕ) (l t : ℚ) (st : GaState)
    (hl : loss ≠ Float64.nan) (ht : threshold ≠ Float64.nan) :
    loopCondition loss threshold = !(loss.lt threshold) ∧
    (∀ x : Float64, loopCondition Float64.nan x = false ∧
      loopCondition x Float64.nan = false) ∧
    loopCondition (Float64.finite MaxFloat64) Float64.negInf = true ∧
    (∀ q : ℚ, q ≤ MaxFloat64 →
      loopCondition (Float64.finite MaxFloat64) (Float64.finite q) = true) ∧
    (loopCondition (Float64.finite l) (Float64.finite t) = true →
      evolve xs ys population concurrency batchSize limit rate lr t draws (fuel + 1) l st =
        match generation xs ys population concurrency batchSize limit rate lr draws st with
        | none => Outcome.panicked
        | some r =>
          evolve xs ys population concurrency batchSize limit rate lr t draws fuel
            r.loss r.next) ∧
    (loopCondition (Float64.finite l) (Float64.finite t) = false →
      evolve xs ys population concurrency batchSize limit rate lr t draws fuel l st =
        report st) := by
  refine ⟨?_, ?_, rfl, ?_, ?_, ?_⟩
  · cases loss <;> cases threshold <;>
      simp [loopCondition, Float64.ge, Float64.lt] at hl ht ⊢
    rename_i a b
    by_cases hab : a < b
    · simp [hab, not_le.2 hab]
    · simp [hab, not_lt.1 hab]
  · intro x
    cases x <;> exact ⟨rfl, rfl⟩
  · intro q hq
    simp [loopCondition, Float64.ge, hq]
  · intro hc
    have hge : l ≥ t := by simpa [loopCondition, Float64.ge] using hc
    rw [evolve_succ, if_pos hge]
  · intro hc
    have hlt : l < t := by simpa [loopCondition, Float64.ge] using hc
    exact evolve_of_lt _ _ _ _ _ _ _ _ _ _ _ _ _ hlt

/-- Witness of the amended C18: an infinite loss against the threshold one half. -/
theorem loop_runs_iff_ge_witness :
    loopCondition Float64.posInf (Float64.finite (1 / 2)) =
      !(Float64.posInf.lt (Float64.finite (1 / 2))) ∧
    (∀ x : Float64, loopCondition Float64.nan x = false ∧
      loopCondition x Float64.nan = false) ∧
    loopCondition (Float64.finite MaxFloat64) Float64.negInf = true ∧
    (∀ q : ℚ, q ≤ MaxFloat64 →
      loopCondition (Float64.finite MaxFloat64) (Float64.finite q) = true) ∧
    (loopCondition (Float64.finite 25) (Float64.finite (1 / 2)) = true →
      evolve [0] [0] 2 1 2 1 (3 / 10) (1 / 100) (1 / 2) drawsQuarter (0 + 1) 25 pairStart =
        match generation [0] [0] 2 1 2 1 (3 / 10) (1 / 100) drawsQuarter pairStart with
        | none => Outcome.panicked
        | some r =>
          evolve [0] [0] 2 1 2 1 (3 / 10) (1 / 100) (1 / 2) drawsQuarter 0 r.loss r.next) ∧
    (loopCondition (Float64.finite 25) (Float64.finite (1 / 2)) = false →
      evolve [0] [0] 2 1 2 1 (3 / 10) (1 / 100) (1 / 2) drawsQuarter 0 25 pairStart =
        report pairStart) :=
  loop_runs_iff_ge Float64.posInf (Float64.finite (1 / 2)) [0] [0] 2 1 2 1 (3 / 10) (1 / 100)
    drawsQuarter 0 25 (1 / 2) pairStart (by simp) (by simp)

/-- C18 as stated fails: for a NaN loss and the threshold one half, `loss < lossThreshold`
does not hold, yet the condition of the loop is false and no further generation runs. -/
theorem nan_loss_stops_the_loop :
    Float64.lt Float64.nan (Float64.finite (1 / 2)) = false ∧
    loopCondition Float64.nan (Float64.finite (1 / 2)) = false := by
  decide

/-! ## `Mutate` in rounded arithmetic -/

/-- C13 as stated fails in `float64` arithmetic: for the gene `1.8230687000260772`, the
step `lr = 0.01` and the draw `r = 0` (so that `(r*2 - 1)*lr` is `-lr` with no rounding at
all), the sum is rounded to `1.8130687000260772`, and the gene has moved by
`45035996273705 / 4503599627370496`, about `0.010000000000000009`, which is more than `lr`. -/
theorem mutate_step_exceeds_learning_rate :
    roundingStep = 5764607523034235 / 576460752303423488 ∧
    roundingGene = 256574109940883 / 140737488355328 ∧
    roundFloat64 roundingGene = roundingGene ∧ roundFloat64 roundingStep = roundingStep ∧
    0 ≤ roundingStep ∧
    roundFloat64 (roundFloat64 ((0 : ℚ) * 2) - 1) * roundingStep = -roundingStep ∧
    (organism.mutateFieldsRounded
      { a := roundingGene, b := 0, c := 0, d := 0, e := 0, f := 0, badness := 0 }
      roundingStep 0 0 0 0 0 0).a = roundingGene - 45035996273705 / 4503599627370496 ∧
    roundingStep < 45035996273705 / 4503599627370496 ∧
    roundingStep < magnitude ((organism.mutateFieldsRounded
      { a := roundingGene, b := 0, c := 0, d := 0, e := 0, f := 0, badness := 0 }
      roundingStep 0 0 0 0 0 0).a - roundingGene) := by
  decide!

/-! ## Stability of `bestOrganisms` -/

theorem Float64.rank_injective (a b : Float64) (ha : a ≠ Float64.nan) (hb : b ≠ Float64.nan)
    (h : a.rank = b.rank) : a = b := by
  cases a <;> cases b <;> simp [Float64.rank] at ha hb h ⊢
  · exact h

/-- Without NaN, the sort of `bestOrganisms` keeps the organisms of every badness value in
the order of the input. -/
theorem SliceStable_filter_without_nan {α : Type} (badness : α → Float64)
    (organisms : List α) (hnan : ∀ o ∈ organisms, badness o ≠ Float64.nan) (v : Float64) :
    (SliceStable (fun x y => (badness x).lt (badness y)) organisms).filter
        (fun o => decide (badness o = v)) =
      organisms.filter (fun o => decide (badness o = v)) := by
  have hagree : ∀ a ∈ organisms, ∀ b ∈ organisms,
      (badness a).lt (badness b) = decide ((badness a).rank < (badness b).rank) :=
    fun a ha b hb => Float64.lt_eq_rank_lt _ _ (hnan a ha) (hnan b hb)
  rw [SliceStable_eq_insertionSort (fun o => (badness o).rank) _ organisms hagree,
    insertionSort_eq_sortByKey (fun o => (badness o).rank) _ organisms hagree]
  have hmem : ∀ o ∈ sortByKey (fun o => (badness o).rank) organisms,
      badness o ≠ Float64.nan :=
    fun o ho => hnan o ((sortByKey_perm _ organisms).mem_iff.1 ho)
  by_cases hv : v = Float64.nan
  · rw [List.filter_eq_nil_iff.2 (fun o ho => by simpa [hv] using hmem o ho),
      List.filter_eq_nil_iff.2 (fun o ho => by simpa [hv] using hnan o ho)]
  · have hiff : ∀ o, badness o ≠ Float64.nan →
        decide (badness o = v) = decide ((badness o).rank = v.rank) := by
      intro o ho
      by_cases h : badness o = v
      · simp [h]
      · have : (badness o).rank ≠ v.rank := fun hr => h (Float64.rank_injective _ _ ho hv hr)
        simp [h, this]
    rw [List.filter_congr (fun o ho => hiff o (hmem o ho)),
      List.filter_congr (fun o ho => hiff o (hnan o ho))]
    exact sortByKey_filter (fun o => (badness o).rank) v.rank organisms

/-- C6, as amended: `bestOrganisms` is stable on organisms whose badness is not NaN.  For
pointers that can all be dereferenced (their badness is then a finite number), and
likewise for organisms whose badness is any `float64` other than NaN (infinities
included), and for every limit: a limit `>= 0` gives a result (a negative one makes
`organisms[:limit]` panic), and in every result the organisms of each badness value `v`
are, in order, an initial segment of the input organisms of badness `v`, so that equal
organisms keep their relative order and the earliest ones are the ones kept.  On errors
`[3,1,1,2]` with limit 2 the result is the organism of index 1 followed by the one of
index 2. -/
theorem bestOrganisms_stable (h : Heap) (organisms : List Ptr) (limit : ℤ)
    (hvalid : ∀ p ∈ organisms, p < h.length)
    {α : Type} (badness : α → Float64) (population : List α)
    (hnan : ∀ o ∈ population, badness o ≠ Float64.nan) :
    ((0 ≤ limit → ∃ r : Best, bestOrganisms h organisms limit = some r) ∧
      ∀ r : Best, bestOrganisms h organisms limit = some r →
        ∀ v : ℚ, r.elems.filter (fun p => decide (badnessAt h p = v)) <+:
          organisms.filter (fun p => decide (badnessAt h p = v))) ∧
    ((0 ≤ limit → ∃ best, bestOrganismsIEEE badness population limit = some best) ∧
      ∀ best, bestOrganismsIEEE badness population limit = some best →
        ∀ v : Float64, best.filter (fun o => decide (badness o = v)) <+:
          population.filter (fun o => decide (badness o = v))) ∧
    (bestOrganisms stabilityHeap [0, 1, 2, 3] 2).map Best.elems = some [1, 2] := by
  refine ⟨⟨fun hlimit => ⟨_, bestOrganisms_eq h organisms limit hvalid hlimit⟩, ?_⟩,
    ⟨?_, ?_⟩, by decide!⟩
  · intro r hr v
    by_cases hlimit : 0 ≤ limit
    · rw [bestOrganisms_eq h organisms limit hvalid hlimit] at hr
      cases Option.some.inj hr
      rw [← insertionSort_filter (badnessAt h) (lessBadness_eq h) v organisms]
      exact (List.take_prefix _ _).filter _
    · have hnone : bestOrganisms h organisms limit = none := by
        unfold bestOrganisms
        split
        · rfl
        · simp only []
          rw [if_neg (by omega), if_pos (by omega)]
      rw [hnone] at hr
      cases hr
  · intro hlimit
    unfold bestOrganismsIEEE
    by_cases hle : ((SliceStable (fun x y => (badness x).lt (badness y)) population).length : ℤ)
        ≤ limit
    · exact ⟨_, if_pos hle⟩
    · rw [if_neg hle, if_neg (by omega)]
      exact ⟨_, rfl⟩
  · intro best hbest v
    unfold bestOrganismsIEEE at hbest
    by_cases hle : ((SliceStable (fun x y => (badness x).lt (badness y)) population).length : ℤ)
        ≤ limit
    · rw [if_pos hle] at hbest
      cases Option.some.inj hbest
      rw [SliceStable_filter_without_nan badness population hnan v]
    · rw [if_neg hle] at hbest
      by_cases hneg : limit < 0
      · rw [if_pos hneg] at hbest
        cases hbest
      · rw [if_neg hneg] at hbest
        cases Option.some.inj hbest
        rw [← SliceStable_filter_without_nan badness population hnan v]
        exact (List.take_prefix _ _).filter _

/-- Witness of the amended C6: the heap of the example with every organism a candidate,
and four errors of which one is infinite and two are equal. -/
theorem bestOrganisms_stable_witness :
    ((0 ≤ (3 : ℤ) → ∃ r : Best, bestOrganisms stabilityHeap [0, 1, 2, 3] 3 = some r) ∧
      ∀ r : Best, bestOrganisms stabilityHeap [0, 1, 2, 3] 3 = some r →
        ∀ v : ℚ, r.elems.filter (fun p => decide (badnessAt stabilityHeap p = v)) <+:
          [0, 1, 2, 3].filter (fun p => decide (badnessAt stabilityHeap p = v))) ∧
    ((0 ≤ (3 : ℤ) → ∃ best, bestOrganismsIEEE (fun x => x)
        [Float64.posInf, Float64.finite 1, Float64.finite 1, Float64.negInf] 3 = some best) ∧
      ∀ best, bestOrganismsIEEE (fun x => x)
          [Float64.posInf, Float64.finite 1, Float64.finite 1, Float64.negInf] 3 = some best →
        ∀ v : Float64, best.filter (fun o => decide (o = v)) <+:
          [Float64.posInf, Float64.finite 1, Float64.finite 1, Float64.negInf].filter
            (fun o => decide (o = v))) ∧
    (bestOrganisms stabilityHeap [0, 1, 2, 3] 2).map Best.elems = some [1, 2] :=
  bestOrganisms_stable stabilityHeap [0, 1, 2, 3] 3 (by decide) (fun x => x)
    [Float64.posInf, Float64.finite 1, Float64.finite 1, Float64.negInf] (by simp)

/-- C6 as stated fails when a badness is NaN: on the 21 organisms of `nanBadness` the
insertion sort of the first block of 20 moves nothing, and the merge of that block with the block of organism 20
places organism 20 by a binary search, which compares it with the NaN at index 10 and 13,
with the 5 at index 15 and with the NaN at index 14, and moves it to index 15.  Organisms
19 and 20 have the same badness 1, yet organism 20 comes before organism 19 in the result;
with `limit = 16` organism 20 is returned and organism 19 is not. -/
theorem equal_badness_reordered_after_nan :
    nanBadness 19 = nanBadness 20 ∧
    bestOrganismsIEEE nanBadness (List.range 21) 21 =
      some [0, 1, 2, 3, 4, 5, 6, 7, 8, 9, 10, 11, 12, 13, 14, 20, 15, 16, 17, 18, 19] ∧
    bestOrganismsIEEE nanBadness (List.range 21) 16 =
      some [0, 1, 2, 3, 4, 5, 6, 7, 8, 9, 10, 11, 12, 13, 14, 20] ∧
    ¬ ((([0, 1, 2, 3, 4, 5, 6, 7, 8, 9, 10, 11, 12, 13, 14, 20] : List ℕ).filter
        (fun i => decide (nanBadness i = Float64.finite 1))) <+:
      ((List.range 21).filter (fun i => decide (nanBadness i = Float64.finite 1)))) := by
  decide!

end GA
